import Mathlib

/-!
# Postgraduate-Compression: `compressor.c`

A shallow embedding of `src/src/compressor.c` and theorems about it.

Conventions of the embedding.

* A C `float` is modelled by the rational number it denotes (`ℚ`). Every finite IEEE-754
  value is such a rational; NaN, the infinities and the sign of zero are not represented.
  The two places where the source computes *with* floats on the way to an integer
  (`splitFloat`, the byte count of `getVariableBitCompressedData`) are embedded with
  their rounding; the final expression of the decoders,
  `signMultiplier * (beforeDp + ((float) afterDp) / divider)`, is embedded as the exact
  rational, so its last float rounding is not modelled.
* `unsigned int` values are `Nat`; where the source can wrap, the embedding reduces
  modulo `2 ^ 32 = 4294967296`. Bytes (`unsigned char`) are `Nat` below `256`; a store
  into a byte reduces modulo `256`.
* An array is a `List`. A read outside the list yields `0` and a write outside the list
  is dropped; both are undefined behaviour in C, and the theorems below state the
  conditions under which every access of the run is inside its array.
* Each `while` loop of the source whose trip count is not syntactically evident is a
  function that recurses on a `fuel` argument. The callers pass the loop variant as
  fuel; the lemmas `packLoop_target`, `insert24Loop_target`, `readMagLoop_target` and
  `readPrecLoop_target` show that the loop has reached its exit test when the fuel is
  that large, and `mag24Loop_fuel`, `prec24Loop_fuel`, `singleMag24Loop_fuel`,
  `singlePrec24Loop_fuel` that more fuel does not change the result.
-/

namespace Compressor

/-! ## Machine arithmetic -/

/-- Decrement of an `unsigned int` (`ci--`, `uci--`). -/
def decr32 (x : Nat) : Nat := (x + 4294967295) % 4294967296

/-- Least `e` with `n < 2 ^ (24 + e)`: the number of low bits of `n` that do not fit
the 24-bit significand of a `float`. -/
def excessBits : Nat → Nat → Nat
  | 0, _ => 0
  | fuel + 1, n => if n < 16777216 then 0 else excessBits fuel (n / 2) + 1

/-- Conversion `unsigned int → float` (round to nearest, ties to even, 24-bit
significand). The result is an integer and is returned as such. -/
def toFloat32 (n : Nat) : Nat :=
  let e := excessBits 8 n
  let q := n / 2 ^ e
  let r := n % 2 ^ e
  if 2 * r > 2 ^ e ∨ (2 * r = 2 ^ e ∧ q % 2 = 1) then (q + 1) * 2 ^ e else q * 2 ^ e

/-- Value of `floor (log10 x)` for an integer `x ≥ 1`: how often `x` can be divided by
ten before it drops below ten. -/
def floorLog10 : Nat → Nat → Nat
  | 0, _ => 0
  | fuel + 1, x => if x < 10 then 0 else floorLog10 fuel (x / 10) + 1

/-- Source `numberOfDigits` (lines 119-122):
`if (numberOfBits == 0) return 1; return floor (log10 (pow(2,numberOfBits))) + 1;` -/
def numberOfDigits (numberOfBits : Nat) : Nat :=
  if numberOfBits = 0 then 1 else floorLog10 numberOfBits (2 ^ numberOfBits) + 1

/-! ## splitFloat -/

/-- Source `struct floatSplitValue`: two 3-byte little-endian arrays. -/
structure floatSplitValue where
  beforeDecimal : List Nat
  afterDecimal : List Nat
deriving DecidableEq, Repr

/-- Integer `before` of `splitFloat`: `(uint32_t) fabs(beforeDp)` with `beforeDp` the
integral part that `modff` returns. -/
def splitBefore (initialValue : ℚ) : Nat := ⌊|initialValue|⌋₊ % 4294967296

/-- Integer `after` of `splitFloat`: `(uint32_t) round(fabs(afterDp) * multiplier)` with
`afterDp` the fractional part that `modff` returns; `round` rounds halves away from
zero, which on a non-negative argument is `floor (y + 1/2)`. -/
def splitAfter (initialValue : ℚ) (multiplier : Nat) : Nat :=
  ⌊(|initialValue| - (⌊|initialValue|⌋₊ : ℚ)) * (multiplier : ℚ) + 1 / 2⌋₊ % 4294967296

/-- The three bytes `{w & 0xFF, (w >> 8) & 0xFF, (w >> 16) & 0xFF}` (index 0 first). -/
def bytes3 (w : Nat) : List Nat := [w &&& 255, (w >>> 8) &&& 255, (w >>> 16) &&& 255]

/-- Source `splitFloat` (lines 133-153). -/
def splitFloat (initialValue : ℚ) (multiplier : Nat) : floatSplitValue :=
  { beforeDecimal := bytes3 (splitBefore initialValue),
    afterDecimal := bytes3 (splitAfter initialValue multiplier) }

/-! ## Run-length codec -/

/-- Source `struct runlengthEntry`. -/
structure runlengthEntry where
  value : ℚ
  valueCount : Nat
deriving DecidableEq

/-- The `for(uci=1; uci < count; uci++)` loop of `getRunlengthCompressedData`
(lines 171-179), over the values `allValues[uci], allValues[uci+1], ...`. -/
def rleLoop : List ℚ → List runlengthEntry → Nat → List runlengthEntry × Nat
  | [], compressedData, ci => (compressedData, ci)
  | x :: rest, compressedData, ci =>
    let cur := compressedData.getD ci ⟨0, 0⟩
    if cur.value = x then
      rleLoop rest (compressedData.set ci ⟨cur.value, (cur.valueCount + 1) % 4294967296⟩) ci
    else
      rleLoop rest (compressedData.set (ci + 1) ⟨x, 1⟩) (ci + 1)

/-- Source `getRunlengthCompressedData` (lines 165-182). The result is the array
`compressedData` (all `count` calloc-ed entries) and `*newCount`. Lines 167-168 read
`allValues[0]` and write `compressedData[0]` before the loop; when `count = 0` both lie
outside their arrays and the run has no defined result (`none`). -/
def getRunlengthCompressedData (allValues : List ℚ) : Option (List runlengthEntry × Nat) :=
  match allValues[0]? with
  | none => none
  | some first =>
    let compressedData :=
      (List.replicate allValues.length (⟨0, 0⟩ : runlengthEntry)).set 0 ⟨first, 1⟩
    let r := rleLoop (allValues.drop 1) compressedData 0
    some (r.1, r.2 + 1)

/-- The value line 180 stores in `*newCount`: `ci + 1`, where `ci` starts at `0`
(line 169) and moves only inside the loop of lines 171-179. With `count = 0` the loop
test `1 < 0` fails at once and the stored value is `1`; what lines 167-168 touch outside
the two zero-length arrays does not enter into it. -/
def runlengthNewCount (allValues : List ℚ) : Nat :=
  (rleLoop (allValues.drop 1)
    ((List.replicate allValues.length (⟨0, 0⟩ : runlengthEntry)).set 0
      ⟨allValues.getD 0 0, 1⟩) 0).2 + 1

/-- The `while(compressedValues[i].valueCount != 0)` loop (lines 205-209): appends
`valueCount` copies of `value` and leaves the count at zero. -/
def unwrapEntry : Nat → ℚ → List ℚ → List ℚ
  | 0, _, out => out
  | k + 1, v, out => unwrapEntry k v (out ++ [v])

/-- The second `for` loop of `getRunlengthDecompressedData` (lines 204-210) over the
entries still to be visited; returns the output and the entries as the loop leaves
them. -/
def rleDecodeLoop : List runlengthEntry → List ℚ → List ℚ × List runlengthEntry
  | [], out => (out, [])
  | e :: rest, out =>
    let r := rleDecodeLoop rest (unwrapEntry e.valueCount e.value out)
    (r.1, ⟨e.value, 0⟩ :: r.2)

/-- Source `getRunlengthDecompressedData` (lines 194-213): the output array (its length
is `*newCount`) and the entry array after the call. `none` when `count` exceeds the
number of entries passed, since the loops then read outside the array. -/
def getRunlengthDecompressedData (compressedValues : List runlengthEntry) (count : Nat) :
    Option (List ℚ × List runlengthEntry) :=
  if count ≤ compressedValues.length then
    let r := rleDecodeLoop (compressedValues.take count) []
    some (r.1, r.2 ++ compressedValues.drop count)
  else none

/-! ## Variable-bit packer: bulk encode -/

/-- The multiplier of `getVariableBitCompressedData` and `insertSingleVariableBitValue`
(lines 556-560, 847-851): `10` when `numberOfDigits(precBits) == 1`, else
`pow(10, numberOfDigits(precBits))`. -/
def variableMultiplier (precBits : Nat) : Nat :=
  if numberOfDigits precBits = 1 then 10 else 10 ^ numberOfDigits precBits

/-- The divider of `getVariableBitDecompressedData` and `getSingleVariableBitValue`
(lines 667-672, 754-759): `10` or `pow(10, numberOfDigits(precBits)-1)`, then
`divider = divider*10`. -/
def variableDivider (precBits : Nat) : Nat :=
  ((if numberOfDigits precBits = 1 then 10 else 10 ^ (numberOfDigits precBits - 1)) * 10)
    % 4294967296

/-- Line 546 before the `-1`: `ceil(((count*(1+magBits+precBits))/(float)8))`. The
product is an `unsigned int`; it is converted to `float`, divided by `8` (exact) and
rounded up. This is also the value stored in `*newCount` (line 547, `ci+1`). -/
def newCount (count magBits precBits : Nat) : Nat :=
  (toFloat32 ((count * ((1 + magBits + precBits) % 4294967296)) % 4294967296) + 7) / 8

/-- Initial `uci` and `target` for a field of `bits` bits (lines 574-583, 606-615). -/
def fieldStart (bits : Nat) : Nat × Nat :=
  if bits ≥ 17 then (2, bits - 16) else if bits ≥ 9 then (1, bits - 8) else (0, bits)

/-- State of the packing loops: the buffer, `ci`, `space`, `uci`, `target`. -/
structure PackState where
  data : List Nat
  ci : Nat
  space : Nat
  uci : Nat
  target : Nat
deriving DecidableEq, Repr

/-- The loop `while(target != 0)` of lines 584-605 (magnitude, `src = beforeDecimal`)
and 616-637 (precision, `src = afterDecimal`); the two loops are the same text.
`clearLow = true` gives the variant of `insertSingleVariableBitValue` lines 927-950,
which first masks the byte with `(pow(2,8)-1) - (pow(2,space)-1)`. -/
def packLoop (src : List Nat) (clearLow : Bool) : Nat → PackState → PackState
  | 0, s => s
  | fuel + 1, s =>
    if s.target = 0 then s
    else
      let old := if clearLow then (255 - (2 ^ s.space - 1)) &&& s.data.getD s.ci 0
                 else s.data.getD s.ci 0
      if s.space ≥ s.target then
        let data := s.data.set s.ci ((old ||| (src.getD s.uci 0 <<< (s.space - s.target))) % 256)
        let space := s.space - s.target
        let ci := if space = 0 then decr32 s.ci else s.ci
        let space := if space = 0 then 8 else space
        if s.uci > 0 then packLoop src clearLow fuel ⟨data, ci, space, s.uci - 1, 8⟩
        else ⟨data, ci, space, decr32 s.uci, 0⟩
      else
        let data := s.data.set s.ci ((old ||| (src.getD s.uci 0 >>> (s.target - s.space))) % 256)
        packLoop src clearLow fuel ⟨data, decr32 s.ci, 8, s.uci, s.target - s.space⟩

/-- Fuel that lets `packLoop` reach `target = 0` from any state. -/
def packFuel (uci target : Nat) : Nat := 8 * uci + target + 2

/-- One field (magnitude or precision) of one record: lines 574-605 or 606-637. -/
def packField (src : List Nat) (clearLow : Bool) (bits : Nat) (data : List Nat)
    (ci space : Nat) : PackState :=
  packLoop src clearLow (packFuel (fieldStart bits).1 (fieldStart bits).2)
    ⟨data, ci, space, (fieldStart bits).1, (fieldStart bits).2⟩

/-- Body of the `for` loop of `getVariableBitCompressedData` (lines 564-637) for one
element: `neg` is `uncompressedData[i] < 0`, `value` is `splitFloat(...)`. Returns
the buffer, `ci` and `space`. -/
def packRecord (magBits precBits : Nat) (neg : Bool) (value : floatSplitValue)
    (data : List Nat) (ci space : Nat) : List Nat × Nat × Nat :=
  let data := if neg then data.set ci ((data.getD ci 0 ||| (1 <<< (space - 1))) % 256) else data
  let space := space - 1
  let ci := if space = 0 then decr32 ci else ci
  let space := if space = 0 then 8 else space
  let s := packField value.beforeDecimal false magBits data ci space
  let s := packField value.afterDecimal false precBits s.data s.ci s.space
  (s.data, s.ci, s.space)

/-- The `for(i = 0; i < count; i++)` loop of lines 563-638. -/
def encodeLoop (magBits precBits multiplier : Nat) :
    List ℚ → List Nat → Nat → Nat → List Nat × Nat × Nat
  | [], data, ci, space => (data, ci, space)
  | x :: rest, data, ci, space =>
    let r := packRecord magBits precBits (decide (x < 0)) (splitFloat x multiplier) data ci space
    encodeLoop magBits precBits multiplier rest r.1 r.2.1 r.2.2

/-- Source `getVariableBitCompressedData` (lines 545-640): the returned buffer; its
length is `*newCount`. The loop walks `ci` down from `*newCount - 1`; when the records need
more bits than the buffer has (`count*(1+magBits+precBits) > 8 * *newCount`, possible
because the byte count goes through a `float`), the source goes on at
`compressedData[0xFFFFFFFF]`, outside the buffer, where this embedding drops the store. The
embedding stands for the run only when the records fit. -/
def getVariableBitCompressedData (uncompressedData : List ℚ) (magBits precBits : Nat) :
    List Nat :=
  let n := newCount uncompressedData.length magBits precBits
  (encodeLoop magBits precBits (variableMultiplier precBits) uncompressedData
    (List.replicate n 0) (decr32 n) 8).1

/-! ## Variable-bit packer: bulk decode and single read -/

/-- State of the unpacking loops: the accumulator (`beforeDp` or `afterDp`), `ci`,
`target`, `uncompBits`. -/
structure ReadState where
  acc : Nat
  ci : Nat
  target : Nat
  uncompBits : Nat
deriving DecidableEq, Repr

/-- The magnitude loop, lines 693-709 (and, the same text, 785-801). -/
def readMagLoop (allValues : List Nat) : Nat → ReadState → ReadState
  | 0, s => s
  | fuel + 1, s =>
    if s.target = 0 then s
    else if s.target > s.uncompBits then
      readMagLoop allValues fuel
        ⟨s.acc ||| (((allValues.getD s.ci 0 &&& (2 ^ s.uncompBits - 1))
            <<< (s.target - s.uncompBits)) % 4294967296),
          decr32 s.ci, s.target - s.uncompBits, 8⟩
    else
      let acc := s.acc ||| ((allValues.getD s.ci 0 >>> (s.uncompBits - s.target))
            &&& (2 ^ s.target - 1))
      let uncompBits := s.uncompBits - s.target
      if uncompBits = 0 then ⟨acc, decr32 s.ci, 0, 8⟩ else ⟨acc, s.ci, 0, uncompBits⟩

/-- The precision loop, lines 713-729 (and, the same text, 805-820). In its first
branch the shift is applied to the whole of `afterDp | (...)`. -/
def readPrecLoop (allValues : List Nat) : Nat → ReadState → ReadState
  | 0, s => s
  | fuel + 1, s =>
    if s.target = 0 then s
    else if s.target > s.uncompBits then
      readPrecLoop allValues fuel
        ⟨((s.acc ||| (allValues.getD s.ci 0 &&& (2 ^ s.uncompBits - 1)))
            <<< (s.target - s.uncompBits)) % 4294967296,
          decr32 s.ci, s.target - s.uncompBits, 8⟩
    else
      let acc := s.acc ||| ((allValues.getD s.ci 0 >>> (s.uncompBits - s.target))
            &&& (2 ^ s.target - 1))
      let uncompBits := s.uncompBits - s.target
      if uncompBits = 0 then ⟨acc, decr32 s.ci, 0, 8⟩ else ⟨acc, s.ci, 0, uncompBits⟩

/-- What the decoders extract for one record. -/
structure Decoded where
  signMultiplier : Int
  beforeDp : Nat
  afterDp : Nat
deriving DecidableEq, Repr

/-- The expression `signMultiplier * (beforeDp + ((float) afterDp) / divider)` as an
exact rational. -/
def Decoded.toValue (d : Decoded) (divider : Nat) : ℚ :=
  (d.signMultiplier : ℚ) * ((d.beforeDp : ℚ) + (d.afterDp : ℚ) / (divider : ℚ))

/-- Lines 676-729 (and 767-820): read one record at the cursor `(ci, uncompBits)`;
returns the record and the cursor behind it. -/
def readRecord (allValues : List Nat) (magBits precBits ci uncompBits : Nat) :
    Decoded × Nat × Nat :=
  let signMultiplier : Int :=
    if (allValues.getD ci 0 >>> (uncompBits - 1)) &&& (2 ^ 1 - 1) = 1 then -1 else 1
  let uncompBits := uncompBits - 1
  let ci := if uncompBits = 0 then decr32 ci else ci
  let uncompBits := if uncompBits = 0 then 8 else uncompBits
  let m := readMagLoop allValues (magBits + 1) ⟨0, ci, magBits, uncompBits⟩
  let p := readPrecLoop allValues (precBits + 1) ⟨0, m.ci, precBits, m.uncompBits⟩
  (⟨signMultiplier, m.acc, p.acc⟩, p.ci, p.uncompBits)

/-- Line 664: `(uint32_t) (ceil((8*count)/(1+magBits+precBits)))`; the division is the
integer division of two `unsigned int`, so `ceil` receives an integer. -/
def uncompLimit (count magBits precBits : Nat) : Nat :=
  ((8 * count) % 4294967296) / ((1 + magBits + precBits) % 4294967296)

/-- The loop `while(uci != uncompLimit)` of lines 675-732, with the number of
iterations still to run as the recursion argument. -/
def decodeLoop (allValues : List Nat) (magBits precBits divider : Nat) :
    Nat → Nat → Nat → List ℚ
  | 0, _, _ => []
  | todo + 1, ci, uncompBits =>
    let r := readRecord allValues magBits precBits ci uncompBits
    r.1.toValue divider :: decodeLoop allValues magBits precBits divider todo r.2.1 r.2.2

/-- Source `getVariableBitDecompressedData` (lines 654-734): the values written to
`uncompressed[0 .. uncompLimit-1]`. (The source allocates `count` floats for them.) -/
def getVariableBitDecompressedData (allValues : List Nat) (count magBits precBits : Nat) :
    List ℚ :=
  decodeLoop allValues magBits precBits (variableDivider precBits)
    (uncompLimit count magBits precBits) (decr32 count) 8

/-- Bit offset `targetIndex*(1+magBits+precBits)` of lines 749-750 and 836-837. -/
def bitOffset (targetIndex magBits precBits : Nat) : Nat :=
  (targetIndex * ((1 + magBits + precBits) % 4294967296)) % 4294967296

/-- `startByte = byteCount-1-startByte` (lines 751, 838), in `unsigned int`. -/
def startByte (byteCount targetIndex magBits precBits : Nat) : Nat :=
  (byteCount + 4294967295 - bitOffset targetIndex magBits precBits / 8) % 4294967296

/-- `startIndex = 7-startIndex` (lines 752, 839). -/
def startIndex (targetIndex magBits precBits : Nat) : Nat :=
  7 - bitOffset targetIndex magBits precBits % 8

/-- Source `getSingleVariableBitValue` (lines 748-822). -/
def getSingleVariableBitValue (allValues : List Nat) (byteCount targetIndex magBits
    precBits : Nat) : ℚ :=
  (readRecord allValues magBits precBits (startByte byteCount targetIndex magBits precBits)
    (startIndex targetIndex magBits precBits + 1)).1.toValue (variableDivider precBits)

/-! ## Variable-bit packer: single overwrite -/

/-- The loop `while(totalToZero != 0)` of lines 855-864: clears one bit per round
(`allValues[ind] &= ~(1UL << currentCount)`), walking down. -/
def clearLoop : Nat → List Nat → Nat → Nat → List Nat
  | 0, allValues, _, _ => allValues
  | totalToZero + 1, allValues, ind, currentCount =>
    let allValues := allValues.set ind (allValues.getD ind 0 &&& (255 - 2 ^ currentCount))
    if currentCount = 0 then clearLoop totalToZero allValues (decr32 ind) 7
    else clearLoop totalToZero allValues ind (currentCount - 1)

/-- Source `insertSingleVariableBitValue` (lines 835-951): the buffer after the call. -/
def insertSingleVariableBitValue (allValues : List Nat) (byteCount targetIndex : Nat)
    (value : ℚ) (magBits precBits : Nat) : List Nat :=
  let ci := startByte byteCount targetIndex magBits precBits
  let startIdx := startIndex targetIndex magBits precBits
  let space := startIdx
  let split := splitFloat value (variableMultiplier precBits)
  let allValues := clearLoop (1 + magBits + precBits) allValues ci startIdx
  let allValues :=
    if value < 0 then allValues.set ci ((allValues.getD ci 0 ||| (1 <<< startIdx)) % 256)
    else allValues
  let ci := if space = 0 then decr32 ci else ci
  let space := if space = 0 then 8 else space
  let s := packField split.beforeDecimal false magBits allValues ci space
  let s := packField split.afterDecimal true precBits s.data s.ci s.space
  s.data

/-! ## Fixed-width 24-bit variant -/

/-- Source `struct compressedVal`: `data[0]`, `data[1]`, `data[2]`, as a 3-element
list (index 0 first). -/
abbrev compressedVal := List Nat

/-- The multiplier of `get24BitCompressedData` (lines 231-235) and the divider of
`get24BitDecompressedData` (lines 319-323), which are the same text: `10` when
`numberOfDigits(precBits) == 1`, else `pow(10, numberOfDigits(precBits)-1)`. -/
def multiplier24 (precBits : Nat) : Nat :=
  if numberOfDigits precBits = 1 then 10 else 10 ^ (numberOfDigits precBits - 1)

/-- Body of the `for` loop of `get24BitCompressedData` (lines 241-300) for one element,
which `calloc` left as `{0, 0, 0}`: `neg` is `uncompressedData[i] < 0`, `value` is
`splitFloat(...)`. The magnitude loop of lines 272-293 is the text of lines 584-605. -/
def compress24 (magBits precBits : Nat) (neg : Bool) (value : floatSplitValue) :
    compressedVal :=
  let d : List Nat := [0, 0, 0]
  let d := if neg then d.set 2 (1 <<< 7) else d
  if magBits + 1 = 8 then
    let d := d.set 2 ((d.getD 2 0 ||| value.beforeDecimal.getD 0 0) % 256)
    let d := d.set 1 (value.afterDecimal.getD 1 0)
    d.set 0 (value.afterDecimal.getD 0 0)
  else if magBits + 1 < 8 then
    let d := d.set 2 ((d.getD 2 0 ||| (value.beforeDecimal.getD 0 0 <<< (7 - magBits))) % 256)
    let d := d.set 2 ((d.getD 2 0 ||| value.afterDecimal.getD 2 0) % 256)
    let d := d.set 1 (value.afterDecimal.getD 1 0)
    d.set 0 (value.afterDecimal.getD 0 0)
  else
    let s := packLoop value.beforeDecimal false
      (packFuel (fieldStart magBits).1 (fieldStart magBits).2)
      ⟨d, 2, 7, (fieldStart magBits).1, (fieldStart magBits).2⟩
    if magBits ≥ 17 then
      s.data.set 0 ((s.data.getD 0 0 |||
        (value.afterDecimal.getD 0 0 &&& (2 ^ precBits - 1))) % 256)
    else
      let d := s.data.set 1 ((s.data.getD 1 0 ||| value.afterDecimal.getD 1 0) % 256)
      d.set 0 (value.afterDecimal.getD 0 0)

/-- Source `get24BitCompressedData` (lines 226-303). -/
def get24BitCompressedData (uncompressedData : List ℚ) (magBits precBits : Nat) :
    List compressedVal :=
  uncompressedData.map (fun x =>
    compress24 magBits precBits (decide (x < 0)) (splitFloat x (multiplier24 precBits)))

/-- Read of `data[ci]` with an `int` index. -/
def getI (data : List Nat) (ci : Int) : Nat := if 0 ≤ ci then data.getD ci.toNat 0 else 0

/-- The loop `while(magBitsLeft != 0)` of lines 352-361: returns `beforeDp` and `ci`. -/
def mag24Loop (data : List Nat) : Nat → Nat → Nat → Int → Nat × Int
  | 0, beforeDp, _, ci => (beforeDp, ci)
  | fuel + 1, beforeDp, magBitsLeft, ci =>
    if magBitsLeft = 0 then (beforeDp, ci)
    else if magBitsLeft ≥ 8 then
      mag24Loop data fuel
        (beforeDp ||| ((getI data ci <<< (magBitsLeft - 8)) % 4294967296))
        (magBitsLeft - 8) (ci - 1)
    else
      (beforeDp ||| ((((2 ^ 8 - 1) - (2 ^ (8 - magBitsLeft) - 1)) &&& getI data ci)
          >>> (8 - magBitsLeft)), ci)

/-- The loop `while(precBitsLeft != 0)` of lines 362-371: returns `afterDp`. The first
branch neither shifts `afterDp` nor moves `ci`. -/
def prec24Loop (data : List Nat) (precBits : Nat) : Nat → Nat → Nat → Int → Nat
  | 0, afterDp, _, _ => afterDp
  | fuel + 1, afterDp, precBitsLeft, ci =>
    if precBitsLeft = 0 then afterDp
    else if precBitsLeft ≥ 8 then
      prec24Loop data precBits fuel (afterDp ||| getI data ci) (precBitsLeft - 8) ci
    else (2 ^ precBits - 1) &&& getI data ci

/-- Body of the `for` loop of `get24BitDecompressedData` (lines 329-372) for one
element: sign, `beforeDp`, `afterDp`. -/
def decompress24 (magBits precBits : Nat) (data : compressedVal) : Decoded :=
  let signMultiplier : Int := if data.getD 2 0 >>> 7 = 1 then -1 else 1
  if magBits + 1 < 8 then
    let beforeDp := (data.getD 2 0 >>> (7 - magBits)) &&& (2 ^ magBits - 1)
    let afterDp := (data.getD 2 0 &&& (2 ^ (precBits % 8) - 1)) <<< 16
    let afterDp := afterDp ||| (data.getD 1 0 <<< 8)
    let afterDp := afterDp ||| data.getD 0 0
    ⟨signMultiplier, beforeDp, afterDp⟩
  else if magBits + 1 = 8 then
    let beforeDp := data.getD 2 0 &&& (2 ^ magBits - 1)
    let afterDp := data.getD 1 0 <<< 8
    let afterDp := afterDp ||| data.getD 0 0
    ⟨signMultiplier, beforeDp, afterDp⟩
  else
    let beforeDp := ((data.getD 2 0 &&& (2 ^ 7 - 1)) <<< (magBits - 7)) % 4294967296
    let m := mag24Loop data (magBits - 7 + 1) beforeDp (magBits - 7) 1
    let afterDp := prec24Loop data precBits (precBits + 1) 0 precBits m.2
    ⟨signMultiplier, m.1, afterDp⟩

/-- Source `get24BitDecompressedData` (lines 316-376). -/
def get24BitDecompressedData (allValues : List compressedVal) (magBits precBits : Nat) :
    List ℚ :=
  allValues.map (fun d => (decompress24 magBits precBits d).toValue (multiplier24 precBits))

/-- The loop `while(magBits != 0)` of `getSingle24BitValue` (lines 426-435), where the
parameter `magBits` itself counts down: returns `beforeDp` and `ci`. -/
def singleMag24Loop (data : List Nat) : Nat → Nat → Nat → Int → Nat × Int
  | 0, beforeDp, _, ci => (beforeDp, ci)
  | fuel + 1, beforeDp, magBits, ci =>
    if magBits = 0 then (beforeDp, ci)
    else if magBits ≥ 8 then
      singleMag24Loop data fuel
        (beforeDp ||| ((getI data ci <<< (magBits - 8)) % 4294967296))
        (magBits - 8) (ci - 1)
    else
      (beforeDp ||| ((((2 ^ 8 - 1) - (2 ^ (8 - magBits) - 1)) &&& getI data ci)
          >>> (8 - magBits)), ci)

/-- The loop `while(precBitsLeft != 0)` of `getSingle24BitValue` (lines 436-445):
returns `afterDp`. -/
def singlePrec24Loop (data : List Nat) (precBits : Nat) : Nat → Nat → Nat → Int → Nat
  | 0, afterDp, _, _ => afterDp
  | fuel + 1, afterDp, precBitsLeft, ci =>
    if precBitsLeft = 0 then afterDp
    else if precBitsLeft ≥ 8 then
      singlePrec24Loop data precBits fuel (afterDp ||| getI data ci) (precBitsLeft - 8) ci
    else (2 ^ precBits - 1) &&& getI data ci

/-- Source `getSingle24BitValue` (lines 389-448); `targetVal` is `allValues[index]`. -/
def getSingle24BitValue (allValues : List compressedVal) (index magBits precBits : Nat) : ℚ :=
  let targetVal := allValues.getD index []
  let signMultiplier : Int := if targetVal.getD 2 0 >>> 7 = 1 then -1 else 1
  let d : Decoded :=
    if magBits + 1 < 8 then
      let beforeDp := (targetVal.getD 2 0 >>> (7 - magBits)) &&& (2 ^ magBits - 1)
      let afterDp := (targetVal.getD 2 0 &&& (2 ^ (precBits % 8) - 1)) <<< 16
      let afterDp := afterDp ||| (targetVal.getD 1 0 <<< 8)
      let afterDp := afterDp ||| targetVal.getD 0 0
      ⟨signMultiplier, beforeDp, afterDp⟩
    else if magBits + 1 = 8 then
      let beforeDp := targetVal.getD 2 0 &&& (2 ^ magBits - 1)
      let afterDp := targetVal.getD 1 0 <<< 8
      let afterDp := afterDp ||| targetVal.getD 0 0
      ⟨signMultiplier, beforeDp, afterDp⟩
    else
      let beforeDp := ((targetVal.getD 2 0 &&& (2 ^ 7 - 1)) <<< (magBits - 7)) % 4294967296
      let m := singleMag24Loop targetVal (magBits - 7 + 1) beforeDp (magBits - 7) 1
      let afterDp := singlePrec24Loop targetVal precBits (precBits + 1) 0 precBits m.2
      ⟨signMultiplier, m.1, afterDp⟩
  d.toValue (multiplier24 precBits)

/-- The magnitude loop of `insertSingle24BitValue` (lines 503-523). Unlike the loop of
the bulk encoders it decrements `uci` first and then tests `uci == 0`. -/
def insert24Loop (src : List Nat) : Nat → PackState → PackState
  | 0, s => s
  | fuel + 1, s =>
    if s.target = 0 then s
    else if s.space ≥ s.target then
      let data := s.data.set s.ci
        ((s.data.getD s.ci 0 ||| (src.getD s.uci 0 <<< (s.space - s.target))) % 256)
      let space := s.space - s.target
      let ci := if space = 0 then decr32 s.ci else s.ci
      let space := if space = 0 then 8 else space
      let uci := decr32 s.uci
      if uci = 0 then insert24Loop src fuel ⟨data, ci, space, uci, 8⟩
      else ⟨data, ci, space, uci, 0⟩
    else
      let data := s.data.set s.ci
        ((s.data.getD s.ci 0 ||| (src.getD s.uci 0 >>> (s.target - s.space))) % 256)
      insert24Loop src fuel ⟨data, decr32 s.ci, 8, s.uci, s.target - s.space⟩

/-- The element `allValues[index]` as `insertSingle24BitValue` leaves it (lines 461-530);
the three bytes are cleared first, so it does not depend on the old content. -/
def inserted24 (updatedValue : ℚ) (magBits precBits : Nat) : compressedVal :=
  let value := splitFloat updatedValue (multiplier24 precBits)
  let d : List Nat := [0, 0, 0]
  let d := if updatedValue < 0 then d.set 2 (1 <<< 7) else d
  if magBits + 1 = 8 then
    let d := d.set 2 ((d.getD 2 0 ||| value.beforeDecimal.getD 0 0) % 256)
    let d := d.set 1 (value.afterDecimal.getD 1 0)
    d.set 0 (value.afterDecimal.getD 0 0)
  else if magBits + 1 < 8 then
    let d := d.set 2 ((d.getD 2 0 ||| (value.beforeDecimal.getD 0 0 <<< (7 - magBits))) % 256)
    let d := d.set 2 ((d.getD 2 0 ||| value.afterDecimal.getD 2 0) % 256)
    let d := d.set 1 (value.afterDecimal.getD 1 0)
    d.set 0 (value.afterDecimal.getD 0 0)
  else
    let s := insert24Loop value.beforeDecimal
      (packFuel (fieldStart magBits).1 (fieldStart magBits).2)
      ⟨d, 2, 7, (fieldStart magBits).1, (fieldStart magBits).2⟩
    if magBits ≥ 17 then
      s.data.set 0 ((s.data.getD 0 0 |||
        (value.afterDecimal.getD 0 0 &&& (2 ^ precBits - 1))) % 256)
    else
      let d := s.data.set 1 ((s.data.getD 1 0 ||| value.afterDecimal.getD 1 0) % 256)
      d.set 0 (value.afterDecimal.getD 0 0)

/-- Source `insertSingle24BitValue` (lines 460-531): the array after the call. -/
def insertSingle24BitValue (allValues : List compressedVal) (updatedValue : ℚ)
    (index magBits precBits : Nat) : List compressedVal :=
  allValues.set index (inserted24 updatedValue magBits precBits)

/-! ## Vocabulary of the statements -/

/-- Ceiling of `a / b` for `b > 0` (see `ceilDiv_eq_ceil`). -/
def ceilDiv (a b : Nat) : Nat := (a + b - 1) / b

/-- Bit `b` of the bit stream a buffer holds: bit `7 - b mod 8` of byte
`N - 1 - floor(b / 8)`, where `N` is the length of the buffer. -/
def streamBit (buf : List Nat) (b : Nat) : Bool :=
  (buf.getD (buf.length - 1 - b / 8) 0).testBit (7 - b % 8)

/-- The record word `s * 2^(M+P) + m * 2^P + f` of an input value, with `s`, `m`, `f`
as the bulk encoder computes them. -/
def recordWord (magBits precBits : Nat) (x : ℚ) : Nat :=
  (if x < 0 then 1 else 0) * 2 ^ (magBits + precBits) + splitBefore x * 2 ^ precBits
    + splitAfter x (variableMultiplier precBits)

/-- The triple `(sign, m, f)` the bulk encoder computes for an input value. -/
def recordTriple (precBits : Nat) (x : ℚ) : Bool × Nat × Nat :=
  (decide (x < 0), splitBefore x, splitAfter x (variableMultiplier precBits))

/-- The array a run list stands for: each `value` written `valueCount` times. -/
def expandRuns : List runlengthEntry → List ℚ
  | [] => []
  | e :: rest => List.replicate e.valueCount e.value ++ expandRuns rest

/-- The quantized form of `x`: `sign(x) * (floor|x| + round(frac|x| * D) / D)` with `D`
the multiplier of the variable-bit encoders. -/
def quantize (precBits : Nat) (x : ℚ) : ℚ :=
  (if x < 0 then -1 else 1) * ((splitBefore x : ℚ)
    + (splitAfter x (variableMultiplier precBits) : ℚ) / (variableMultiplier precBits : ℚ))

/-- The buffer agrees with the stream `bits` on the first `pos` stream bits and is
zero behind them; every byte is below `256`. -/
def Packed (buf : List Nat) (pos : Nat) (bits : Nat → Bool) : Prop :=
  (∀ c, buf.getD c 0 < 256) ∧
    ∀ b, b < 8 * buf.length → streamBit buf b = (decide (b < pos) && bits b)

/-- The cursor `(ci, space)` stands behind `pos` stream bits of an `N`-byte buffer. -/
def CursorAt (N pos ci space : Nat) : Prop :=
  space = 8 - pos % 8 ∧ (pos < 8 * N → ci = N - 1 - pos / 8)


/-! # Theorems -/

/-! ## Arithmetic helpers -/

/-- The integer expression `ceilDiv a b` is the ceiling of the rational `a / b`. -/
theorem ceilDiv_eq_ceil (a b : Nat) (hb : 0 < b) : ceilDiv a b = ⌈(a : ℚ) / (b : ℚ)⌉₊ := by
  unfold ceilDiv
  have hbq : (0 : ℚ) < (b : ℚ) := by exact_mod_cast hb
  symm
  by_cases ha : a = 0
  · subst ha
    have : (0 + b - 1) / b = 0 := Nat.div_eq_of_lt (by omega)
    rw [this]
    simp
  · have h1 := Nat.div_add_mod (a + b - 1) b
    have h2 := Nat.mod_lt (a + b - 1) hb
    generalize (a + b - 1) / b = q at h1 ⊢
    generalize (a + b - 1) % b = r at h1 h2
    have hq : 1 ≤ q := by
      by_contra h
      have h0 : q = 0 := by omega
      rw [h0, Nat.mul_zero] at h1
      omega
    obtain ⟨p, rfl⟩ : ∃ p, q = p + 1 := ⟨q - 1, by omega⟩
    have h3 : b * (p + 1) = b * p + b := by ring
    rw [Nat.ceil_eq_iff (by omega)]
    constructor
    · rw [lt_div_iff₀ hbq]
      have : p * b < a := by
        have : p * b = b * p := Nat.mul_comm _ _
        omega
      have h4 : ((p * b : ℕ) : ℚ) < (a : ℚ) := by exact_mod_cast this
      simpa using h4
    · rw [div_le_iff₀ hbq]
      have : a ≤ (p + 1) * b := by
        have : (p + 1) * b = b * (p + 1) := Nat.mul_comm _ _
        omega
      exact_mod_cast this

/-- Bits of a record word: the low `P` bits are `f`, the next `M` bits are `m`, the rest is
`s`. -/
theorem word_testBit (M P s m f j : Nat) (hm : m < 2 ^ M) (hf : f < 2 ^ P) :
    (s * 2 ^ (M + P) + m * 2 ^ P + f).testBit j =
      if j < P then f.testBit j else if j < M + P then m.testBit (j - P)
      else s.testBit (j - (M + P)) := by
  have e : s * 2 ^ (M + P) + m * 2 ^ P + f = 2 ^ P * (2 ^ M * s + m) + f := by ring
  rw [e, Nat.testBit_mul_pow_two_add _ hf]
  split_ifs with h1 h2
  · rfl
  · rw [Nat.testBit_mul_pow_two_add _ hm, if_pos (by omega)]
  · rw [Nat.testBit_mul_pow_two_add _ hm, if_neg (by omega)]
    congr 1
    omega

theorem excessBits_le : ∀ fuel n, excessBits fuel n ≤ fuel := by
  intro fuel
  induction fuel with
  | zero => intro n; simp [excessBits]
  | succ k ih =>
    intro n
    rw [excessBits]
    split_ifs
    · omega
    · have := ih (n / 2); omega

theorem toFloat32_le (n : Nat) : toFloat32 n ≤ n + 256 := by
  unfold toFloat32
  simp only
  have he := excessBits_le 8 n
  generalize excessBits 8 n = e at he ⊢
  have h1 := Nat.div_mul_le_self n (2 ^ e)
  have h2 : 2 ^ e ≤ 2 ^ 8 := Nat.pow_le_pow_right (by decide) he
  have h3 : (n / 2 ^ e + 1) * 2 ^ e = n / 2 ^ e * 2 ^ e + 2 ^ e := by ring
  simp only [Nat.reducePow] at h2
  split_ifs <;> omega

/-- An `unsigned int` up to `2^24` is converted to `float` without rounding. -/
theorem toFloat32_exact {n : Nat} (h : n ≤ 16777216) : toFloat32 n = n := by
  rcases Nat.lt_or_ge n 16777216 with h1 | h1
  · unfold toFloat32
    have : excessBits 8 n = 0 := by
      rw [excessBits, if_pos h1]
    simp [this, Nat.mod_one]
  · have : n = 16777216 := by omega
    subst this
    decide

theorem newCount_le (n M P : Nat) : newCount n M P ≤ 4294967296 := by
  unfold newCount
  have h1 := toFloat32_le ((n * ((1 + M + P) % 4294967296)) % 4294967296)
  have h2 := Nat.mod_lt (n * ((1 + M + P) % 4294967296)) (show 0 < 4294967296 by decide)
  omega

/-- Up to `2^24` stream bits the byte count of line 546 is the exact ceiling. -/
theorem newCount_exact {n M P : Nat} (h : n * (1 + M + P) ≤ 16777216) (hn : 0 < n) :
    newCount n M P = ceilDiv (n * (1 + M + P)) 8 := by
  unfold newCount ceilDiv
  have hk : 1 + M + P ≤ 16777216 := by
    calc 1 + M + P = 1 * (1 + M + P) := by ring
      _ ≤ n * (1 + M + P) := Nat.mul_le_mul_right _ hn
      _ ≤ 16777216 := h
  rw [Nat.mod_eq_of_lt (show 1 + M + P < 4294967296 by omega),
    Nat.mod_eq_of_lt (show n * (1 + M + P) < 4294967296 by omega), toFloat32_exact h]
  rfl

/-! ## Buffer writes -/

/-- Read after write in a byte array. -/
theorem getD_set (l : List Nat) (i j v : Nat) :
    (l.set i v).getD j 0 = if i = j ∧ i < l.length then v else l.getD j 0 := by
  simp only [List.getD_eq_getElem?_getD, List.getElem?_set]
  by_cases h : i = j
  · subst h
    by_cases h2 : i < l.length
    · simp [h2]
    · have : l[i]? = none := by simp; omega
      simp [h2, this]
  · simp [h]

theorem testBit_byte (x j : Nat) : (x % 256).testBit j = (decide (j < 8) && x.testBit j) := by
  have := Nat.testBit_mod_two_pow x 8 j
  simpa using this

theorem testBit_of_lt_256 {x : Nat} (h : x < 256) {j : Nat} (hj : 8 ≤ j) : x.testBit j = false := by
  apply Nat.testBit_lt_two_pow
  calc x < 2 ^ 8 := by simpa using h
    _ ≤ 2 ^ j := Nat.pow_le_pow_right (by decide) hj

theorem decr32_pos {x : Nat} (h1 : 0 < x) (h2 : x ≤ 4294967296) : decr32 x = x - 1 := by
  unfold decr32; omega

/-- The cursor update `space -= t; if(space == 0) { ci--; space = 8; }` moves the cursor `t`
bits on. -/
theorem cursorAt_advance {N pos ci space t : Nat} (hN : N ≤ 4294967296)
    (hc : CursorAt N pos ci space) (ht : t ≤ space) (hpos : pos < 8 * N) :
    CursorAt N (pos + t) (if space - t = 0 then decr32 ci else ci)
      (if space - t = 0 then 8 else space - t) := by
  obtain ⟨h1, h2⟩ := hc
  have hci := h2 hpos
  unfold CursorAt decr32
  split_ifs with h
  · refine ⟨by omega, fun h3 => ?_⟩
    omega
  · refine ⟨by omega, fun h3 => ?_⟩
    omega

/-- The store `data[ci] = data[ci] | x`, where the low eight bits of `x` are the next `t`
stream bits placed at the cursor, extends the packed prefix by `t` bits. -/
theorem packed_or {buf : List Nat} {pos ci space t x : Nat} {bits : Nat → Bool}
    (hp : Packed buf pos bits) (hc : CursorAt buf.length pos ci space)
    (ht1 : 1 ≤ t) (ht : t ≤ space) (hfit : pos + t ≤ 8 * buf.length)
    (hx : ∀ j, j < 8 → x.testBit j =
      (decide (space - t ≤ j ∧ j < space) && bits (pos + (space - 1 - j)))) :
    Packed (buf.set ci ((buf.getD ci 0 ||| x) % 256)) (pos + t) bits := by
  obtain ⟨hb, hs⟩ := hp
  obtain ⟨h1, h2⟩ := hc
  have hci := h2 (by omega)
  constructor
  · intro c
    rw [getD_set]
    split_ifs
    · exact Nat.mod_lt _ (by decide)
    · exact hb c
  · intro b hbl
    rw [List.length_set] at hbl
    have hsb := hs b hbl
    unfold streamBit at hsb ⊢
    rw [List.length_set, getD_set]
    by_cases hc2 : ci = buf.length - 1 - b / 8
    · have hcl : ci < buf.length := by omega
      rw [if_pos ⟨hc2, hcl⟩, testBit_byte, Nat.testBit_or, hx _ (by omega)]
      rw [← hc2] at hsb
      rw [hsb]
      have e0 : (7 - b % 8 < 8) := by omega
      by_cases hlt : b < pos
      · have h3 : ¬ (space - t ≤ 7 - b % 8 ∧ 7 - b % 8 < space) := by omega
        have hlt2 : b < pos + t := by omega
        rw [decide_eq_false h3, decide_eq_true hlt, decide_eq_true hlt2, decide_eq_true e0]
        simp
      · by_cases hlt2 : b < pos + t
        · have h3 : (space - t ≤ 7 - b % 8 ∧ 7 - b % 8 < space) := by omega
          have h4 : pos + (space - 1 - (7 - b % 8)) = b := by omega
          rw [decide_eq_true h3, decide_eq_false hlt, decide_eq_true hlt2, decide_eq_true e0, h4]
          simp
        · have h3 : ¬ (space - t ≤ 7 - b % 8 ∧ 7 - b % 8 < space) := by omega
          rw [decide_eq_false h3, decide_eq_false hlt, decide_eq_false hlt2]
          simp
    · have : ¬ (ci = buf.length - 1 - b / 8 ∧ ci < buf.length) := fun h => hc2 h.1
      rw [if_neg this, hsb]
      have : (b < pos ↔ b < pos + t) := by omega
      simp [this]

/-! ## Bulk encode: the packing loops -/

/-- Invariant of the packing loop of the bulk encoder: started behind `pos` stream bits with
`8 * uci + target` bits of `src` still to go, it leaves the buffer packed up to `pos + 8
* uci + target` and the cursor behind that bit. -/
theorem packLoop_spec (src : List Nat) (bits : Nat → Bool) (hsrc : ∀ i, src.getD i 0 < 256) :
    ∀ (fuel : Nat) (s : PackState) (pos : Nat),
      Packed s.data pos bits → CursorAt s.data.length pos s.ci s.space →
      s.data.length ≤ 4294967296 →
      s.target ≤ 8 → (s.target = 0 → s.uci = 0) →
      (src.getD s.uci 0 < 2 ^ s.target ∨ s.space = 8) →
      (∀ d, d < 8 * s.uci + s.target →
        bits (pos + d) = (src.getD ((8 * s.uci + s.target - 1 - d) / 8) 0).testBit
          ((8 * s.uci + s.target - 1 - d) % 8)) →
      pos + (8 * s.uci + s.target) ≤ 8 * s.data.length →
      8 * s.uci + s.target < fuel →
      Packed (packLoop src false fuel s).data (pos + (8 * s.uci + s.target)) bits ∧
      CursorAt s.data.length (pos + (8 * s.uci + s.target))
        (packLoop src false fuel s).ci (packLoop src false fuel s).space ∧
      (packLoop src false fuel s).data.length = s.data.length ∧
      (packLoop src false fuel s).target = 0 := by
  intro fuel
  induction fuel with
  | zero => intro s pos _ _ _ _ _ _ _ _ hf; omega
  | succ fuel ih =>
    intro s pos hp hc hN ht8 ht0 hhi hbits hfit hfuel
    obtain ⟨data, ci, space, uci, target⟩ := s
    simp only at hp hc hN ht8 ht0 hhi hbits hfit hfuel ⊢
    rw [packLoop]
    simp only [Bool.false_eq_true, if_false]
    by_cases htz : target = 0
    · have hu := ht0 htz
      subst htz; subst hu
      simp only [if_true]
      exact ⟨by simpa using hp, by simpa using hc, trivial, trivial⟩
    · rw [if_neg htz]
      have hsp : space = 8 - pos % 8 := hc.1
      by_cases hge : space ≥ target
      · rw [if_pos hge]
        have hx : ∀ j, j < 8 → (src.getD uci 0 <<< (space - target)).testBit j =
            (decide (space - target ≤ j ∧ j < space) && bits (pos + (space - 1 - j))) := by
          intro j hj
          rw [Nat.testBit_shiftLeft]
          by_cases h1 : space - target ≤ j
          · by_cases h2 : j < space
            · have h3 := hbits (space - 1 - j) (by omega)
              have e1 : (8 * uci + target - 1 - (space - 1 - j)) / 8 = uci := by omega
              have e2 : (8 * uci + target - 1 - (space - 1 - j)) % 8 = j - (space - target) := by
                omega
              rw [e1, e2] at h3
              rw [h3, decide_eq_true (show j ≥ space - target from h1),
                decide_eq_true (show space - target ≤ j ∧ j < space from ⟨h1, h2⟩)]
            · have hlt : src.getD uci 0 < 2 ^ target := by
                rcases hhi with h | h
                · exact h
                · omega
              have : (src.getD uci 0).testBit (j - (space - target)) = false := by
                apply Nat.testBit_lt_two_pow
                calc src.getD uci 0 < 2 ^ target := hlt
                  _ ≤ 2 ^ (j - (space - target)) := Nat.pow_le_pow_right (by decide) (by omega)
              rw [this, decide_eq_false (show ¬ (space - target ≤ j ∧ j < space) from fun h => h2 h.2)]
              simp
          · rw [decide_eq_false (show ¬ (j ≥ space - target) from h1),
              decide_eq_false (show ¬ (space - target ≤ j ∧ j < space) from fun h => h1 h.1)]
            simp
        have hp2 := packed_or hp hc (by omega) hge (by omega) hx
        have hc2 := cursorAt_advance hN hc hge (by omega)
        by_cases hu : uci > 0
        · rw [if_pos hu]
          have := ih ⟨data.set ci ((data.getD ci 0 ||| src.getD uci 0 <<< (space - target)) % 256),
              (if space - target = 0 then decr32 ci else ci),
              (if space - target = 0 then 8 else space - target), uci - 1, 8⟩ (pos + target)
            hp2 (by simpa using hc2) (by simpa using hN) (by simp) (by simp)
            (Or.inl (by simpa using hsrc (uci - 1)))
            (by
              intro d hd
              simp only at hd ⊢
              have h3 := hbits (target + d) (by omega)
              have e1 : 8 * uci + target - 1 - (target + d) = 8 * (uci - 1) + 8 - 1 - d := by omega
              rw [e1] at h3
              rw [← h3]
              congr 1
              omega)
            (by simp only [List.length_set]; omega) (by simp only; omega)
          simp only [List.length_set] at this
          have e : pos + target + (8 * (uci - 1) + 8) = pos + (8 * uci + target) := by omega
          rw [e] at this
          exact this
        · rw [if_neg hu]
          have hu0 : uci = 0 := by omega
          subst hu0
          simp only [Nat.mul_zero, Nat.zero_add] at *
          refine ⟨hp2, ?_, by simp, trivial⟩
          simpa using hc2
      · rw [if_neg hge]
        have hlt : src.getD uci 0 < 2 ^ target := by
          rcases hhi with h | h
          · exact h
          · omega
        have hx : ∀ j, j < 8 → (src.getD uci 0 >>> (target - space)).testBit j =
            (decide (space - space ≤ j ∧ j < space) && bits (pos + (space - 1 - j))) := by
          intro j hj
          rw [Nat.testBit_shiftRight]
          by_cases h2 : j < space
          · have h3 := hbits (space - 1 - j) (by omega)
            have e1 : (8 * uci + target - 1 - (space - 1 - j)) / 8 = uci := by omega
            have e2 : (8 * uci + target - 1 - (space - 1 - j)) % 8 = target - space + j := by
              omega
            rw [e1, e2] at h3
            rw [h3, decide_eq_true (show space - space ≤ j ∧ j < space from ⟨by omega, h2⟩)]
            simp
          · have : (src.getD uci 0).testBit (target - space + j) = false := by
              apply Nat.testBit_lt_two_pow
              calc src.getD uci 0 < 2 ^ target := hlt
                _ ≤ 2 ^ (target - space + j) := Nat.pow_le_pow_right (by decide) (by omega)
            rw [this, decide_eq_false (show ¬ (space - space ≤ j ∧ j < space) from fun h => h2 h.2)]
            simp
        have hsp1 : 1 ≤ space := by omega
        have hp2 := packed_or hp hc hsp1 (Nat.le_refl space) (by omega) hx
        have hc2 := cursorAt_advance hN hc (Nat.le_refl space) (by omega)
        simp only [Nat.sub_self, if_true] at hc2
        have := ih ⟨data.set ci ((data.getD ci 0 ||| src.getD uci 0 >>> (target - space)) % 256),
            decr32 ci, 8, uci, target - space⟩ (pos + space)
          hp2 (by simpa using hc2) (by simpa using hN) (by simp only; omega)
          (by simp only; omega) (Or.inr rfl)
          (by
            intro d hd
            simp only at hd ⊢
            have h3 := hbits (space + d) (by omega)
            have e1 : 8 * uci + target - 1 - (space + d) = 8 * uci + (target - space) - 1 - d := by
              omega
            rw [e1] at h3
            rw [← h3]
            congr 1
            omega)
          (by simp only [List.length_set]; omega) (by simp only; omega)
        simp only [List.length_set] at this
        have e : pos + space + (8 * uci + (target - space)) = pos + (8 * uci + target) := by omega
        rw [e] at this
        exact this

theorem bytes3_lt (V i : Nat) : (bytes3 V).getD i 0 < 256 := by
  unfold bytes3
  have h : ∀ x : Nat, x &&& 255 < 256 := fun x => by
    have := Nat.and_pow_two_sub_one_eq_mod x 8
    simp only [Nat.reducePow, Nat.add_one_sub_one] at this
    rw [this]; exact Nat.mod_lt _ (by decide)
  match i with
  | 0 => simpa using h V
  | 1 => simpa using h _
  | 2 => simpa using h _
  | (k + 3) => simp

theorem and_255_testBit (x i : Nat) (hi : i < 8) : (x &&& 255).testBit i = x.testBit i := by
  have := Nat.testBit_two_pow_sub_one 8 i
  simp only [Nat.reducePow, Nat.add_one_sub_one] at this
  rw [Nat.testBit_and, this]
  simp [hi]

theorem bytes3_testBit (V u i : Nat) (hu : u ≤ 2) (hi : i < 8) :
    ((bytes3 V).getD u 0).testBit i = V.testBit (8 * u + i) := by
  unfold bytes3
  match u with
  | 0 => simp [and_255_testBit _ _ hi]
  | 1 => simp [and_255_testBit _ _ hi, Nat.testBit_shiftRight]
  | 2 => simp [and_255_testBit _ _ hi, Nat.testBit_shiftRight]
  | (k + 3) => omega

theorem fieldStart_sum (n : Nat) :
    8 * (fieldStart n).1 + (fieldStart n).2 = n ∧ ((fieldStart n).2 = 0 → (fieldStart n).1 = 0)
      ∧ (fieldStart n).1 ≤ 2 ∧ (n ≤ 24 → (fieldStart n).2 ≤ 8) := by
  unfold fieldStart
  split_ifs <;> simp <;> omega

/-- One field of `nbits ≤ 24` bits holding `V < 2^nbits` is written most significant bit
first. -/
theorem packField_spec (V nbits : Nat) (hb : nbits ≤ 24) (hV : V < 2 ^ nbits)
    (bits : Nat → Bool) (data : List Nat) (ci space pos : Nat)
    (hp : Packed data pos bits) (hc : CursorAt data.length pos ci space)
    (hN : data.length ≤ 4294967296)
    (hbits : ∀ d, d < nbits → bits (pos + d) = V.testBit (nbits - 1 - d))
    (hfit : pos + nbits ≤ 8 * data.length) :
    Packed (packField (bytes3 V) false nbits data ci space).data (pos + nbits) bits ∧
    CursorAt data.length (pos + nbits) (packField (bytes3 V) false nbits data ci space).ci
      (packField (bytes3 V) false nbits data ci space).space ∧
    (packField (bytes3 V) false nbits data ci space).data.length = data.length := by
  obtain ⟨h1, h2, h3, h4⟩ := fieldStart_sum nbits
  have h4 := h4 hb
  unfold packField packFuel
  generalize (fieldStart nbits).1 = uci at *
  generalize (fieldStart nbits).2 = target at *
  have hhi : (bytes3 V).getD uci 0 < 2 ^ target := by
    apply Nat.lt_pow_two_of_testBit
    intro i hi
    by_cases h8 : i < 8
    · rw [bytes3_testBit V uci i h3 h8]
      apply Nat.testBit_lt_two_pow
      calc V < 2 ^ nbits := hV
        _ ≤ 2 ^ (8 * uci + i) := Nat.pow_le_pow_right (by decide) (by omega)
    · exact testBit_of_lt_256 (bytes3_lt V uci) (by omega)
  have := packLoop_spec (bytes3 V) bits (bytes3_lt V) (8 * uci + target + 2)
    ⟨data, ci, space, uci, target⟩ pos hp hc hN h4 h2 (Or.inl hhi)
    (by
      intro d hd
      simp only at hd ⊢
      rw [bytes3_testBit V _ _ (by omega) (Nat.mod_lt _ (by decide))]
      rw [hbits d (by omega)]
      congr 1
      omega)
    (by simp only; omega) (by simp only; omega)
  simp only at this
  rw [show pos + (8 * uci + target) = pos + nbits by omega] at this
  exact ⟨this.1, this.2.1, this.2.2.1⟩

theorem packed_skip {buf : List Nat} {pos : Nat} {bits : Nat → Bool}
    (hp : Packed buf pos bits) (h0 : bits pos = false) : Packed buf (pos + 1) bits := by
  refine ⟨hp.1, fun b hb => ?_⟩
  rw [hp.2 b hb]
  by_cases h1 : b < pos
  · have h2 : b < pos + 1 := by omega
    rw [decide_eq_true h1, decide_eq_true h2]
  · by_cases h2 : b < pos + 1
    · have : b = pos := by omega
      subst this
      rw [decide_eq_false h1, decide_eq_true h2, h0]
      simp
    · rw [decide_eq_false h1, decide_eq_false h2]

/-- One record is written as sign bit, `M` magnitude bits, `P` precision bits. -/
theorem packRecord_spec (M P : Nat) (hM : M ≤ 24) (hP : P ≤ 24) (neg : Bool) (m f : Nat)
    (hm : m < 2 ^ M) (hf : f < 2 ^ P) (bits : Nat → Bool) (data : List Nat)
    (ci space pos : Nat)
    (hp : Packed data pos bits) (hc : CursorAt data.length pos ci space)
    (hN : data.length ≤ 4294967296)
    (hs : bits pos = neg)
    (hmb : ∀ d, d < M → bits (pos + 1 + d) = m.testBit (M - 1 - d))
    (hfb : ∀ d, d < P → bits (pos + 1 + M + d) = f.testBit (P - 1 - d))
    (hfit : pos + (1 + M + P) ≤ 8 * data.length) :
    Packed (packRecord M P neg ⟨bytes3 m, bytes3 f⟩ data ci space).1 (pos + (1 + M + P)) bits ∧
    CursorAt data.length (pos + (1 + M + P))
      (packRecord M P neg ⟨bytes3 m, bytes3 f⟩ data ci space).2.1
      (packRecord M P neg ⟨bytes3 m, bytes3 f⟩ data ci space).2.2 ∧
    (packRecord M P neg ⟨bytes3 m, bytes3 f⟩ data ci space).1.length = data.length := by
  unfold packRecord
  simp only
  have hsp : space = 8 - pos % 8 := hc.1
  have hp1 : Packed (if neg = true then
      data.set ci ((data.getD ci 0 ||| 1 <<< (space - 1)) % 256) else data) (pos + 1) bits := by
    cases neg with
    | false => simpa using packed_skip hp hs
    | true =>
      simp only [if_true]
      apply packed_or hp hc (Nat.le_refl 1) (by omega) (by omega)
      intro j hj
      rw [Nat.one_shiftLeft, Nat.testBit_two_pow]
      by_cases h : space - 1 = j
      · have h2 : space - 1 ≤ j ∧ j < space := by omega
        have h3 : pos + (space - 1 - j) = pos := by omega
        rw [decide_eq_true h, decide_eq_true h2, h3, hs]
        rfl
      · have h2 : ¬ (space - 1 ≤ j ∧ j < space) := by omega
        rw [decide_eq_false h, decide_eq_false h2]
        rfl
  have hl1 : (if neg = true then
      data.set ci ((data.getD ci 0 ||| 1 <<< (space - 1)) % 256) else data).length
        = data.length := by
    split_ifs <;> simp
  have hc1 := cursorAt_advance hN hc (show 1 ≤ space by omega) (by omega)
  generalize (if neg = true then
      data.set ci ((data.getD ci 0 ||| 1 <<< (space - 1)) % 256) else data) = data1 at hp1 hl1 ⊢
  generalize (if space - 1 = 0 then decr32 ci else ci) = ci1 at hc1 ⊢
  generalize (if space - 1 = 0 then 8 else space - 1) = space1 at hc1 ⊢
  have hmag := packField_spec m M hM hm bits data1 ci1 space1 (pos + 1) hp1
    (by rw [hl1]; exact hc1) (by omega) hmb (by omega)
  obtain ⟨hp2, hc2, hl2⟩ := hmag
  generalize packField (bytes3 m) false M data1 ci1 space1 = s2 at hp2 hc2 hl2 ⊢
  have hprec := packField_spec f P hP hf bits s2.data s2.ci s2.space (pos + 1 + M) hp2
    (by rw [hl2]; exact hc2) (by omega) hfb (by omega)
  obtain ⟨hp3, hc3, hl3⟩ := hprec
  have e : pos + 1 + M + P = pos + (1 + M + P) := by omega
  rw [e] at hp3 hc3
  refine ⟨hp3, ?_, by omega⟩
  rw [hl2, hl1] at hc3
  exact hc3

/-- The `for` loop of the bulk encoder writes the record words of its input one after the
other. -/
theorem encodeLoop_spec (M P : Nat) (hM : M ≤ 24) (hP : P ≤ 24) (bits : Nat → Bool) :
    ∀ (xs : List ℚ) (data : List Nat) (ci space pos : Nat),
      Packed data pos bits → CursorAt data.length pos ci space →
      data.length ≤ 4294967296 →
      (∀ x ∈ xs, splitBefore x < 2 ^ M ∧ splitAfter x (variableMultiplier P) < 2 ^ P) →
      (∀ j r, j < xs.length → r < 1 + M + P →
        bits (pos + j * (1 + M + P) + r) = (recordWord M P (xs.getD j 0)).testBit (M + P - r)) →
      pos + xs.length * (1 + M + P) ≤ 8 * data.length →
      Packed (encodeLoop M P (variableMultiplier P) xs data ci space).1
        (pos + xs.length * (1 + M + P)) bits ∧
      (encodeLoop M P (variableMultiplier P) xs data ci space).1.length = data.length := by
  intro xs
  induction xs with
  | nil =>
    intro data ci space pos hp _ _ _ _ _
    simpa [encodeLoop] using hp
  | cons x rest ih =>
    intro data ci space pos hp hc hN hr hb hfit
    rw [encodeLoop]
    have hx := hr x (List.mem_cons_self _ _)
    have hlen : (x :: rest).length * (1 + M + P) = (1 + M + P) + rest.length * (1 + M + P) := by
      simp only [List.length_cons]; ring
    rw [hlen] at hfit ⊢
    have hw : ∀ r, r < 1 + M + P → bits (pos + r) =
        (recordWord M P x).testBit (M + P - r) := by
      intro r hr2
      have := hb 0 r (by simp) hr2
      simpa using this
    have hrec := packRecord_spec M P hM hP (decide (x < 0)) (splitBefore x)
      (splitAfter x (variableMultiplier P)) hx.1 hx.2 bits data ci space pos hp hc hN
      (by
        have := hw 0 (by omega)
        rw [Nat.add_zero] at this
        rw [this, recordWord, word_testBit _ _ _ _ _ _ hx.1 hx.2, if_neg (by omega),
          if_neg (by omega)]
        by_cases h : x < 0 <;> simp [h])
      (by
        intro d hd
        have := hw (1 + d) (by omega)
        rw [show pos + (1 + d) = pos + 1 + d by omega] at this
        rw [this, recordWord, word_testBit _ _ _ _ _ _ hx.1 hx.2, if_neg (by omega),
          if_pos (by omega)]
        congr 1
        omega)
      (by
        intro d hd
        have := hw (1 + M + d) (by omega)
        rw [show pos + (1 + M + d) = pos + 1 + M + d by omega] at this
        rw [this, recordWord, word_testBit _ _ _ _ _ _ hx.1 hx.2, if_pos (by omega)]
        congr 1
        omega)
      (by omega)
    obtain ⟨hp2, hc2, hl2⟩ := hrec
    have hsf : splitFloat x (variableMultiplier P) =
        ⟨bytes3 (splitBefore x), bytes3 (splitAfter x (variableMultiplier P))⟩ := rfl
    rw [hsf]
    generalize packRecord M P (decide (x < 0))
      ⟨bytes3 (splitBefore x), bytes3 (splitAfter x (variableMultiplier P))⟩ data ci space = r
      at hp2 hc2 hl2 ⊢
    have := ih r.1 r.2.1 r.2.2 (pos + (1 + M + P)) hp2 (by rw [hl2]; exact hc2) (by omega)
      (fun y hy => hr y (List.mem_cons_of_mem _ hy))
      (by
        intro j r2 hj hr2
        have := hb (j + 1) r2 (by simp; omega) hr2
        rw [List.getD_cons_succ] at this
        rw [← this]
        congr 1
        rw [Nat.add_mul]
        omega)
      (by omega)
    rw [Nat.add_assoc] at this
    exact ⟨this.1, by rw [this.2, hl2]⟩

theorem packLoop_length (src : List Nat) (clearLow : Bool) :
    ∀ (fuel : Nat) (s : PackState), (packLoop src clearLow fuel s).data.length = s.data.length := by
  intro fuel
  induction fuel with
  | zero => intro s; rfl
  | succ fuel ih =>
    intro s
    rw [packLoop]
    simp only
    split_ifs <;> first | rfl | (rw [ih]; simp only [List.length_set]) | simp only [List.length_set]

theorem packRecord_length (M P : Nat) (neg : Bool) (value : floatSplitValue) (data : List Nat)
    (ci space : Nat) : (packRecord M P neg value data ci space).1.length = data.length := by
  unfold packRecord packField
  simp only [packLoop_length]
  split_ifs <;> simp

theorem encodeLoop_length (M P mult : Nat) :
    ∀ (xs : List ℚ) (data : List Nat) (ci space : Nat),
      (encodeLoop M P mult xs data ci space).1.length = data.length := by
  intro xs
  induction xs with
  | nil => intro data ci space; rfl
  | cons x rest ih =>
    intro data ci space
    rw [encodeLoop, ih, packRecord_length]

/-- The returned buffer has `*newCount` bytes. -/
theorem encode_length (v : List ℚ) (M P : Nat) :
    (getVariableBitCompressedData v M P).length = newCount v.length M P := by
  unfold getVariableBitCompressedData
  simp only [encodeLoop_length, List.length_replicate]

/-- Up to `2^24` stream bits the returned buffer has room for all of them. -/
theorem encode_fits (v : List ℚ) (M P : Nat) (h : v.length * (1 + M + P) ≤ 16777216) :
    v.length * (1 + M + P) ≤ 8 * (getVariableBitCompressedData v M P).length := by
  rw [encode_length]
  rcases Nat.eq_zero_or_pos v.length with h0 | h0
  · rw [h0]; simp
  · rw [newCount_exact h h0]
    unfold ceilDiv
    omega

theorem packed_zero (n : Nat) (bits : Nat → Bool) : Packed (List.replicate n 0) 0 bits := by
  have hz : ∀ c, (List.replicate n 0).getD c 0 = 0 := by
    intro c
    rw [List.getD_eq_getElem?_getD, List.getElem?_replicate]
    split_ifs <;> rfl
  refine ⟨fun c => by rw [hz]; decide, fun b _ => ?_⟩
  unfold streamBit
  rw [hz]
  simp

/-- The buffer of the bulk encoder holds the record words of the input, most significant bit
first from the top of byte `N-1`, and zeros behind them. -/
theorem encode_packed (v : List ℚ) (M P : Nat) (hM : M ≤ 24) (hP : P ≤ 24)
    (hrange : ∀ x ∈ v, splitBefore x < 2 ^ M ∧ splitAfter x (variableMultiplier P) < 2 ^ P)
    (hfit : v.length * (1 + M + P) ≤ 8 * newCount v.length M P) :
    Packed (getVariableBitCompressedData v M P) (v.length * (1 + M + P))
      (fun b => (recordWord M P (v.getD (b / (1 + M + P)) 0)).testBit
        (M + P - b % (1 + M + P))) ∧
    (getVariableBitCompressedData v M P).length = newCount v.length M P := by
  unfold getVariableBitCompressedData
  simp only
  have hN := newCount_le v.length M P
  generalize newCount v.length M P = N at hfit hN ⊢
  have hc : CursorAt (List.replicate N (0 : Nat)).length 0 (decr32 N) 8 := by
    refine ⟨by simp, fun h => ?_⟩
    rw [List.length_replicate] at h ⊢
    rw [decr32_pos (by omega) hN]
    simp
  have := encodeLoop_spec M P hM hP
    (fun b => (recordWord M P (v.getD (b / (1 + M + P)) 0)).testBit (M + P - b % (1 + M + P)))
    v (List.replicate N 0) (decr32 N) 8 0 (packed_zero N _) hc (by simpa using hN) hrange
    (by
      intro j r hj hr
      simp only [Nat.zero_add]
      have e1 : (j * (1 + M + P) + r) / (1 + M + P) = j := by
        rw [Nat.add_comm, Nat.add_mul_div_right _ _ (by omega), Nat.div_eq_of_lt hr]
        simp
      have e2 : (j * (1 + M + P) + r) % (1 + M + P) = r := by
        rw [Nat.add_comm, Nat.add_mul_mod_self_right, Nat.mod_eq_of_lt hr]
      rw [e1, e2])
    (by simpa using hfit)
  simp only [Nat.zero_add, List.length_replicate] at this
  exact this

/-- Bit layout of bulk encode when the records fit the buffer: for `M, P ≤ 24` and input
values whose integer part
is below `2^M` and whose scaled fraction is below `2^P`, stream bit `b < n*k` of the
returned `N`-byte buffer - bit `7 - b mod 8` of byte `N-1-floor(b/8)` - is bit
`k-1-(b mod k)` of the word `s*2^(M+P) + m*2^P + f` of element `floor(b/k)`, and every
other bit of the buffer is `0`. The `n*k` stream bits are assumed to have a place in the
`N` bytes (`hfit`), which is so whenever `n*k ≤ 2^24` (`newCount_exact`) and fails for
some larger arrays. -/
theorem bulk_encode_bit_layout (v : List ℚ) (M P : Nat) (hM : M ≤ 24) (hP : P ≤ 24)
    (hrange : ∀ x ∈ v, splitBefore x < 2 ^ M ∧ splitAfter x (variableMultiplier P) < 2 ^ P)
    (hfit : v.length * (1 + M + P) ≤ 8 * (getVariableBitCompressedData v M P).length)
    (b : Nat) (hb : b < 8 * (getVariableBitCompressedData v M P).length) :
    streamBit (getVariableBitCompressedData v M P) b =
      if b < v.length * (1 + M + P) then
        (recordWord M P (v.getD (b / (1 + M + P)) 0)).testBit
          (1 + M + P - 1 - b % (1 + M + P))
      else false := by
  rw [encode_length] at hfit
  have h := (encode_packed v M P hM hP hrange hfit).1.2 b hb
  rw [h]
  split_ifs with h1
  · rw [decide_eq_true h1]
    simp only [Bool.true_and]
    congr 1
    omega
  · rw [decide_eq_false h1]
    rfl

/-- The layout theorem at `[-1.5, 1.25]`, `M = 7`, `P = 16`, stream bit `0`. -/
theorem bulk_encode_bit_layout_witness :
    streamBit (getVariableBitCompressedData [(-3 / 2 : ℚ), 5 / 4] 7 16) 0 =
      if 0 < [(-3 / 2 : ℚ), 5 / 4].length * (1 + 7 + 16) then
        (recordWord 7 16 ([(-3 / 2 : ℚ), 5 / 4].getD (0 / (1 + 7 + 16)) 0)).testBit
          (1 + 7 + 16 - 1 - 0 % (1 + 7 + 16))
      else false :=
  bulk_encode_bit_layout [(-3 / 2 : ℚ), 5 / 4] 7 16 (by decide) (by decide) (by decide!)
    (by decide!) 0 (by decide!)

theorem getD_mem {v : List ℚ} {i : Nat} (hi : i < v.length) : v.getD i 0 ∈ v := by
  rw [List.getD_eq_getElem _ _ hi]
  exact List.getElem_mem _

theorem recordWord_testBit_ge (M P : Nat) (x : ℚ) (hm : splitBefore x < 2 ^ M)
    (hf : splitAfter x (variableMultiplier P) < 2 ^ P) (j : Nat) (hj : 1 + M + P ≤ j) :
    (recordWord M P x).testBit j = false := by
  rw [recordWord, word_testBit _ _ _ _ _ _ hm hf, if_neg (by omega), if_neg (by omega)]
  apply Nat.testBit_lt_two_pow
  calc (if x < 0 then 1 else 0) < 2 ^ 1 := by split_ifs <;> decide
    _ ≤ 2 ^ (j - (M + P)) := Nat.pow_le_pow_right (by decide) (by omega)

theorem recordTriple_of_word (M P : Nat) (x y : ℚ) (hxm : splitBefore x < 2 ^ M)
    (hxf : splitAfter x (variableMultiplier P) < 2 ^ P) (hym : splitBefore y < 2 ^ M)
    (hyf : splitAfter y (variableMultiplier P) < 2 ^ P)
    (h : recordWord M P x = recordWord M P y) : recordTriple P x = recordTriple P y := by
  have hb : ∀ j, (recordWord M P x).testBit j = (recordWord M P y).testBit j := by
    intro j; rw [h]
  unfold recordWord at hb
  simp only [word_testBit _ _ _ _ _ _ hxm hxf, word_testBit _ _ _ _ _ _ hym hyf] at hb
  have hf : splitAfter x (variableMultiplier P) = splitAfter y (variableMultiplier P) := by
    apply Nat.eq_of_testBit_eq
    intro j
    by_cases hj : j < P
    · have := hb j
      rwa [if_pos hj, if_pos hj] at this
    · have e : 2 ^ P ≤ 2 ^ j := Nat.pow_le_pow_right (by decide) (by omega)
      rw [Nat.testBit_lt_two_pow (Nat.lt_of_lt_of_le hxf e),
        Nat.testBit_lt_two_pow (Nat.lt_of_lt_of_le hyf e)]
  have hm : splitBefore x = splitBefore y := by
    apply Nat.eq_of_testBit_eq
    intro j
    by_cases hj : j < M
    · have := hb (j + P)
      simp only [if_neg (show ¬ j + P < P by omega), if_pos (show j + P < M + P by omega),
        Nat.add_sub_cancel] at this
      exact this
    · have e : 2 ^ M ≤ 2 ^ j := Nat.pow_le_pow_right (by decide) (by omega)
      rw [Nat.testBit_lt_two_pow (Nat.lt_of_lt_of_le hxm e),
        Nat.testBit_lt_two_pow (Nat.lt_of_lt_of_le hym e)]
  have hs : decide (x < 0) = decide (y < 0) := by
    have := hb (M + P)
    simp only [if_neg (show ¬ M + P < P by omega), if_neg (show ¬ M + P < M + P by omega),
      Nat.sub_self] at this
    by_cases hx : x < 0 <;> by_cases hy : y < 0 <;> simp [hx, hy] at this ⊢
  unfold recordTriple
  rw [hf, hm, hs]

/-- Packing is injective when the records fit the buffer: for `M, P ≤ 24`, two input arrays of
the same length `n` whose elements all have integer part below `2^M` and scaled fraction
below `2^P`, and whose `(sign, m, f)` triples differ at some index, are encoded to
different buffers. The `n*k` stream bits are assumed to have a place in the returned
buffer (`hfit`), which is so whenever `n*k ≤ 2^24` (`newCount_exact`). -/
theorem bulk_encode_injective (v w : List ℚ) (M P : Nat) (hM : M ≤ 24) (hP : P ≤ 24)
    (hlen : v.length = w.length)
    (hv : ∀ x ∈ v, splitBefore x < 2 ^ M ∧ splitAfter x (variableMultiplier P) < 2 ^ P)
    (hw : ∀ x ∈ w, splitBefore x < 2 ^ M ∧ splitAfter x (variableMultiplier P) < 2 ^ P)
    (hfit : v.length * (1 + M + P) ≤ 8 * (getVariableBitCompressedData v M P).length)
    (i : Nat) (hi : i < v.length)
    (hdiff : recordTriple P (v.getD i 0) ≠ recordTriple P (w.getD i 0)) :
    getVariableBitCompressedData v M P ≠ getVariableBitCompressedData w M P := by
  intro heq
  rw [encode_length] at hfit
  apply hdiff
  have hxv := hv _ (getD_mem hi)
  have hxw := hw _ (getD_mem (show i < w.length by omega))
  apply recordTriple_of_word M P _ _ hxv.1 hxv.2 hxw.1 hxw.2
  apply Nat.eq_of_testBit_eq
  intro j
  by_cases hj : j < 1 + M + P
  · have hpv := encode_packed v M P hM hP hv hfit
    have hpw := encode_packed w M P hM hP hw (by rw [← hlen]; exact hfit)
    have hik : i * (1 + M + P) + (1 + M + P) ≤ v.length * (1 + M + P) := by
      have : (i + 1) * (1 + M + P) ≤ v.length * (1 + M + P) := Nat.mul_le_mul_right _ hi
      rwa [Nat.add_mul, Nat.one_mul] at this
    have hb : i * (1 + M + P) + (M + P - j) < v.length * (1 + M + P) := by omega
    have e1 : (i * (1 + M + P) + (M + P - j)) / (1 + M + P) = i := by
      rw [Nat.add_comm, Nat.add_mul_div_right _ _ (by omega), Nat.div_eq_of_lt (by omega)]
      simp
    have e2 : (i * (1 + M + P) + (M + P - j)) % (1 + M + P) = M + P - j := by
      rw [Nat.add_comm, Nat.add_mul_mod_self_right, Nat.mod_eq_of_lt (by omega)]
    have h1 := hpv.1.2 (i * (1 + M + P) + (M + P - j)) (by rw [hpv.2]; omega)
    have h2 := hpw.1.2 (i * (1 + M + P) + (M + P - j))
      (by rw [hpw.2, ← hlen]; omega)
    rw [heq, h2] at h1
    simp only [e1, e2] at h1
    rw [decide_eq_true hb, decide_eq_true (show _ < w.length * (1 + M + P) by rw [← hlen]; exact hb)]
      at h1
    simp only [Bool.true_and] at h1
    rw [show M + P - (M + P - j) = j by omega] at h1
    exact h1.symm
  · rw [recordWord_testBit_ge M P _ hxv.1 hxv.2 j (by omega),
      recordWord_testBit_ge M P _ hxw.1 hxw.2 j (by omega)]

/-- The injectivity theorem at `[-1.5, 1.25]` and `[-1.5, 2.5]`, `M = 7`, `P = 16`. -/
theorem bulk_encode_injective_witness :
    getVariableBitCompressedData [(-3 / 2 : ℚ), 5 / 4] 7 16 ≠
      getVariableBitCompressedData [(-3 / 2 : ℚ), 5 / 2] 7 16 :=
  bulk_encode_injective [(-3 / 2 : ℚ), 5 / 4] [(-3 / 2 : ℚ), 5 / 2] 7 16 (by decide) (by decide)
    (by decide) (by decide!) (by decide!) (by decide!) 1 (by decide) (by decide!)

/-! ## Bulk decode and single read: the cursor -/

theorem readMagLoop_cursor (buf : List Nat) (N : Nat) (hN : N ≤ 4294967296) :
    ∀ (fuel : Nat) (s : ReadState) (pos : Nat),
      CursorAt N pos s.ci s.uncompBits → pos + s.target ≤ 8 * N → s.target < fuel →
      CursorAt N (pos + s.target) (readMagLoop buf fuel s).ci (readMagLoop buf fuel s).uncompBits
        ∧ (readMagLoop buf fuel s).target = 0 := by
  intro fuel
  induction fuel with
  | zero => intro s pos _ _ hf; omega
  | succ fuel ih =>
    intro s pos hc hfit hfuel
    obtain ⟨acc, ci, target, u⟩ := s
    simp only at hc hfit hfuel ⊢
    rw [readMagLoop]
    simp only
    have hu : u = 8 - pos % 8 := hc.1
    by_cases htz : target = 0
    · subst htz
      simpa using hc
    · rw [if_neg htz]
      by_cases hgt : target > u
      · rw [if_pos hgt]
        have hc2 := cursorAt_advance hN hc (Nat.le_refl u) (by omega)
        simp only [Nat.sub_self, if_true] at hc2
        have := ih ⟨acc ||| (((buf.getD ci 0 &&& (2 ^ u - 1)) <<< (target - u)) % 4294967296),
          decr32 ci, target - u, 8⟩ (pos + u) hc2 (by simp only; omega) (by simp only; omega)
        simp only at this
        rw [show pos + u + (target - u) = pos + target by omega] at this
        exact this
      · rw [if_neg hgt]
        have hc2 := cursorAt_advance hN hc (show target ≤ u by omega) (by omega)
        split_ifs with h0
        · rw [if_pos h0, if_pos h0] at hc2
          exact ⟨hc2, rfl⟩
        · rw [if_neg h0, if_neg h0] at hc2
          exact ⟨hc2, rfl⟩

theorem readPrecLoop_cursor (buf : List Nat) (N : Nat) (hN : N ≤ 4294967296) :
    ∀ (fuel : Nat) (s : ReadState) (pos : Nat),
      CursorAt N pos s.ci s.uncompBits → pos + s.target ≤ 8 * N → s.target < fuel →
      CursorAt N (pos + s.target) (readPrecLoop buf fuel s).ci
        (readPrecLoop buf fuel s).uncompBits
        ∧ (readPrecLoop buf fuel s).target = 0 := by
  intro fuel
  induction fuel with
  | zero => intro s pos _ _ hf; omega
  | succ fuel ih =>
    intro s pos hc hfit hfuel
    obtain ⟨acc, ci, target, u⟩ := s
    simp only at hc hfit hfuel ⊢
    rw [readPrecLoop]
    simp only
    have hu : u = 8 - pos % 8 := hc.1
    by_cases htz : target = 0
    · subst htz
      simpa using hc
    · rw [if_neg htz]
      by_cases hgt : target > u
      · rw [if_pos hgt]
        have hc2 := cursorAt_advance hN hc (Nat.le_refl u) (by omega)
        simp only [Nat.sub_self, if_true] at hc2
        have := ih ⟨((acc ||| (buf.getD ci 0 &&& (2 ^ u - 1))) <<< (target - u)) % 4294967296,
          decr32 ci, target - u, 8⟩ (pos + u) hc2 (by simp only; omega) (by simp only; omega)
        simp only at this
        rw [show pos + u + (target - u) = pos + target by omega] at this
        exact this
      · rw [if_neg hgt]
        have hc2 := cursorAt_advance hN hc (show target ≤ u by omega) (by omega)
        split_ifs with h0
        · rw [if_pos h0, if_pos h0] at hc2
          exact ⟨hc2, rfl⟩
        · rw [if_neg h0, if_neg h0] at hc2
          exact ⟨hc2, rfl⟩

/-- Reading one record moves the read cursor `1 + M + P` bits on. -/
theorem readRecord_cursor (buf : List Nat) (N : Nat) (hN : N ≤ 4294967296) (M P ci u pos : Nat)
    (hc : CursorAt N pos ci u) (hfit : pos + (1 + M + P) ≤ 8 * N) :
    CursorAt N (pos + (1 + M + P)) (readRecord buf M P ci u).2.1 (readRecord buf M P ci u).2.2 := by
  unfold readRecord
  simp only
  have hu : u = 8 - pos % 8 := hc.1
  have hc1 := cursorAt_advance hN hc (show 1 ≤ u by omega) (by omega)
  generalize (if u - 1 = 0 then decr32 ci else ci) = ci1 at hc1 ⊢
  generalize (if u - 1 = 0 then 8 else u - 1) = u1 at hc1 ⊢
  have hm := readMagLoop_cursor buf N hN (M + 1) ⟨0, ci1, M, u1⟩ (pos + 1) hc1
    (by simp only; omega) (by simp only; omega)
  simp only at hm
  generalize readMagLoop buf (M + 1) ⟨0, ci1, M, u1⟩ = m at hm ⊢
  have hp := readPrecLoop_cursor buf N hN (P + 1) ⟨0, m.ci, P, m.uncompBits⟩ (pos + 1 + M) hm.1
    (by simp only; omega) (by simp only; omega)
  simp only at hp
  rw [show pos + 1 + M + P = pos + (1 + M + P) by omega] at hp
  exact hp.1

/-- The value bulk decode stores at position `i` is the record read at the cursor behind `i`
records. -/
theorem decodeLoop_getElem (buf : List Nat) (N : Nat) (hN : N ≤ 4294967296)
    (M P divider : Nat) :
    ∀ (todo ci u pos i : Nat), CursorAt N pos ci u → pos + todo * (1 + M + P) ≤ 8 * N →
      i < todo →
      (decodeLoop buf M P divider todo ci u)[i]? =
        some ((readRecord buf M P (N - 1 - (pos + i * (1 + M + P)) / 8)
          (8 - (pos + i * (1 + M + P)) % 8)).1.toValue divider) := by
  intro todo
  induction todo with
  | zero => intro ci u pos i _ _ hi; omega
  | succ todo ih =>
    intro ci u pos i hc hfit hi
    rw [Nat.add_mul, Nat.one_mul] at hfit
    rw [decodeLoop]
    cases i with
    | zero =>
      simp only [Nat.zero_mul, Nat.add_zero, List.getElem?_cons_zero]
      rw [hc.1, hc.2 (by omega)]
    | succ i =>
      simp only [List.getElem?_cons_succ]
      have hc2 := readRecord_cursor buf N hN M P ci u pos hc (by omega)
      have := ih _ _ (pos + (1 + M + P)) i hc2 (by omega) (by omega)
      rw [this]
      have e : pos + (1 + M + P) + i * (1 + M + P) = pos + (i + 1) * (1 + M + P) := by
        rw [Nat.add_mul, Nat.one_mul]; omega
      rw [e]

/-- C3. Random read equals bulk read: for every byte buffer (arbitrary contents, its
length an `unsigned int`), every `M`, `P` (with `1 + M + P` an `unsigned int`) and every
index `i` below the number of records bulk decode produces, `getSingleVariableBitValue`
returns the value that `getVariableBitDecompressedData` stores at position `i`. -/
theorem single_read_eq_bulk_read (buf : List Nat) (M P i : Nat)
    (hlen : buf.length < 4294967296) (hk : 1 + M + P < 4294967296)
    (hi : i < uncompLimit buf.length M P) :
    (getVariableBitDecompressedData buf buf.length M P)[i]? =
      some (getSingleVariableBitValue buf buf.length i M P) := by
  unfold getVariableBitDecompressedData getSingleVariableBitValue
  have hul : uncompLimit buf.length M P * (1 + M + P) ≤ 8 * buf.length := by
    unfold uncompLimit
    rw [Nat.mod_eq_of_lt hk]
    calc (8 * buf.length % 4294967296) / (1 + M + P) * (1 + M + P)
        ≤ 8 * buf.length % 4294967296 := Nat.div_mul_le_self _ _
      _ ≤ 8 * buf.length := Nat.mod_le _ _
  have hul2 : uncompLimit buf.length M P * (1 + M + P) < 4294967296 := by
    unfold uncompLimit
    rw [Nat.mod_eq_of_lt hk]
    calc (8 * buf.length % 4294967296) / (1 + M + P) * (1 + M + P)
        ≤ 8 * buf.length % 4294967296 := Nat.div_mul_le_self _ _
      _ < 4294967296 := Nat.mod_lt _ (by decide)
  have hik : i * (1 + M + P) + (1 + M + P) ≤ uncompLimit buf.length M P * (1 + M + P) := by
    have : (i + 1) * (1 + M + P) ≤ uncompLimit buf.length M P * (1 + M + P) :=
      Nat.mul_le_mul_right _ hi
    rwa [Nat.add_mul, Nat.one_mul] at this
  have hc : CursorAt buf.length 0 (decr32 buf.length) 8 := by
    refine ⟨by simp, fun h => ?_⟩
    rw [decr32_pos (by omega) (by omega)]
    simp
  rw [decodeLoop_getElem buf buf.length (by omega) M P (variableDivider P)
    (uncompLimit buf.length M P) (decr32 buf.length) 8 0 i hc (by omega) hi]
  simp only [Nat.zero_add]
  have e1 : startByte buf.length i M P = buf.length - 1 - i * (1 + M + P) / 8 := by
    unfold startByte bitOffset
    rw [Nat.mod_eq_of_lt hk, Nat.mod_eq_of_lt (show i * (1 + M + P) < 4294967296 by omega)]
    omega
  have e2 : startIndex i M P + 1 = 8 - i * (1 + M + P) % 8 := by
    unfold startIndex bitOffset
    rw [Nat.mod_eq_of_lt hk, Nat.mod_eq_of_lt (show i * (1 + M + P) < 4294967296 by omega)]
    omega
  rw [e1, e2]

/-- The read theorem at the buffer `[107, 64, 200]`, `M = 2`, `P = 4`, index `2`. -/
theorem single_read_eq_bulk_read_witness :
    (getVariableBitDecompressedData [107, 64, 200] [107, 64, 200].length 2 4)[2]? =
      some (getSingleVariableBitValue [107, 64, 200] [107, 64, 200].length 2 2 4) :=
  single_read_eq_bulk_read [107, 64, 200] 2 4 2 (by decide) (by decide) (by decide)

/-! ## The loops reach their exit test -/

/-- With `8 * uci + target + 1` rounds of fuel the packing loop ends with `target = 0`, the
exit test of the source loop. -/
theorem packLoop_target (src : List Nat) (clearLow : Bool) :
    ∀ (fuel : Nat) (s : PackState), 1 ≤ s.space → 8 * s.uci + s.target < fuel →
      (packLoop src clearLow fuel s).target = 0 := by
  intro fuel
  induction fuel with
  | zero => intro s _ hf; omega
  | succ fuel ih =>
    intro s hs hf
    rw [packLoop]
    by_cases htz : s.target = 0
    · rw [if_pos htz]; exact htz
    · rw [if_neg htz]
      simp only
      by_cases hge : s.space ≥ s.target
      · rw [if_pos hge]
        by_cases hu : s.uci > 0
        · rw [if_pos hu]
          apply ih
          · simp only; split_ifs <;> omega
          · simp only; omega
        · rw [if_neg hu]
      · rw [if_neg hge]
        apply ih
        · simp only; omega
        · simp only; omega

/-- With `target + 1` rounds of fuel the magnitude loop of the decoders ends with `target =
0`. -/
theorem readMagLoop_target (buf : List Nat) :
    ∀ (fuel : Nat) (s : ReadState), 1 ≤ s.uncompBits → s.target < fuel →
      (readMagLoop buf fuel s).target = 0 := by
  intro fuel
  induction fuel with
  | zero => intro s _ hf; omega
  | succ fuel ih =>
    intro s hs hf
    rw [readMagLoop]
    by_cases htz : s.target = 0
    · rw [if_pos htz]; exact htz
    · rw [if_neg htz]
      by_cases hgt : s.target > s.uncompBits
      · rw [if_pos hgt]
        apply ih
        · simp only; omega
        · simp only; omega
      · rw [if_neg hgt]
        simp only
        split_ifs <;> rfl

/-- With `target + 1` rounds of fuel the precision loop of the decoders ends with `target =
0`. -/
theorem readPrecLoop_target (buf : List Nat) :
    ∀ (fuel : Nat) (s : ReadState), 1 ≤ s.uncompBits → s.target < fuel →
      (readPrecLoop buf fuel s).target = 0 := by
  intro fuel
  induction fuel with
  | zero => intro s _ hf; omega
  | succ fuel ih =>
    intro s hs hf
    rw [readPrecLoop]
    by_cases htz : s.target = 0
    · rw [if_pos htz]; exact htz
    · rw [if_neg htz]
      by_cases hgt : s.target > s.uncompBits
      · rw [if_pos hgt]
        apply ih
        · simp only; omega
        · simp only; omega
      · rw [if_neg hgt]
        simp only
        split_ifs <;> rfl

/-- The result of the 24-bit magnitude loop does not depend on the fuel once it exceeds
`magBitsLeft`. -/
theorem mag24Loop_fuel (data : List Nat) :
    ∀ (fuel fuel2 beforeDp magBitsLeft : Nat) (ci : Int), magBitsLeft < fuel →
      magBitsLeft < fuel2 →
      mag24Loop data fuel beforeDp magBitsLeft ci = mag24Loop data fuel2 beforeDp magBitsLeft ci := by
  intro fuel
  induction fuel with
  | zero => intro fuel2 b l ci h; omega
  | succ fuel ih =>
    intro fuel2 b l ci h1 h2
    cases fuel2 with
    | zero => omega
    | succ fuel2 =>
      rw [mag24Loop, mag24Loop]
      split_ifs with h3 h4
      · rfl
      · exact ih _ _ _ _ (by omega) (by omega)
      · rfl

/-- The result of the 24-bit precision loop does not depend on the fuel once it exceeds
`precBitsLeft`. -/
theorem prec24Loop_fuel (data : List Nat) (precBits : Nat) :
    ∀ (fuel fuel2 afterDp precBitsLeft : Nat) (ci : Int), precBitsLeft < fuel →
      precBitsLeft < fuel2 →
      prec24Loop data precBits fuel afterDp precBitsLeft ci =
        prec24Loop data precBits fuel2 afterDp precBitsLeft ci := by
  intro fuel
  induction fuel with
  | zero => intro fuel2 b l ci h; omega
  | succ fuel ih =>
    intro fuel2 b l ci h1 h2
    cases fuel2 with
    | zero => omega
    | succ fuel2 =>
      rw [prec24Loop, prec24Loop]
      split_ifs with h3 h4
      · rfl
      · exact ih _ _ _ _ (by omega) (by omega)
      · rfl

/-- With `8 * uci + target + 1` rounds of fuel the magnitude loop of
`insertSingle24BitValue` ends with `target = 0`. -/
theorem insert24Loop_target (src : List Nat) :
    ∀ (fuel : Nat) (s : PackState), 1 ≤ s.space → 8 * s.uci + s.target < fuel →
      (insert24Loop src fuel s).target = 0 := by
  intro fuel
  induction fuel with
  | zero => intro s _ hf; omega
  | succ fuel ih =>
    intro s hs hf
    rw [insert24Loop]
    by_cases htz : s.target = 0
    · rw [if_pos htz]; exact htz
    · rw [if_neg htz]
      simp only
      by_cases hge : s.space ≥ s.target
      · rw [if_pos hge]
        by_cases hu : decr32 s.uci = 0
        · rw [if_pos hu]
          apply ih
          · simp only; split_ifs <;> omega
          · simp only
            have : 1 ≤ s.uci := by
              unfold decr32 at hu
              omega
            omega
        · rw [if_neg hu]
      · rw [if_neg hge]
        apply ih
        · simp only; omega
        · simp only; omega

/-- The result of the magnitude loop of `getSingle24BitValue` does not depend on the fuel
once it exceeds `magBits`. -/
theorem singleMag24Loop_fuel (data : List Nat) :
    ∀ (fuel fuel2 beforeDp magBits : Nat) (ci : Int), magBits < fuel → magBits < fuel2 →
      singleMag24Loop data fuel beforeDp magBits ci =
        singleMag24Loop data fuel2 beforeDp magBits ci := by
  intro fuel
  induction fuel with
  | zero => intro fuel2 b l ci h; omega
  | succ fuel ih =>
    intro fuel2 b l ci h1 h2
    cases fuel2 with
    | zero => omega
    | succ fuel2 =>
      rw [singleMag24Loop, singleMag24Loop]
      split_ifs with h3 h4
      · rfl
      · exact ih _ _ _ _ (by omega) (by omega)
      · rfl

/-- The result of the precision loop of `getSingle24BitValue` does not depend on the fuel
once it exceeds `precBitsLeft`. -/
theorem singlePrec24Loop_fuel (data : List Nat) (precBits : Nat) :
    ∀ (fuel fuel2 afterDp precBitsLeft : Nat) (ci : Int), precBitsLeft < fuel →
      precBitsLeft < fuel2 →
      singlePrec24Loop data precBits fuel afterDp precBitsLeft ci =
        singlePrec24Loop data precBits fuel2 afterDp precBitsLeft ci := by
  intro fuel
  induction fuel with
  | zero => intro fuel2 b l ci h; omega
  | succ fuel ih =>
    intro fuel2 b l ci h1 h2
    cases fuel2 with
    | zero => omega
    | succ fuel2 =>
      rw [singlePrec24Loop, singlePrec24Loop]
      split_ifs with h3 h4
      · rfl
      · exact ih _ _ _ _ (by omega) (by omega)
      · rfl

/-! ## Bulk encode: size of the buffer -/

/-- C1, at the failing input. For `count = 1973793`, `magBits = precBits = 8` the bit
count `33554481 = 2^25 + 49` is not a `float`; the nearest `float` is `33554480`, so the
encoder allocates and reports `4194310` bytes where `ceil(33554481 / 8) = 4194311` are
needed for the bits it writes. -/
theorem newCount_short_at_1973793 :
    newCount 1973793 8 8 = 4194310 ∧
    (getVariableBitCompressedData (List.replicate 1973793 (0 : ℚ)) 8 8).length = 4194310 ∧
    ceilDiv (1973793 * (1 + 8 + 8)) 8 = 4194311 ∧
    8 * newCount 1973793 8 8 < 1973793 * (1 + 8 + 8) := by
  refine ⟨by decide, ?_, by decide, by decide⟩
  rw [encode_length, List.length_replicate]
  decide

/-- The smallest bit counts on which the byte count is short lie just above `2^24`, where
the conversion rounds a tie to even: `count = 1864137`, `magBits = precBits = 4`. -/
theorem newCount_short_at_1864137 :
    newCount 1864137 4 4 = 2097154 ∧ ceilDiv (1864137 * (1 + 4 + 4)) 8 = 2097155 := by
  decide

/-! ## Bulk decode: number of values -/

/-- C9 as stated fails: a one-byte buffer with `M = P = 1` is decoded to
`floor(8 / 3) = 2` values, while `ceil(8 / 3) = 3`. -/
theorem uncompLimit_is_not_ceiling :
    uncompLimit 1 1 1 = 2 ∧ ceilDiv (8 * 1) (1 + 1 + 1) = 3 ∧
    (getVariableBitDecompressedData [0] 1 1 1).length ≠ ceilDiv (8 * 1) (1 + 1 + 1) := by
  decide

theorem decodeLoop_length (buf : List Nat) (M P divider : Nat) :
    ∀ (todo ci u : Nat), (decodeLoop buf M P divider todo ci u).length = todo := by
  intro todo
  induction todo with
  | zero => intro ci u; rfl
  | succ todo ih => intro ci u; rw [decodeLoop, List.length_cons, ih]

/-- C9, amended. For a buffer of fewer than `2^29` bytes and `1 + M + P` an
`unsigned int`, the loop bound `uncompLimit` of `getVariableBitDecompressedData`, and so
the number of values it decodes, is `floor(8 * |buf| / (1 + M + P))`. -/
theorem uncompLimit_is_floor (buf : List Nat) (count M P : Nat) (hc : count < 536870912)
    (hk : 1 + M + P < 4294967296) :
    uncompLimit count M P = 8 * count / (1 + M + P) ∧
    (getVariableBitDecompressedData buf count M P).length = 8 * count / (1 + M + P) := by
  have h : uncompLimit count M P = 8 * count / (1 + M + P) := by
    unfold uncompLimit
    rw [Nat.mod_eq_of_lt hk, Nat.mod_eq_of_lt (by omega)]
  refine ⟨h, ?_⟩
  unfold getVariableBitDecompressedData
  rw [decodeLoop_length, h]

/-- The loop bound at a five-byte buffer, `M = 0`, `P = 10`. -/
theorem uncompLimit_is_floor_witness :
    uncompLimit 5 0 10 = 8 * 5 / (1 + 0 + 10) ∧
    (getVariableBitDecompressedData [128, 56, 1, 0, 0] 5 0 10).length = 8 * 5 / (1 + 0 + 10) :=
  uncompLimit_is_floor [128, 56, 1, 0, 0] 5 0 10 (by decide) (by decide)

/-! ## Round trips at the inputs where they fail -/

/-- C2, at the failing input `v = [0.5]`, `M = P = 3`: the value is in range (integer
part `0 < 2^3`, scaled fraction `5 < 2^3`), it is encoded with multiplier `10` and
decoded with divider `100`, so the bulk round trip returns `0.05`, which is further
than `1 / 10^numberOfDigits(3) = 0.1` from `0.5`. -/
theorem bulk_round_trip_fails_at_half :
    |(1 / 2 : ℚ)| < 2 ^ 3 ∧ splitAfter (1 / 2) (10 ^ numberOfDigits 3) < 2 ^ 3 ∧
    getVariableBitDecompressedData (getVariableBitCompressedData [1 / 2] 3 3)
      (getVariableBitCompressedData [1 / 2] 3 3).length 3 3 = [1 / 20] ∧
    ¬ |(1 / 20 : ℚ) - 1 / 2| ≤ 1 / 10 ^ numberOfDigits 3 := by
  decide!

/-- A second input on which the bulk round trip fails, `[0, 0, 0.0625]` with `M = 0`, `P =
10`: the precision field of record 2 starts in the last bit of a byte and spans three
bytes, and the decoder shifts its first bit twice (line 716). -/
theorem bulk_round_trip_fails_at_ten_precision_bits :
    |(1 / 16 : ℚ)| < 2 ^ 0 ∧ splitAfter (1 / 16) (10 ^ numberOfDigits 10) < 2 ^ 10 ∧
    getVariableBitDecompressedData (getVariableBitCompressedData [0, 0, 1 / 16] 0 10)
      (getVariableBitCompressedData [0, 0, 1 / 16] 0 10).length 0 10 = [0, 0, 1137 / 10000] ∧
    ¬ |(1137 / 10000 : ℚ) - 1 / 16| ≤ 1 / 10 ^ numberOfDigits 10 := by
  decide!

/-- C4, at the failing input: one byte `[0]` (`n = 1`, `M = P = 3`), index `0`,
`x = 0.5` (in range: `m = 0`, `f = 5 < 2^3`). After the overwrite the single read
returns `0.05`, not the quantized form `0.5`. -/
theorem write_then_read_fails_at_half :
    [(0 : Nat)].length = ceilDiv (1 * (1 + 3 + 3)) 8 ∧
    splitBefore (1 / 2) < 2 ^ 3 ∧ splitAfter (1 / 2) (variableMultiplier 3) < 2 ^ 3 ∧
    getSingleVariableBitValue (insertSingleVariableBitValue [0] 1 0 (1 / 2) 3 3) 1 0 3 3
      = 1 / 20 ∧
    quantize 3 (1 / 2) = 1 / 2 ∧
    getSingleVariableBitValue (insertSingleVariableBitValue [0] 1 0 (1 / 2) 3 3) 1 0 3 3
      ≠ quantize 3 (1 / 2) := by
  decide!

/-- C5, at the failing input: `M = 0`, `P = 4`, the buffer of `[0.125, 0.125]`,
overwrite of index `0` with `0.125`. The single read of index `1` returns `0.13`
before the overwrite and `0.01` after it. -/
theorem overwrite_changes_next_record :
    getVariableBitCompressedData [1 / 8, 1 / 8] 0 4 = [64, 107] ∧
    insertSingleVariableBitValue [64, 107] 2 0 (1 / 8) 0 4 = [64, 104] ∧
    getSingleVariableBitValue [64, 107] 2 1 0 4 = 13 / 100 ∧
    getSingleVariableBitValue [64, 104] 2 1 0 4 = 1 / 100 ∧
    getSingleVariableBitValue (insertSingleVariableBitValue
        (getVariableBitCompressedData [1 / 8, 1 / 8] 0 4) 2 0 (1 / 8) 0 4) 2 1 0 4
      ≠ getSingleVariableBitValue (getVariableBitCompressedData [1 / 8, 1 / 8] 0 4) 2 1 0 4 := by
  decide!

/-- C10, at the failing input `v = [1.25]`, `M = 8`, `P = 15` (in range on both paths:
`m = 1 < 2^8`, `f = 2500` resp. `25000`, both below `2^15`): the 24-bit path returns
`1.0137`, the general path `1.25`. -/
theorem fixed24_differs_from_general :
    splitBefore (5 / 4) < 2 ^ 8 ∧ splitAfter (5 / 4) (multiplier24 15) < 2 ^ 15 ∧
    splitAfter (5 / 4) (variableMultiplier 15) < 2 ^ 15 ∧
    get24BitDecompressedData (get24BitCompressedData [5 / 4] 8 15) 8 15 = [10137 / 10000] ∧
    getVariableBitDecompressedData (getVariableBitCompressedData [5 / 4] 8 15)
      (getVariableBitCompressedData [5 / 4] 8 15).length 8 15 = [5 / 4] ∧
    get24BitDecompressedData (get24BitCompressedData [5 / 4] 8 15) 8 15 ≠
      getVariableBitDecompressedData (getVariableBitCompressedData [5 / 4] 8 15)
        (getVariableBitCompressedData [5 / 4] 8 15).length 8 15 := by
  decide!

/-! ## Run-length codec -/

theorem expandRuns_append (a b : List runlengthEntry) :
    expandRuns (a ++ b) = expandRuns a ++ expandRuns b := by
  induction a with
  | nil => rfl
  | cons e rest ih => simp [expandRuns, ih]

theorem unwrapEntry_eq (k : Nat) (v : ℚ) (out : List ℚ) :
    unwrapEntry k v out = out ++ List.replicate k v := by
  induction k generalizing out with
  | zero => simp [unwrapEntry]
  | succ k ih =>
    rw [unwrapEntry, ih, List.append_assoc]
    congr 1

theorem rleDecodeLoop_fst (es : List runlengthEntry) (out : List ℚ) :
    (rleDecodeLoop es out).1 = out ++ expandRuns es := by
  induction es generalizing out with
  | nil => simp [rleDecodeLoop, expandRuns]
  | cons e rest ih =>
    rw [rleDecodeLoop]
    simp only
    rw [ih, unwrapEntry_eq, expandRuns, List.append_assoc]

theorem take_succ_set {α : Type} (l : List α) (i : Nat) (e : α) (h : i < l.length) :
    (l.set i e).take (i + 1) = l.take i ++ [e] := by
  induction l generalizing i with
  | nil => exact absurd h (Nat.not_lt_zero _)
  | cons x xs ih =>
    cases i with
    | zero => rfl
    | succ i =>
      simp only [List.set_cons_succ, List.take_succ_cons, List.cons_append]
      rw [ih i (by simpa using h)]

theorem take_succ_getD (l : List runlengthEntry) (i : Nat) (h : i < l.length) :
    l.take (i + 1) = l.take i ++ [l.getD i ⟨0, 0⟩] := by
  rw [List.take_succ, List.getD_eq_getElem?_getD, List.getElem?_eq_getElem h]
  rfl

/-- Invariant of the encoder loop: the first `ci + 1` entries expand to the values consumed
so far. -/
theorem rleLoop_spec :
    ∀ (rest : List ℚ) (cd : List runlengthEntry) (ci : Nat) (done : List ℚ),
      ci + rest.length < cd.length → done.length + rest.length < 4294967296 →
      expandRuns (cd.take (ci + 1)) = done →
      (rleLoop rest cd ci).2 < (rleLoop rest cd ci).1.length ∧
      expandRuns ((rleLoop rest cd ci).1.take ((rleLoop rest cd ci).2 + 1)) = done ++ rest := by
  intro rest
  induction rest with
  | nil =>
    intro cd ci done h1 _ h3
    simp only [rleLoop, List.append_nil]
    exact ⟨by simpa using h1, h3⟩
  | cons x rest ih =>
    intro cd ci done h1 h2 h3
    simp only [List.length_cons] at h1 h2
    rw [rleLoop]
    have hci : ci < cd.length := by omega
    rw [take_succ_getD cd ci hci, expandRuns_append] at h3
    simp only [expandRuns, List.append_nil] at h3
    have hcnt : (cd.getD ci ⟨0, 0⟩).valueCount ≤ done.length := by
      rw [← h3]; simp
    by_cases heq : (cd.getD ci ⟨0, 0⟩).value = x
    · rw [if_pos heq]
      have := ih (cd.set ci ⟨(cd.getD ci ⟨0, 0⟩).value,
          ((cd.getD ci ⟨0, 0⟩).valueCount + 1) % 4294967296⟩) ci (done ++ [x])
        (by simp only [List.length_set]; omega)
        (by simp only [List.length_append, List.length_singleton]; omega)
        (by
          rw [take_succ_set _ _ _ hci, expandRuns_append]
          simp only [expandRuns, List.append_nil]
          rw [Nat.mod_eq_of_lt (by omega), List.replicate_succ', ← List.append_assoc, h3, heq])
      rw [List.append_assoc] at this
      exact this
    · rw [if_neg heq]
      have := ih (cd.set (ci + 1) ⟨x, 1⟩) (ci + 1) (done ++ [x])
        (by simp only [List.length_set]; omega)
        (by simp only [List.length_append, List.length_singleton]; omega)
        (by
          rw [take_succ_set _ _ _ (by omega), expandRuns_append, take_succ_getD cd ci hci,
            expandRuns_append]
          simp only [expandRuns, List.append_nil]
          rw [h3]
          rfl)
      rw [List.append_assoc] at this
      exact this

/-- Run-length round trip on every non-empty array (of fewer than `2^32` elements): the
decoder, given the encoder's entries and `*newCount`, returns the input array. -/
theorem runlength_round_trip_nonempty (v : List ℚ) (hne : v ≠ [])
    (hlen : v.length < 4294967296) :
    ∃ cd k after, getRunlengthCompressedData v = some (cd, k) ∧
      getRunlengthDecompressedData cd k = some (v, after) := by
  cases v with
  | nil => exact absurd rfl hne
  | cons first rest =>
    simp only [getRunlengthCompressedData, List.getElem?_cons_zero, List.drop_succ_cons,
      List.drop_zero]
    have h := rleLoop_spec rest
      ((List.replicate (first :: rest).length (⟨0, 0⟩ : runlengthEntry)).set 0 ⟨first, 1⟩) 0
      [first] (by simp) (by simpa [Nat.add_comm] using hlen)
      (by simp [expandRuns])
    obtain ⟨h1, h2⟩ := h
    generalize rleLoop rest
      ((List.replicate (first :: rest).length (⟨0, 0⟩ : runlengthEntry)).set 0 ⟨first, 1⟩) 0 = r
      at h1 h2 ⊢
    refine ⟨r.1, r.2 + 1,
      (rleDecodeLoop (r.1.take (r.2 + 1)) []).2 ++ r.1.drop (r.2 + 1), rfl, ?_⟩
    unfold getRunlengthDecompressedData
    rw [if_pos (by omega)]
    simp only [rleDecodeLoop_fst, List.nil_append]
    rw [h2]
    rfl

/-- C6, at the failing input: on the empty array the encoder has no defined result
(lines 167-168 access index `0` of two zero-length arrays), so no run of encoder and
decoder returns the empty array. -/
theorem runlength_round_trip_fails_on_empty :
    getRunlengthCompressedData [] = none ∧
    ¬ ∃ cd k after, getRunlengthCompressedData [] = some (cd, k) ∧
      getRunlengthDecompressedData cd k = some ([], after) := by
  refine ⟨rfl, ?_⟩
  rintro ⟨cd, k, after, h, _⟩
  exact absurd h (by simp [getRunlengthCompressedData])

/-- The encoder loop keeps the length of the entry array. -/
theorem rleLoop_length :
    ∀ (rest : List ℚ) (cd : List runlengthEntry) (ci : Nat),
      (rleLoop rest cd ci).1.length = cd.length := by
  intro rest
  induction rest with
  | nil => intro cd ci; rfl
  | cons x rest ih =>
    intro cd ci
    rw [rleLoop]
    split_ifs
    · rw [ih]; simp only [List.length_set]
    · rw [ih]; simp only [List.length_set]

/-! ## Run-length encoder: the runs are maximal -/

/-- On a non-empty array `runlengthNewCount` is the count the encoder returns. -/
theorem runlengthNewCount_eq (v : List ℚ) (cd : List runlengthEntry) (k : Nat)
    (h : getRunlengthCompressedData v = some (cd, k)) : k = runlengthNewCount v := by
  cases v with
  | nil => simp [getRunlengthCompressedData] at h
  | cons first rest =>
    simp only [getRunlengthCompressedData, List.getElem?_cons_zero, List.drop_succ_cons,
      List.drop_zero, Option.some.injEq, Prod.mk.injEq] at h
    rw [← h.2]
    rfl

/-- On every non-empty array (of fewer than `2^32` elements) the reported count is at most
the length. -/
theorem runlengthNewCount_le (v : List ℚ) (hne : v ≠ []) (hlen : v.length < 4294967296) :
    runlengthNewCount v ≤ v.length := by
  cases v with
  | nil => exact absurd rfl hne
  | cons first rest =>
    have h := rleLoop_spec rest
      ((List.replicate (first :: rest).length (⟨0, 0⟩ : runlengthEntry)).set 0 ⟨first, 1⟩) 0
      [first] (by simp) (by simpa [Nat.add_comm] using hlen)
      (by simp [expandRuns])
    have hl := rleLoop_length rest
      ((List.replicate (first :: rest).length (⟨0, 0⟩ : runlengthEntry)).set 0 ⟨first, 1⟩) 0
    simp only [List.length_set, List.length_replicate] at hl
    unfold runlengthNewCount
    simp only [List.drop_succ_cons, List.drop_zero, List.getD_cons_zero]
    omega

/-- C12, at the failing input: for the empty array (`n = 0`) the value stored in
`*newCount` is `1`, which is not `≤ 0`; and the run has no defined result, since lines
167-168 access index `0` of two zero-length arrays. -/
theorem runlength_count_exceeds_length_on_empty :
    runlengthNewCount [] = 1 ∧ ¬ runlengthNewCount [] ≤ ([] : List ℚ).length ∧
    ∀ cd k, getRunlengthCompressedData [] ≠ some (cd, k) := by
  refine ⟨by decide, by decide, ?_⟩
  intro cd k h
  simp [getRunlengthCompressedData] at h

/-- C16, counterexample: `[3.25, 3.25, 3.25]` with `M = 3`, `P = 4` has the scaled
fraction `25 ≥ 2^4`, and the encoder returns the buffer `[57, 57, 57]`, which decodes to
`3.09` three times. -/
theorem encode_accepts_fraction_overflow :
    splitAfter (13 / 4) (variableMultiplier 4) = 25 ∧ ¬ 25 < 2 ^ 4 ∧
    getVariableBitCompressedData [13 / 4, 13 / 4, 13 / 4] 3 4 = [57, 57, 57] ∧
    getVariableBitDecompressedData [57, 57, 57] 3 3 4 = [309 / 100, 309 / 100, 309 / 100] := by
  decide!

/-- C18, at the failing input: for `P = 3` the encoders multiply by `10` and the decoders
divide by `100`; the two agree exactly from `P = 4` on. -/
theorem divider_differs_from_multiplier_at_3_bits :
    variableMultiplier 3 = 10 ∧ variableDivider 3 = 100 ∧
    10 ^ max 1 (numberOfDigits 3) = 10 ∧
    ∀ P < 25, variableMultiplier P = 10 ^ max 1 (numberOfDigits P) ∧
      (variableDivider P = variableMultiplier P ↔ 4 ≤ P) := by
  decide!

/-- C20, at the failing input: `M = 16`, `P = 7` and `x = 1.0` (`s = 0`, `m = 1`,
`f = 0`). The word of the layout is `1 * 2^7 = 128`, but the stored element is
`{0, 0, 0}`: magnitude bit `0` lies in bit `7` of `data[0]`, and line 297 assigns
`data[0] = afterDecimal[0]` over it. -/
theorem fixed24_encode_drops_magnitude_bit :
    get24BitCompressedData [1] 16 7 = [[0, 0, 0]] ∧
    (get24BitCompressedData [1] 16 7).map
      (fun d => d.getD 2 0 * 2 ^ 16 + d.getD 1 0 * 2 ^ 8 + d.getD 0 0) = [0] ∧
    splitBefore 1 = 1 ∧ splitAfter 1 (multiplier24 7) = 0 ∧
    0 * 2 ^ 23 + splitBefore 1 * 2 ^ 7 + splitAfter 1 (multiplier24 7) = 128 := by
  decide!

/-! ## The fixed 24-bit variant: single read and bulk read -/

/-- The magnitude loop of `getSingle24BitValue` computes what the loop of
`get24BitDecompressedData` computes. -/
theorem singleMag24Loop_eq (data : List Nat) :
    ∀ (fuel beforeDp magBits : Nat) (ci : Int),
      singleMag24Loop data fuel beforeDp magBits ci = mag24Loop data fuel beforeDp magBits ci := by
  intro fuel
  induction fuel with
  | zero => intro b m ci; rfl
  | succ fuel ih =>
    intro b m ci
    rw [singleMag24Loop, mag24Loop, ih]

/-- The precision loop of `getSingle24BitValue` computes what the loop of
`get24BitDecompressedData` computes. -/
theorem singlePrec24Loop_eq (data : List Nat) (precBits : Nat) :
    ∀ (fuel afterDp precBitsLeft : Nat) (ci : Int),
      singlePrec24Loop data precBits fuel afterDp precBitsLeft ci
        = prec24Loop data precBits fuel afterDp precBitsLeft ci := by
  intro fuel
  induction fuel with
  | zero => intro a p ci; rfl
  | succ fuel ih =>
    intro a p ci
    rw [singlePrec24Loop, prec24Loop, ih]

/-- C19: for every array of elements (of any content), every `M`, `P` and every index
`i` below the number of elements, `getSingle24BitValue` returns exactly the value that
`get24BitDecompressedData` stores at position `i`. -/
theorem single24_read_eq_bulk_read (allValues : List compressedVal) (i magBits precBits : Nat)
    (hi : i < allValues.length) :
    (get24BitDecompressedData allValues magBits precBits)[i]?
      = some (getSingle24BitValue allValues i magBits precBits) := by
  unfold get24BitDecompressedData getSingle24BitValue decompress24
  rw [List.getElem?_map, List.getElem?_eq_getElem hi, List.getD_eq_getElem?_getD,
    List.getElem?_eq_getElem hi]
  simp only [Option.map_some', Option.getD_some, singleMag24Loop_eq, singlePrec24Loop_eq]

/-- The 24-bit read theorem at a two-element array, `M = 7`, `P = 16`, index `1`. -/
theorem single24_read_eq_bulk_read_witness :
    (1 : Nat) < [[80, 195, 129], [52, 18, 7]].length ∧
    (get24BitDecompressedData [[80, 195, 129], [52, 18, 7]] 7 16)[1]?
      = some (getSingle24BitValue [[80, 195, 129], [52, 18, 7]] 1 7 16) :=
  ⟨by decide, single24_read_eq_bulk_read [[80, 195, 129], [52, 18, 7]] 1 7 16 (by decide)⟩

/-! ## Byte-aligned records with `M = 7`, `P = 16` -/

/-- Clearing the eight bits of a byte one after the other leaves zero. -/
theorem and_clear_masks (x : Nat) :
    x &&& 127 &&& 191 &&& 223 &&& 239 &&& 247 &&& 251 &&& 253 &&& 254 = 0 := by
  simp only [Nat.and_assoc]
  have h : 127 &&& (191 &&& (223 &&& (239 &&& (247 &&& (251 &&& (253 &&& 254)))))) = 0 := by
    decide
  rw [h, Nat.and_zero]

/-- Eight rounds of the clearing loop, started at bit `7`, zero one byte and move on to
the byte below. -/
theorem clearLoop_byte (n : Nat) (data : List Nat) (ind : Nat) :
    clearLoop (n + 8) data ind 7 = clearLoop n (data.set ind 0) (decr32 ind) 7 := by
  by_cases h : ind < data.length
  · simp [clearLoop, getD_set, h, List.set_set, and_clear_masks]
  · have h' : ∀ v, data.set ind v = data := fun v => List.set_eq_of_length_le (by omega)
    simp [clearLoop, h']

/-- A record with `M = 7`, `P = 16` written at a byte boundary over three zero bytes:
the sign write (made when `p` holds), the magnitude loop and the precision loop (of the
bulk encoder, `cl = false`, or of the single overwrite, `cl = true`) store the three
bytes of the record. -/
theorem aligned_fields (cl : Bool) (p : Prop) [Decidable p] (m f : Nat) (data : List Nat)
    (ci : Nat) (hci : 2 ≤ ci) (hlt : ci < 4294967296) (hlen : ci < data.length)
    (h0 : data.getD ci 0 = 0) (h1 : data.getD (ci - 1) 0 = 0) (h2 : data.getD (ci - 2) 0 = 0) :
    packField (bytes3 f) cl 16
      (packField (bytes3 m) false 7
        (if p then data.set ci ((data.getD ci 0 ||| (1 <<< 7)) % 256) else data) ci 7).data
      (packField (bytes3 m) false 7
        (if p then data.set ci ((data.getD ci 0 ||| (1 <<< 7)) % 256) else data) ci 7).ci
      (packField (bytes3 m) false 7
        (if p then data.set ci ((data.getD ci 0 ||| (1 <<< 7)) % 256) else data) ci 7).space
    = ⟨((data.set ci (((if p then 128 else 0) ||| (m &&& 255)) % 256)).set (ci - 1)
          (((f >>> 8) &&& 255) % 256)).set (ci - 2) ((f &&& 255) % 256),
        decr32 (ci - 2), 8, 4294967295, 0⟩ := by
  have e1 : decr32 ci = ci - 1 := decr32_pos (by omega) (by omega)
  have e2 : decr32 (ci - 1) = ci - 2 := by rw [decr32_pos (by omega) (by omega)]; omega
  have e3 : decr32 0 = 4294967295 := rfl
  have n1 : ¬ ci = ci - 1 := by omega
  have n2 : ¬ ci = ci - 2 := by omega
  have n3 : ¬ ci - 1 = ci - 2 := by omega
  have h0' : data[ci] = 0 := by
    rw [List.getD_eq_getElem?_getD, List.getElem?_eq_getElem hlen] at h0
    exact h0
  rw [List.getD_eq_getElem?_getD] at h0 h1 h2
  by_cases hp : p <;> cases cl <;>
    simp [packField, packLoop, fieldStart, packFuel, bytes3, getD_set, h0, h1, h2, e1, e2, e3,
      n1, n2, n3, List.set_set, hlen, h0', hp]

/-- The body of the bulk encoder loop for `M = 7`, `P = 16` at a byte boundary, over
three zero bytes. -/
theorem packRecord_aligned (x : ℚ) (data : List Nat) (ci : Nat)
    (hci : 2 ≤ ci) (hlt : ci < 4294967296) (hlen : ci < data.length)
    (h0 : data.getD ci 0 = 0) (h1 : data.getD (ci - 1) 0 = 0) (h2 : data.getD (ci - 2) 0 = 0) :
    packRecord 7 16 (decide (x < 0)) (splitFloat x 100000) data ci 8
      = (((data.set ci (((if x < 0 then 128 else 0) ||| (splitBefore x &&& 255)) % 256)).set
            (ci - 1) (((splitAfter x 100000 >>> 8) &&& 255) % 256)).set (ci - 2)
            ((splitAfter x 100000 &&& 255) % 256),
        decr32 (ci - 2), 8) := by
  have h := aligned_fields false (x < 0) (splitBefore x) (splitAfter x 100000) data ci hci hlt
    hlen h0 h1 h2
  unfold packRecord splitFloat
  simp only [show (8 : Nat) - 1 = 7 from rfl, show ¬ (7 : Nat) = 0 by decide, if_false,
    decide_eq_true_eq]
  rw [h]

/-- The bulk encoder on four values with `M = 7`, `P = 16`: three bytes per value, the
last value in bytes `0..2`, each value as `[f mod 256, f / 256 mod 256, sign*128 | m]`. -/
theorem encode4_aligned (a b c d : ℚ) :
    getVariableBitCompressedData [a, b, c, d] 7 16 =
      List.flatten ([d, c, b, a].map (fun x =>
        [(splitAfter x 100000 &&& 255) % 256, ((splitAfter x 100000 >>> 8) &&& 255) % 256,
          ((if x < 0 then 128 else 0) ||| (splitBefore x &&& 255)) % 256])) := by
  have h1 : newCount 4 7 16 = 12 := by decide
  have h2 : variableMultiplier 16 = 100000 := by decide
  have s1 := packRecord_aligned a [0, 0, 0, 0, 0, 0, 0, 0, 0, 0, 0, 0] 11 (by decide)
    (by decide) (by decide) rfl rfl rfl
  have s2 := fun (x y z : Nat) => packRecord_aligned b [0, 0, 0, 0, 0, 0, 0, 0, 0, x, y, z] 8
    (by decide) (by decide) (by simp) rfl rfl rfl
  have s3 := fun (x y z x' y' z' : Nat) => packRecord_aligned c
    [0, 0, 0, 0, 0, 0, x, y, z, x', y', z'] 5 (by decide) (by decide) (by simp) rfl rfl rfl
  have s4 := fun (x y z x' y' z' x'' y'' z'' : Nat) => packRecord_aligned d
    [0, 0, 0, x, y, z, x', y', z', x'', y'', z''] 2 (by decide) (by decide) (by simp)
    rfl rfl rfl
  show (encodeLoop 7 16 (variableMultiplier 16) [a, b, c, d]
    (List.replicate (newCount 4 7 16) 0) (decr32 (newCount 4 7 16)) 8).1 = _
  rw [h1, h2]
  simp only [encodeLoop]
  rw [show List.replicate 12 0 = [0, 0, 0, 0, 0, 0, 0, 0, 0, 0, 0, (0 : Nat)] from rfl,
    show decr32 12 = 11 from rfl, s1]
  simp only [List.set_cons_succ, List.set_cons_zero, show decr32 (11 - 2) = 8 from rfl,
    show 11 - 1 = 10 from rfl, show 11 - 2 = 9 from rfl]
  rw [s2]
  simp only [List.set_cons_succ, List.set_cons_zero, show decr32 (8 - 2) = 5 from rfl,
    show 8 - 1 = 7 from rfl, show 8 - 2 = 6 from rfl]
  rw [s3]
  simp only [List.set_cons_succ, List.set_cons_zero, show decr32 (5 - 2) = 2 from rfl,
    show 5 - 1 = 4 from rfl, show 5 - 2 = 3 from rfl]
  rw [s4]
  rfl

/-- The single overwrite at index `2` of a 12-byte buffer with `M = 7`, `P = 16`: bytes
`3..5` become the three bytes of the new value, whatever they held, and the other bytes
stay. -/
theorem insert_slot2_aligned (x0 x1 x2 x3 x4 x5 x6 x7 x8 x9 x10 x11 : Nat) (z : ℚ) :
    insertSingleVariableBitValue [x0, x1, x2, x3, x4, x5, x6, x7, x8, x9, x10, x11] 12 2 z 7 16
      = [x0, x1, x2, (splitAfter z 100000 &&& 255) % 256,
          ((splitAfter z 100000 >>> 8) &&& 255) % 256,
          ((if z < 0 then 128 else 0) ||| (splitBefore z &&& 255)) % 256,
          x6, x7, x8, x9, x10, x11] := by
  have h2 : variableMultiplier 16 = 100000 := by decide
  have hc : clearLoop (1 + 7 + 16) [x0, x1, x2, x3, x4, x5, x6, x7, x8, x9, x10, x11] 5 7
      = [x0, x1, x2, 0, 0, 0, x6, x7, x8, x9, x10, x11] :=
    calc clearLoop (1 + 7 + 16) [x0, x1, x2, x3, x4, x5, x6, x7, x8, x9, x10, x11] 5 7
        = clearLoop 16 [x0, x1, x2, x3, x4, 0, x6, x7, x8, x9, x10, x11] 4 7 :=
          clearLoop_byte 16 _ 5
      _ = clearLoop 8 [x0, x1, x2, x3, 0, 0, x6, x7, x8, x9, x10, x11] 3 7 :=
          clearLoop_byte 8 _ 4
      _ = clearLoop 0 [x0, x1, x2, 0, 0, 0, x6, x7, x8, x9, x10, x11] 2 7 :=
          clearLoop_byte 0 _ 3
      _ = [x0, x1, x2, 0, 0, 0, x6, x7, x8, x9, x10, x11] := rfl
  have h := aligned_fields true (z < 0) (splitBefore z) (splitAfter z 100000)
    [x0, x1, x2, 0, 0, 0, x6, x7, x8, x9, x10, x11] 5 (by decide) (by decide) (by simp)
    rfl rfl rfl
  unfold insertSingleVariableBitValue
  rw [h2, show startByte 12 2 7 16 = 5 from rfl, show startIndex 2 7 16 = 7 from rfl]
  simp only [hc, splitFloat, show ¬ (7 : Nat) = 0 by decide, if_false]
  rw [h]
  rfl

/-! ## Bulk decode: what the loops read from the stream -/

/-- Bit `i` of the byte under the cursor, for `i` below the cursor's bit count, is a bit
of the stream. -/
theorem byte_bit_stream (buf : List Nat) {pos ci u i : Nat}
    (hc : CursorAt buf.length pos ci u) (hpos : pos < 8 * buf.length) (hi : i < u) :
    (buf.getD ci 0).testBit i = streamBit buf (pos + (u - 1 - i)) := by
  obtain ⟨h1, h2⟩ := hc
  unfold streamBit
  rw [h2 hpos]
  have e1 : (pos + (u - 1 - i)) / 8 = pos / 8 := by omega
  have e2 : 7 - (pos + (u - 1 - i)) % 8 = i := by omega
  rw [e1, e2]

/-- The magnitude loop ORs into the accumulator the next `target` bits of the stream,
most significant first. -/
theorem readMagLoop_bits (buf : List Nat) (hN : buf.length ≤ 4294967296) :
    ∀ (fuel : Nat) (s : ReadState) (pos : Nat),
      CursorAt buf.length pos s.ci s.uncompBits → pos + s.target ≤ 8 * buf.length →
      s.target < fuel → s.target ≤ 32 →
      ∀ j, (readMagLoop buf fuel s).acc.testBit j =
        (s.acc.testBit j || (decide (j < s.target) && streamBit buf (pos + (s.target - 1 - j)))) := by
  intro fuel
  induction fuel with
  | zero => intro s pos _ _ h; omega
  | succ fuel ih =>
    intro s pos hc hfit hfuel h32 j
    rw [readMagLoop]
    by_cases ht : s.target = 0
    · rw [if_pos ht, ht]
      simp
    · rw [if_neg ht]
      have hpos : pos < 8 * buf.length := by omega
      have hu : s.uncompBits = 8 - pos % 8 := hc.1
      by_cases hgt : s.target > s.uncompBits
      · rw [if_pos hgt]
        have hc' := cursorAt_advance hN hc (Nat.le_refl _) hpos
        simp only [Nat.sub_self, if_true] at hc'
        rw [ih ⟨_, decr32 s.ci, s.target - s.uncompBits, 8⟩ (pos + s.uncompBits) hc'
          (by simp only; omega) (by simp only; omega) (by simp only; omega) j]
        simp only [Nat.testBit_or, show (4294967296 : Nat) = 2 ^ 32 from rfl,
          Nat.testBit_mod_two_pow, Nat.testBit_shiftLeft, Nat.testBit_and,
          Nat.testBit_two_pow_sub_one]
        by_cases h1 : j < s.target - s.uncompBits
        · have e : pos + s.uncompBits + (s.target - s.uncompBits - 1 - j)
              = pos + (s.target - 1 - j) := by omega
          rw [e]
          simp [h1, show ¬ j ≥ s.target - s.uncompBits by omega,
            show j < s.target by omega]
        · by_cases h2 : j < s.target
          · have hb := byte_bit_stream buf hc hpos
              (show j - (s.target - s.uncompBits) < s.uncompBits by omega)
            have e : pos + (s.uncompBits - 1 - (j - (s.target - s.uncompBits)))
              = pos + (s.target - 1 - j) := by omega
            rw [e] at hb
            rw [hb]
            simp [h1, h2, show j ≥ s.target - s.uncompBits by omega,
              show j < 32 by omega,
              show j - (s.target - s.uncompBits) < s.uncompBits by omega]
          · simp [h1, h2, show ¬ j - (s.target - s.uncompBits) < s.uncompBits by omega]
      · rw [if_neg hgt]
        have hacc : ∀ a : Nat, (a ||| ((buf.getD s.ci 0 >>> (s.uncompBits - s.target))
            &&& (2 ^ s.target - 1))).testBit j =
            (a.testBit j || (decide (j < s.target) && streamBit buf (pos + (s.target - 1 - j)))) := by
          intro a
          simp only [Nat.testBit_or, Nat.testBit_and, Nat.testBit_shiftRight,
            Nat.testBit_two_pow_sub_one]
          by_cases h2 : j < s.target
          · have hb := byte_bit_stream buf hc hpos
              (show s.uncompBits - s.target + j < s.uncompBits by omega)
            have e : pos + (s.uncompBits - 1 - (s.uncompBits - s.target + j))
              = pos + (s.target - 1 - j) := by omega
            rw [e] at hb
            rw [hb]
            simp [h2]
          · simp [h2]
        simp only []
        split_ifs <;> exact hacc s.acc

/-- When the field does not reach past the byte under the cursor, the precision loop is
the magnitude loop. -/
theorem readPrecLoop_eq_of_le (buf : List Nat) (fuel : Nat) (s : ReadState)
    (h : s.target ≤ s.uncompBits) : readPrecLoop buf fuel s = readMagLoop buf fuel s := by
  cases fuel with
  | zero => rfl
  | succ fuel =>
    rw [readPrecLoop, readMagLoop]
    simp only [show ¬ s.target > s.uncompBits by omega, if_false]

/-- When the accumulator is still zero and the field reaches at most one byte past the
byte under the cursor, the precision loop is the magnitude loop. -/
theorem readPrecLoop_eq_mag (buf : List Nat) (fuel : Nat) (s : ReadState) (h0 : s.acc = 0)
    (h : s.target ≤ s.uncompBits + 8) : readPrecLoop buf fuel s = readMagLoop buf fuel s := by
  cases fuel with
  | zero => rfl
  | succ fuel =>
    rw [readPrecLoop, readMagLoop]
    by_cases ht : s.target = 0
    · rw [if_pos ht, if_pos ht]
    · rw [if_neg ht, if_neg ht]
      by_cases hgt : s.target > s.uncompBits
      · rw [if_pos hgt, if_pos hgt, h0, Nat.zero_or, Nat.zero_or]
        exact readPrecLoop_eq_of_le buf fuel _ (by simp only; omega)
      · rw [if_neg hgt, if_neg hgt]

/-- The test of the sign bit: `(x >> k) & (2^1 - 1) = 1` says that bit `k` of `x` is set. -/
theorem shift_and_one (x k : Nat) : ((x >>> k) &&& (2 ^ 1 - 1) = 1) ↔ x.testBit k = true := by
  simp [Nat.testBit_to_div_mod, Nat.shiftRight_eq_div_pow, Nat.and_one_is_mod]

/-- What `readRecord` extracts at a cursor behind `pos` stream bits, when the precision
field reaches at most one byte past the byte it starts in: the sign is stream bit `pos`,
`beforeDp` the next `M` bits and `afterDp` the `P` bits after them, most significant
first. -/
theorem readRecord_bits (buf : List Nat) (hN : buf.length ≤ 4294967296) (M P ci u pos : Nat)
    (hc : CursorAt buf.length pos ci u) (hfit : pos + (1 + M + P) ≤ 8 * buf.length)
    (hM : M ≤ 32) (hP : P ≤ 8 - (pos + 1 + M) % 8 + 8) :
    (readRecord buf M P ci u).1.signMultiplier = (if streamBit buf pos then -1 else 1) ∧
    (∀ j, (readRecord buf M P ci u).1.beforeDp.testBit j =
      (decide (j < M) && streamBit buf (pos + 1 + (M - 1 - j)))) ∧
    (∀ j, (readRecord buf M P ci u).1.afterDp.testBit j =
      (decide (j < P) && streamBit buf (pos + 1 + M + (P - 1 - j)))) := by
  unfold readRecord
  simp only
  have hu : u = 8 - pos % 8 := hc.1
  have hs := byte_bit_stream buf hc (show pos < 8 * buf.length by omega)
    (show u - 1 < u by omega)
  rw [show pos + (u - 1 - (u - 1)) = pos by omega] at hs
  have hc1 := cursorAt_advance hN hc (show 1 ≤ u by omega) (by omega)
  generalize (if u - 1 = 0 then decr32 ci else ci) = ci1 at hc1 ⊢
  generalize (if u - 1 = 0 then 8 else u - 1) = u1 at hc1 ⊢
  have hm := readMagLoop_cursor buf buf.length hN (M + 1) ⟨0, ci1, M, u1⟩ (pos + 1) hc1
    (by simp only; omega) (by simp only; omega)
  have hmb := readMagLoop_bits buf hN (M + 1) ⟨0, ci1, M, u1⟩ (pos + 1) hc1
    (by simp only; omega) (by simp only; omega) (by simp only; omega)
  simp only [Nat.zero_testBit, Bool.false_or] at hm hmb
  generalize readMagLoop buf (M + 1) ⟨0, ci1, M, u1⟩ = m at hm hmb ⊢
  have hmu : m.uncompBits = 8 - (pos + 1 + M) % 8 := hm.1.1
  have hpb := readMagLoop_bits buf hN (P + 1) ⟨0, m.ci, P, m.uncompBits⟩ (pos + 1 + M) hm.1
    (by simp only; omega) (by simp only; omega) (by simp only; omega)
  rw [← readPrecLoop_eq_mag buf (P + 1) ⟨0, m.ci, P, m.uncompBits⟩ rfl
    (by simp only; omega)] at hpb
  simp only [Nat.zero_testBit, Bool.false_or] at hpb
  refine ⟨?_, hmb, hpb⟩
  rw [← hs]
  by_cases hb : (buf.getD ci 0).testBit (u - 1) = true
  · rw [if_pos ((shift_and_one _ _).2 hb), if_pos hb]
  · rw [if_neg (fun h => hb ((shift_and_one _ _).1 h)), if_neg hb]

/-- Reading record `i` of an encoded buffer gives back the triple the encoder computed
for `v[i]`, when all values are in range, the records fit the buffer, and the precision
field of record `i` reaches at most one byte past the byte it starts in. -/
theorem readRecord_encode (v : List ℚ) (M P : Nat) (hM : M ≤ 24) (hP : P ≤ 24)
    (hrange : ∀ x ∈ v, splitBefore x < 2 ^ M ∧ splitAfter x (variableMultiplier P) < 2 ^ P)
    (hfit : v.length * (1 + M + P) ≤ 8 * newCount v.length M P)
    (i : Nat) (hi : i < v.length)
    (halign : P ≤ 8 - (i * (1 + M + P) + 1 + M) % 8 + 8) :
    (readRecord (getVariableBitCompressedData v M P) M P
      ((getVariableBitCompressedData v M P).length - 1 - (i * (1 + M + P)) / 8)
      (8 - (i * (1 + M + P)) % 8)).1 =
      ⟨if v.getD i 0 < 0 then -1 else 1, splitBefore (v.getD i 0),
        splitAfter (v.getD i 0) (variableMultiplier P)⟩ := by
  obtain ⟨hpk, hlen⟩ := encode_packed v M P hM hP hrange hfit
  have hN : (getVariableBitCompressedData v M P).length ≤ 4294967296 := by
    rw [hlen]; exact newCount_le _ _ _
  rw [← hlen] at hfit
  have hk : i * (1 + M + P) + (1 + M + P) ≤ v.length * (1 + M + P) := by
    have := Nat.mul_le_mul_right (1 + M + P) (show i + 1 ≤ v.length by omega)
    rw [Nat.add_mul, Nat.one_mul] at this
    exact this
  have hr := readRecord_bits (getVariableBitCompressedData v M P) hN M P
    ((getVariableBitCompressedData v M P).length - 1 - (i * (1 + M + P)) / 8)
    (8 - (i * (1 + M + P)) % 8) (i * (1 + M + P)) ⟨rfl, fun _ => rfl⟩ (by omega) (by omega)
    halign
  obtain ⟨hx1, hx2⟩ := hrange _ (getD_mem hi)
  have hbit : ∀ r, r < 1 + M + P →
      streamBit (getVariableBitCompressedData v M P) (i * (1 + M + P) + r)
        = (recordWord M P (v.getD i 0)).testBit (M + P - r) := by
    intro r hr'
    rw [hpk.2 _ (by omega)]
    have e1 : (i * (1 + M + P) + r) / (1 + M + P) = i := by
      rw [Nat.add_comm, Nat.add_mul_div_right _ _ (by omega), Nat.div_eq_of_lt hr',
        Nat.zero_add]
    have e2 : (i * (1 + M + P) + r) % (1 + M + P) = r := by
      rw [Nat.add_comm, Nat.add_mul_mod_self_right, Nat.mod_eq_of_lt hr']
    simp only [e1, e2, show i * (1 + M + P) + r < v.length * (1 + M + P) by omega,
      decide_True, Bool.true_and]
  have hw := fun j => word_testBit M P (if v.getD i 0 < 0 then 1 else 0) _ _ j hx1 hx2
  generalize hd : readRecord (getVariableBitCompressedData v M P) M P
    ((getVariableBitCompressedData v M P).length - 1 - (i * (1 + M + P)) / 8)
    (8 - (i * (1 + M + P)) % 8) = rr at hr
  obtain ⟨⟨sg, bd, ad⟩, c1, c2⟩ := rr
  simp only at hr ⊢
  obtain ⟨h1, h2, h3⟩ := hr
  have hs : sg = if v.getD i 0 < 0 then -1 else 1 := by
    rw [h1]
    have := hbit 0 (by omega)
    rw [Nat.add_zero, Nat.sub_zero] at this
    rw [this]
    unfold recordWord
    rw [hw]
    simp only [show ¬ M + P < P by omega, show ¬ M + P < M + P by omega, if_false, Nat.sub_self]
    by_cases hneg : v.getD i 0 < 0
    · simp only [hneg, if_true]
      rfl
    · simp only [hneg, if_false]
      rfl
  have hb : bd = splitBefore (v.getD i 0) := by
    apply Nat.eq_of_testBit_eq
    intro j
    rw [h2]
    by_cases hj : j < M
    · have := hbit (1 + (M - 1 - j)) (by omega)
      rw [show i * (1 + M + P) + (1 + (M - 1 - j)) = i * (1 + M + P) + 1 + (M - 1 - j) by omega]
        at this
      rw [this]
      unfold recordWord
      rw [hw]
      simp only [show ¬ M + P - (1 + (M - 1 - j)) < P by omega,
        show M + P - (1 + (M - 1 - j)) < M + P by omega, if_false, if_true, hj, decide_True,
        Bool.true_and]
      congr 1
      omega
    · simp only [hj, decide_False, Bool.false_and]
      symm
      exact Nat.testBit_lt_two_pow (Nat.lt_of_lt_of_le hx1 (Nat.pow_le_pow_right (by omega)
        (by omega)))
  have ha : ad = splitAfter (v.getD i 0) (variableMultiplier P) := by
    apply Nat.eq_of_testBit_eq
    intro j
    rw [h3]
    by_cases hj : j < P
    · have := hbit (1 + M + (P - 1 - j)) (by omega)
      rw [show i * (1 + M + P) + (1 + M + (P - 1 - j)) = i * (1 + M + P) + 1 + M + (P - 1 - j)
        by omega] at this
      rw [this]
      unfold recordWord
      rw [hw]
      simp only [show M + P - (1 + M + (P - 1 - j)) < P by omega, if_true, hj, decide_True,
        Bool.true_and]
      congr 1
      omega
    · simp only [hj, decide_False, Bool.false_and]
      symm
      exact Nat.testBit_lt_two_pow (Nat.lt_of_lt_of_le hx2 (Nat.pow_le_pow_right (by omega)
        (by omega)))
  rw [hs, hb, ha]

/-- The value bulk decode stores at position `i` of an encoded buffer is
`sign * (m + f / divider)` for the triple the encoder computed for `v[i]`. -/
theorem decode_encode_getElem (v : List ℚ) (M P : Nat) (hM : M ≤ 24) (hP : P ≤ 24)
    (hrange : ∀ x ∈ v, splitBefore x < 2 ^ M ∧ splitAfter x (variableMultiplier P) < 2 ^ P)
    (hfit : v.length * (1 + M + P) ≤ 8 * newCount v.length M P)
    (hsmall : newCount v.length M P < 536870912)
    (i : Nat) (hi : i < v.length)
    (halign : P ≤ 8 - (i * (1 + M + P) + 1 + M) % 8 + 8) :
    (getVariableBitDecompressedData (getVariableBitCompressedData v M P)
      (getVariableBitCompressedData v M P).length M P)[i]? =
      some ((if v.getD i 0 < 0 then -1 else 1) * ((splitBefore (v.getD i 0) : ℚ)
        + (splitAfter (v.getD i 0) (variableMultiplier P) : ℚ) / (variableDivider P : ℚ))) := by
  have hlen := encode_length v M P
  have hr := readRecord_encode v M P hM hP hrange hfit i hi halign
  generalize getVariableBitCompressedData v M P = buf at hlen hr ⊢
  rw [← hlen] at hfit hsmall
  have hpos : 0 < buf.length := by
    rcases Nat.eq_zero_or_pos buf.length with h | h
    · rw [h] at hfit
      have : v.length * (1 + M + P) = 0 := by omega
      rcases Nat.mul_eq_zero.1 this with h' | h' <;> omega
    · exact h
  have hk : (1 + M + P) % 4294967296 = 1 + M + P := Nat.mod_eq_of_lt (by omega)
  have h8 : (8 * buf.length) % 4294967296 = 8 * buf.length := Nat.mod_eq_of_lt (by omega)
  have hlim : v.length ≤ uncompLimit buf.length M P := by
    unfold uncompLimit
    rw [hk, h8]
    exact (Nat.le_div_iff_mul_le (by omega)).2 hfit
  have hlim2 : uncompLimit buf.length M P * (1 + M + P) ≤ 8 * buf.length := by
    unfold uncompLimit
    rw [hk, h8]
    exact Nat.div_mul_le_self _ _
  unfold getVariableBitDecompressedData
  rw [decodeLoop_getElem buf buf.length (by omega) M P (variableDivider P)
    (uncompLimit buf.length M P) (decr32 buf.length) 8 0 i
    ⟨rfl, fun _ => by rw [decr32_pos hpos (by omega)]; rfl⟩ (by omega) (by omega)]
  rw [Nat.zero_add, hr]
  unfold Decoded.toValue
  simp only
  by_cases hneg : v.getD i 0 < 0
  · simp only [hneg, if_true]
    norm_num
  · simp only [hneg, if_false]
    norm_num

/-- For `M = 7`, `P = 16` and at most `2^24` bits the byte count is three per value. -/
theorem newCount_aligned (n : Nat) (h : n * 24 ≤ 16777216) : newCount n 7 16 = 3 * n := by
  rcases Nat.eq_zero_or_pos n with h0 | h0
  · subst h0
    decide
  · rw [newCount_exact (by omega) h0]
    unfold ceilDiv
    omega

/-- The quantized form of a value below `128` in size is within `1e-5` of the value. -/
theorem quantize_error (x : ℚ) (hx : |x| < 128) : |quantize 16 x - x| ≤ 1 / 100000 := by
  have hmul : variableMultiplier 16 = 100000 := by decide
  have ha : (0 : ℚ) ≤ |x| := abs_nonneg x
  have hn1 : ((⌊|x|⌋₊ : Nat) : ℚ) ≤ |x| := Nat.floor_le ha
  have hn2 : |x| < ((⌊|x|⌋₊ : Nat) : ℚ) + 1 := Nat.lt_floor_add_one _
  have hnlt : ⌊|x|⌋₊ < 128 := (Nat.floor_lt ha).2 (by exact_mod_cast hx)
  have ht : (0 : ℚ) ≤ (|x| - ((⌊|x|⌋₊ : Nat) : ℚ)) * ((100000 : Nat) : ℚ) + 1 / 2 := by
    have : (0 : ℚ) ≤ (|x| - ((⌊|x|⌋₊ : Nat) : ℚ)) * ((100000 : Nat) : ℚ) :=
      mul_nonneg (by linarith) (by norm_num)
    linarith
  have hf1 := Nat.floor_le ht
  have hf2 := Nat.lt_floor_add_one
    ((|x| - ((⌊|x|⌋₊ : Nat) : ℚ)) * ((100000 : Nat) : ℚ) + 1 / 2)
  have hflt : ⌊(|x| - ((⌊|x|⌋₊ : Nat) : ℚ)) * ((100000 : Nat) : ℚ) + 1 / 2⌋₊ < 4294967296 := by
    apply (Nat.floor_lt ht).2
    have : (|x| - ((⌊|x|⌋₊ : Nat) : ℚ)) * ((100000 : Nat) : ℚ) < 1 * ((100000 : Nat) : ℚ) :=
      mul_lt_mul_of_pos_right (by linarith) (by norm_num)
    push_cast at this ⊢
    linarith
  unfold quantize splitBefore splitAfter
  rw [hmul, Nat.mod_eq_of_lt (by omega), Nat.mod_eq_of_lt hflt]
  generalize ⌊(|x| - ((⌊|x|⌋₊ : Nat) : ℚ)) * ((100000 : Nat) : ℚ) + 1 / 2⌋₊ = f at hf1 hf2
  generalize ⌊|x|⌋₊ = n at hn1 hn2 hf1 hf2
  push_cast at hf1 hf2 ⊢
  by_cases hneg : x < 0
  · rw [if_pos hneg, abs_le]
    rw [abs_of_neg hneg] at hn1 hn2 hf1 hf2
    constructor <;> linarith
  · rw [if_neg hneg, abs_le]
    rw [abs_of_nonneg (not_lt.1 hneg)] at hn1 hn2 hf1 hf2
    constructor <;> linarith

/-- Bulk decode of bulk encode with `M = 7`, `P = 16`, for in-range values and at most
`2^24` bits: the buffer has three bytes per value and the decoder returns the quantized
form of every value, which is within `1e-5` of it. -/
theorem bulk_round_trip_aligned (v : List ℚ) (hn : v.length * 24 ≤ 16777216)
    (hrange : ∀ x ∈ v, |x| < 128 ∧ splitAfter x (variableMultiplier 16) < 65536) :
    (getVariableBitCompressedData v 7 16).length = 3 * v.length ∧
    getVariableBitDecompressedData (getVariableBitCompressedData v 7 16)
      (getVariableBitCompressedData v 7 16).length 7 16 = v.map (quantize 16) ∧
    ∀ x ∈ v, |quantize 16 x - x| ≤ 1 / 100000 := by
  have hlen : (getVariableBitCompressedData v 7 16).length = 3 * v.length := by
    rw [encode_length, newCount_aligned _ hn]
  have hnc := newCount_aligned _ hn
  have hr : ∀ x ∈ v, splitBefore x < 2 ^ 7 ∧ splitAfter x (variableMultiplier 16) < 2 ^ 16 := by
    intro x hx
    refine ⟨?_, (hrange x hx).2⟩
    unfold splitBefore
    have : ⌊|x|⌋₊ < 128 := (Nat.floor_lt (abs_nonneg x)).2 (by exact_mod_cast (hrange x hx).1)
    rw [Nat.mod_eq_of_lt (by omega)]
    exact this
  refine ⟨hlen, ?_, fun x hx => quantize_error x (hrange x hx).1⟩
  apply List.ext_getElem?
  intro i
  by_cases hi : i < v.length
  · rw [decode_encode_getElem v 7 16 (by omega) (by omega) hr (by rw [hnc]; omega)
      (by rw [hnc]; omega) i hi (by omega)]
    rw [List.getElem?_map, List.getElem?_eq_getElem hi, List.getD_eq_getElem?_getD,
      List.getElem?_eq_getElem hi]
    simp only [Option.map_some', Option.getD_some]
    unfold quantize
    rw [show variableDivider 16 = variableMultiplier 16 by decide]
  · have h1 : (getVariableBitDecompressedData (getVariableBitCompressedData v 7 16)
        (getVariableBitCompressedData v 7 16).length 7 16).length = v.length := by
      unfold getVariableBitDecompressedData
      rw [decodeLoop_length, hlen]
      unfold uncompLimit
      rw [Nat.mod_eq_of_lt (by omega), show (1 + 7 + 16) % 4294967296 = 24 from rfl]
      omega
    rw [List.getElem?_eq_none (by omega), List.getElem?_eq_none (by simp; omega)]

/-! ## Bulk encode: one record changes only the bytes it lies in -/

/-- A stream bit of a buffer after one byte was stored. -/
theorem streamBit_set (buf : List Nat) (ci v b : Nat) :
    streamBit (buf.set ci v) b =
      if ci = buf.length - 1 - b / 8 ∧ ci < buf.length then v.testBit (7 - b % 8)
      else streamBit buf b := by
  unfold streamBit
  rw [List.length_set, getD_set]
  split_ifs <;> rfl

/-- The store `data[ci] = data[ci] | x` leaves a stream bit as it is when the bit lies in
another byte or `x` has a zero at its place. -/
theorem streamBit_or_frame (buf : List Nat) (ci x b : Nat)
    (h : ci = buf.length - 1 - b / 8 → x.testBit (7 - b % 8) = false) :
    streamBit (buf.set ci ((buf.getD ci 0 ||| x) % 256)) b = streamBit buf b := by
  rw [streamBit_set]
  split_ifs with hc
  · rw [testBit_byte, Nat.testBit_or, h hc.1, Bool.or_false,
      decide_eq_true (show 7 - b % 8 < 8 by omega), Bool.true_and]
    unfold streamBit
    rw [← hc.1]
  · rfl

/-- The same store made in two buffers that agree at a stream bit leaves them agreeing
at it. -/
theorem streamBit_or_agree (A B : List Nat) (cl : Bool) (ci space x b : Nat)
    (hlen : A.length = B.length) (h : streamBit A b = streamBit B b) :
    streamBit (A.set ci (((if cl then (255 - (2 ^ space - 1)) &&& A.getD ci 0
        else A.getD ci 0) ||| x) % 256)) b
      = streamBit (B.set ci (((if cl then (255 - (2 ^ space - 1)) &&& B.getD ci 0
        else B.getD ci 0) ||| x) % 256)) b := by
  rw [streamBit_set, streamBit_set, hlen]
  by_cases hc : ci = B.length - 1 - b / 8 ∧ ci < B.length
  · rw [if_pos hc, if_pos hc]
    unfold streamBit at h
    rw [hlen, ← hc.1] at h
    cases cl
    · simp only [Bool.false_eq_true, if_false, testBit_byte, Nat.testBit_or, h]
    · simp only [if_true, testBit_byte, Nat.testBit_or, Nat.testBit_and, h]
  · rw [if_neg hc, if_neg hc, h]

/-- The packing loop run on two buffers that agree at a stream bit, from the same cursor
and with the same source bytes, leaves them agreeing at it. -/
theorem packLoop_agree (src : List Nat) (cl : Bool) (b : Nat) :
    ∀ (fuel : Nat) (dA dB : List Nat) (ci space uci target : Nat),
      dA.length = dB.length → streamBit dA b = streamBit dB b →
      (packLoop src cl fuel ⟨dA, ci, space, uci, target⟩).data.length
        = (packLoop src cl fuel ⟨dB, ci, space, uci, target⟩).data.length ∧
      streamBit (packLoop src cl fuel ⟨dA, ci, space, uci, target⟩).data b
        = streamBit (packLoop src cl fuel ⟨dB, ci, space, uci, target⟩).data b := by
  intro fuel
  induction fuel with
  | zero => intro dA dB ci space uci target hl h; exact ⟨hl, h⟩
  | succ fuel ih =>
    intro dA dB ci space uci target hl h
    rw [packLoop, packLoop]
    simp only
    by_cases ht : target = 0
    · simp only [ht, if_true]
      exact ⟨hl, h⟩
    · simp only [ht, if_false]
      by_cases hge : space ≥ target
      · simp only [hge, if_true]
        by_cases hu : uci > 0
        · simp only [hu, if_true]
          exact ih _ _ _ _ _ _ (by simp only [List.length_set, hl])
            (streamBit_or_agree dA dB cl ci space _ b hl h)
        · simp only [hu, if_false]
          exact ⟨by simp only [List.length_set, hl],
            streamBit_or_agree dA dB cl ci space _ b hl h⟩
      · simp only [hge, if_false]
        exact ih _ _ _ _ _ _ (by simp only [List.length_set, hl])
          (streamBit_or_agree dA dB cl ci space _ b hl h)

/-- The cursor the packing loop ends at depends neither on the buffer nor on the source
bytes. -/
theorem packLoop_cursor_indep (srcA srcB : List Nat) (clA clB : Bool) :
    ∀ (fuel : Nat) (dA dB : List Nat) (ci space uci target : Nat),
      (packLoop srcA clA fuel ⟨dA, ci, space, uci, target⟩).ci
        = (packLoop srcB clB fuel ⟨dB, ci, space, uci, target⟩).ci ∧
      (packLoop srcA clA fuel ⟨dA, ci, space, uci, target⟩).space
        = (packLoop srcB clB fuel ⟨dB, ci, space, uci, target⟩).space := by
  intro fuel
  induction fuel with
  | zero => intro dA dB ci space uci target; exact ⟨rfl, rfl⟩
  | succ fuel ih =>
    intro dA dB ci space uci target
    rw [packLoop, packLoop]
    simp only
    by_cases ht : target = 0
    · simp only [ht, if_true]
      exact ⟨trivial, trivial⟩
    · simp only [ht, if_false]
      by_cases hge : space ≥ target
      · simp only [hge, if_true]
        by_cases hu : uci > 0
        · simp only [hu, if_true]
          exact ih _ _ _ _ _ _
        · simp only [hu, if_false]
          exact ⟨trivial, trivial⟩
      · simp only [hge, if_false]
        exact ih _ _ _ _ _ _

/-- Frame of the packing loop of the bulk encoder, for any source bytes: started behind
`pos` stream bits with `8 * uci + target` bits to go, it moves the cursor behind them and
changes no stream bit before the byte of bit `pos` and none from `pos + 8 * uci + target`
on. -/
theorem packLoop_frame (src : List Nat) :
    ∀ (fuel : Nat) (s : PackState) (pos : Nat),
      CursorAt s.data.length pos s.ci s.space → s.data.length ≤ 4294967296 →
      s.target ≤ 8 → (s.target = 0 → s.uci = 0) →
      pos + (8 * s.uci + s.target) ≤ 8 * s.data.length →
      8 * s.uci + s.target < fuel →
      CursorAt s.data.length (pos + (8 * s.uci + s.target))
        (packLoop src false fuel s).ci (packLoop src false fuel s).space ∧
      (packLoop src false fuel s).data.length = s.data.length ∧
      ∀ b, b < 8 * s.data.length → (b < 8 * (pos / 8) ∨ pos + (8 * s.uci + s.target) ≤ b) →
        streamBit (packLoop src false fuel s).data b = streamBit s.data b := by
  intro fuel
  induction fuel with
  | zero => intro s pos _ _ _ _ _ hf; omega
  | succ fuel ih =>
    intro s pos hc hN ht8 ht0 hfit hfuel
    obtain ⟨data, ci, space, uci, target⟩ := s
    simp only at hc hN ht8 ht0 hfit hfuel ⊢
    rw [packLoop]
    simp only [Bool.false_eq_true, if_false]
    by_cases htz : target = 0
    · have hu := ht0 htz
      subst htz; subst hu
      simp only [if_true]
      exact ⟨by simpa using hc, trivial, fun _ _ _ => trivial⟩
    · rw [if_neg htz]
      have hsp : space = 8 - pos % 8 := hc.1
      have hci : ci = data.length - 1 - pos / 8 := hc.2 (by omega)
      by_cases hge : space ≥ target
      · rw [if_pos hge]
        have hw : ∀ b, b < 8 * data.length → (b < 8 * (pos / 8) ∨ pos + target ≤ b) →
            streamBit (data.set ci ((data.getD ci 0 ||| src.getD uci 0 <<< (space - target))
              % 256)) b = streamBit data b := by
          intro b hbl hb
          apply streamBit_or_frame
          intro hcb
          rw [Nat.testBit_shiftLeft]
          have : ¬ (7 - b % 8 ≥ space - target) := by omega
          rw [decide_eq_false this]
          rfl
        have hc2 := cursorAt_advance hN hc hge (by omega)
        by_cases hu : uci > 0
        · rw [if_pos hu]
          have := ih ⟨data.set ci ((data.getD ci 0 ||| src.getD uci 0 <<< (space - target)) % 256),
              (if space - target = 0 then decr32 ci else ci),
              (if space - target = 0 then 8 else space - target), uci - 1, 8⟩ (pos + target)
            (by simpa using hc2) (by simpa using hN) (by simp) (by simp)
            (by simp only [List.length_set]; omega) (by simp only; omega)
          simp only [List.length_set] at this
          have e : pos + target + (8 * (uci - 1) + 8) = pos + (8 * uci + target) := by omega
          rw [e] at this
          refine ⟨this.1, this.2.1, ?_⟩
          intro b hbl hb
          rw [this.2.2 b hbl (by omega), hw b hbl (by omega)]
        · rw [if_neg hu]
          have hu0 : uci = 0 := by omega
          subst hu0
          simp only [Nat.mul_zero, Nat.zero_add] at *
          exact ⟨by simpa using hc2, by simp, fun b hbl hb => hw b hbl hb⟩
      · rw [if_neg hge]
        have hw : ∀ b, b < 8 * data.length → (b < 8 * (pos / 8) ∨ pos + space ≤ b) →
            streamBit (data.set ci ((data.getD ci 0 ||| src.getD uci 0 >>> (target - space))
              % 256)) b = streamBit data b := by
          intro b hbl hb
          apply streamBit_or_frame
          intro hcb
          omega
        have hc2 := cursorAt_advance hN hc (Nat.le_refl space) (by omega)
        simp only [Nat.sub_self, if_true] at hc2
        have := ih ⟨data.set ci ((data.getD ci 0 ||| src.getD uci 0 >>> (target - space)) % 256),
            decr32 ci, 8, uci, target - space⟩ (pos + space)
          (by simpa using hc2) (by simpa using hN) (by simp only; omega)
          (by simp only; omega)
          (by simp only [List.length_set]; omega) (by simp only; omega)
        simp only [List.length_set] at this
        have e : pos + space + (8 * uci + (target - space)) = pos + (8 * uci + target) := by omega
        rw [e] at this
        refine ⟨this.1, this.2.1, ?_⟩
        intro b hbl hb
        rw [this.2.2 b hbl (by omega), hw b hbl (by omega)]

/-- Frame of one field of `nbits ≤ 24` bits, for any source bytes. -/
theorem packField_frame (src : List Nat) (nbits : Nat) (hb : nbits ≤ 24)
    (data : List Nat) (ci space pos : Nat)
    (hc : CursorAt data.length pos ci space) (hN : data.length ≤ 4294967296)
    (hfit : pos + nbits ≤ 8 * data.length) :
    CursorAt data.length (pos + nbits) (packField src false nbits data ci space).ci
      (packField src false nbits data ci space).space ∧
    (packField src false nbits data ci space).data.length = data.length ∧
    ∀ b, b < 8 * data.length → (b < 8 * (pos / 8) ∨ pos + nbits ≤ b) →
      streamBit (packField src false nbits data ci space).data b = streamBit data b := by
  obtain ⟨h1, h2, _, h4⟩ := fieldStart_sum nbits
  have h4 := h4 hb
  unfold packField packFuel
  generalize (fieldStart nbits).1 = uci at *
  generalize (fieldStart nbits).2 = target at *
  have := packLoop_frame src (8 * uci + target + 2) ⟨data, ci, space, uci, target⟩ pos hc hN
    h4 h2 (by simp only; omega) (by simp only; omega)
  simp only at this
  rw [show pos + (8 * uci + target) = pos + nbits by omega] at this
  exact this

/-- Frame of the body of the bulk encoder loop, for any value: it moves the cursor
behind the record and changes no stream bit before the byte of the sign bit and none
behind the record. -/
theorem packRecord_frame (M P : Nat) (hM : M ≤ 24) (hP : P ≤ 24) (neg : Bool)
    (value : floatSplitValue) (data : List Nat) (ci space pos : Nat)
    (hc : CursorAt data.length pos ci space) (hN : data.length ≤ 4294967296)
    (hfit : pos + (1 + M + P) ≤ 8 * data.length) :
    CursorAt data.length (pos + (1 + M + P)) (packRecord M P neg value data ci space).2.1
      (packRecord M P neg value data ci space).2.2 ∧
    (packRecord M P neg value data ci space).1.length = data.length ∧
    ∀ b, b < 8 * data.length → (b < 8 * (pos / 8) ∨ pos + (1 + M + P) ≤ b) →
      streamBit (packRecord M P neg value data ci space).1 b = streamBit data b := by
  unfold packRecord
  simp only
  have hsp : space = 8 - pos % 8 := hc.1
  have hci : ci = data.length - 1 - pos / 8 := hc.2 (by omega)
  have hf1 : ∀ b, b < 8 * data.length → (b < 8 * (pos / 8) ∨ pos + 1 ≤ b) →
      streamBit (if neg = true then
        data.set ci ((data.getD ci 0 ||| 1 <<< (space - 1)) % 256) else data) b
        = streamBit data b := by
    intro b hbl hb
    cases neg with
    | false => rfl
    | true =>
      simp only [if_true]
      apply streamBit_or_frame
      intro hcb
      rw [Nat.one_shiftLeft, Nat.testBit_two_pow]
      exact decide_eq_false (by omega)
  have hl1 : (if neg = true then
      data.set ci ((data.getD ci 0 ||| 1 <<< (space - 1)) % 256) else data).length
        = data.length := by
    split_ifs <;> simp
  have hc1 := cursorAt_advance hN hc (show 1 ≤ space by omega) (by omega)
  generalize (if neg = true then
      data.set ci ((data.getD ci 0 ||| 1 <<< (space - 1)) % 256) else data) = data1 at hf1 hl1 ⊢
  generalize (if space - 1 = 0 then decr32 ci else ci) = ci1 at hc1 ⊢
  generalize (if space - 1 = 0 then 8 else space - 1) = space1 at hc1 ⊢
  obtain ⟨hc2, hl2, hf2⟩ := packField_frame value.beforeDecimal M hM data1 ci1 space1 (pos + 1)
    (by rw [hl1]; exact hc1) (by omega) (by omega)
  generalize packField value.beforeDecimal false M data1 ci1 space1 = s2 at hc2 hl2 hf2 ⊢
  obtain ⟨hc3, hl3, hf3⟩ := packField_frame value.afterDecimal P hP s2.data s2.ci s2.space
    (pos + 1 + M) (by rw [hl2]; exact hc2) (by omega) (by omega)
  have e : pos + 1 + M + P = pos + (1 + M + P) := by omega
  rw [e] at hc3 hf3
  refine ⟨?_, by omega, ?_⟩
  · rw [hl2, hl1] at hc3
    exact hc3
  · intro b hbl hb
    rw [hf3 b (by omega) (by omega), hf2 b (by omega) (by omega), hf1 b hbl (by omega)]

/-- The cursor behind a record depends neither on the buffer nor on the value. -/
theorem packRecord_cursor_indep (M P : Nat) (negA negB : Bool) (valA valB : floatSplitValue)
    (dA dB : List Nat) (ci space : Nat) :
    (packRecord M P negA valA dA ci space).2 = (packRecord M P negB valB dB ci space).2 := by
  unfold packRecord packField
  simp only
  generalize (if space - 1 = 0 then decr32 ci else ci) = ci1
  generalize (if space - 1 = 0 then 8 else space - 1) = space1
  have h1 := packLoop_cursor_indep valA.beforeDecimal valB.beforeDecimal false false
    (packFuel (fieldStart M).1 (fieldStart M).2)
    (if negA = true then dA.set ci ((dA.getD ci 0 ||| 1 <<< (space - 1)) % 256) else dA)
    (if negB = true then dB.set ci ((dB.getD ci 0 ||| 1 <<< (space - 1)) % 256) else dB)
    ci1 space1 (fieldStart M).1 (fieldStart M).2
  rw [h1.1, h1.2]
  have h2 := packLoop_cursor_indep valA.afterDecimal valB.afterDecimal false false
    (packFuel (fieldStart P).1 (fieldStart P).2)
  rw [(h2 _ _ _ _ _ _).1, (h2 _ _ _ _ _ _).2]

/-- The body of the bulk encoder loop, run for the same value on two buffers that agree
at a stream bit, leaves them agreeing at it. -/
theorem packRecord_agree (M P : Nat) (neg : Bool) (value : floatSplitValue)
    (dA dB : List Nat) (ci space b : Nat)
    (hl : dA.length = dB.length) (h : streamBit dA b = streamBit dB b) :
    (packRecord M P neg value dA ci space).1.length
      = (packRecord M P neg value dB ci space).1.length ∧
    streamBit (packRecord M P neg value dA ci space).1 b
      = streamBit (packRecord M P neg value dB ci space).1 b := by
  unfold packRecord packField
  simp only
  have h1 : (if neg = true then dA.set ci ((dA.getD ci 0 ||| 1 <<< (space - 1)) % 256)
        else dA).length
      = (if neg = true then dB.set ci ((dB.getD ci 0 ||| 1 <<< (space - 1)) % 256)
        else dB).length ∧
      streamBit (if neg = true then dA.set ci ((dA.getD ci 0 ||| 1 <<< (space - 1)) % 256)
        else dA) b
      = streamBit (if neg = true then dB.set ci ((dB.getD ci 0 ||| 1 <<< (space - 1)) % 256)
        else dB) b := by
    cases neg with
    | false => exact ⟨hl, h⟩
    | true =>
      simp only [if_true, List.length_set]
      exact ⟨hl, streamBit_or_agree dA dB false ci space _ b hl h⟩
  generalize (if neg = true then dA.set ci ((dA.getD ci 0 ||| 1 <<< (space - 1)) % 256)
        else dA) = dA1 at h1 ⊢
  generalize (if neg = true then dB.set ci ((dB.getD ci 0 ||| 1 <<< (space - 1)) % 256)
        else dB) = dB1 at h1 ⊢
  generalize (if space - 1 = 0 then decr32 ci else ci) = ci1
  generalize (if space - 1 = 0 then 8 else space - 1) = space1
  have h2 := packLoop_agree value.beforeDecimal false b
    (packFuel (fieldStart M).1 (fieldStart M).2) dA1 dB1 ci1 space1 (fieldStart M).1
    (fieldStart M).2 h1.1 h1.2
  have hcur := packLoop_cursor_indep value.beforeDecimal value.beforeDecimal false false
    (packFuel (fieldStart M).1 (fieldStart M).2) dA1 dB1 ci1 space1 (fieldStart M).1
    (fieldStart M).2
  rw [hcur.1, hcur.2]
  exact packLoop_agree value.afterDecimal false b
    (packFuel (fieldStart P).1 (fieldStart P).2) _ _ _ _ _ _ h2.1 h2.2

/-- Two runs of the bulk encoder loop on arrays that differ at most in element `i`: the
buffers agree at every stream bit before the byte that holds the sign bit of record `i`
and at every stream bit behind record `i`. -/
theorem encodeLoop_local (M P mult : Nat) (hM : M ≤ 24) (hP : P ≤ 24) (i b : Nat)
    (hb : b < 8 * (i * (1 + M + P) / 8) ∨ (i + 1) * (1 + M + P) ≤ b) :
    ∀ (xs ys : List ℚ) (dA dB : List Nat) (ci space n0 : Nat),
      xs.length = ys.length → (∀ j, n0 + j ≠ i → xs.getD j 0 = ys.getD j 0) →
      CursorAt dA.length (n0 * (1 + M + P)) ci space → dA.length = dB.length →
      dA.length ≤ 4294967296 →
      n0 * (1 + M + P) + xs.length * (1 + M + P) ≤ 8 * dA.length →
      b < 8 * dA.length → streamBit dA b = streamBit dB b →
      streamBit (encodeLoop M P mult xs dA ci space).1 b
        = streamBit (encodeLoop M P mult ys dB ci space).1 b := by
  intro xs
  induction xs with
  | nil =>
    intro ys dA dB ci space n0 hlen _ _ _ _ _ _ h
    cases ys with
    | nil => simpa [encodeLoop] using h
    | cons y ys => simp at hlen
  | cons x xs ih =>
    intro ys dA dB ci space n0 hlen hsame hc hl hN hfit hbl h
    cases ys with
    | nil => simp at hlen
    | cons y ys =>
      simp only [List.length_cons, Nat.add_right_cancel_iff] at hlen
      simp only [List.length_cons] at hfit
      rw [Nat.add_mul, Nat.one_mul] at hfit
      rw [encodeLoop, encodeLoop]
      have hcur := packRecord_cursor_indep M P (decide (x < 0)) (decide (y < 0))
        (splitFloat x mult) (splitFloat y mult) dA dB ci space
      obtain ⟨hcA, hlA, hfA⟩ := packRecord_frame M P hM hP (decide (x < 0)) (splitFloat x mult)
        dA ci space (n0 * (1 + M + P)) hc hN (by omega)
      obtain ⟨_, hlB, hfB⟩ := packRecord_frame M P hM hP (decide (y < 0)) (splitFloat y mult)
        dB ci space (n0 * (1 + M + P)) (by rw [← hl]; exact hc) (by omega) (by omega)
      have hstep : streamBit (packRecord M P (decide (x < 0)) (splitFloat x mult) dA ci space).1 b
          = streamBit (packRecord M P (decide (y < 0)) (splitFloat y mult) dB ci space).1 b := by
        by_cases hn : n0 = i
        · subst hn
          have e : (n0 + 1) * (1 + M + P) = n0 * (1 + M + P) + (1 + M + P) := by
            rw [Nat.add_mul, Nat.one_mul]
          rw [e] at hb
          rw [hfA b hbl hb, hfB b (by omega) hb, h]
        · have hxy : x = y := by
            have := hsame 0 (by omega)
            simpa using this
          subst hxy
          exact (packRecord_agree M P (decide (x < 0)) (splitFloat x mult) dA dB ci space b
            hl h).2
      rw [← hcur]
      have e : (n0 + 1) * (1 + M + P) = n0 * (1 + M + P) + (1 + M + P) := by
        rw [Nat.add_mul, Nat.one_mul]
      refine ih ys _ _ _ _ (n0 + 1) hlen ?_ ?_ (by omega) (by omega) ?_ (by omega) hstep
      · intro j hj
        have := hsame (j + 1) (by omega)
        simpa using this
      · rw [hlA, e]
        exact hcA
      · rw [hlA, e]
        omega

/-- Bulk encode of two arrays that differ at most in element `i`: the buffers agree at
every stream bit before the byte that holds the sign bit of record `i` and at every
stream bit behind record `i`. No element has to be in range. -/
theorem encode_local (v v' : List ℚ) (M P i b : Nat) (hM : M ≤ 24) (hP : P ≤ 24)
    (hlen : v.length = v'.length) (hsame : ∀ j, j ≠ i → v.getD j 0 = v'.getD j 0)
    (hfit : v.length * (1 + M + P) ≤ 8 * newCount v.length M P)
    (hbl : b < 8 * newCount v.length M P)
    (hb : b < 8 * (i * (1 + M + P) / 8) ∨ (i + 1) * (1 + M + P) ≤ b) :
    streamBit (getVariableBitCompressedData v M P) b
      = streamBit (getVariableBitCompressedData v' M P) b := by
  unfold getVariableBitCompressedData
  rw [← hlen]
  have hN := newCount_le v.length M P
  generalize newCount v.length M P = N at hfit hbl hN ⊢
  apply encodeLoop_local M P (variableMultiplier P) hM hP i b hb v v' _ _ _ _ 0 hlen
  · intro j hj
    exact hsame j (by omega)
  · rw [Nat.zero_mul]
    refine ⟨rfl, fun h => ?_⟩
    rw [List.length_replicate] at h ⊢
    rw [decr32_pos (by omega) hN]
    rfl
  · rfl
  · rw [List.length_replicate]; exact hN
  · rw [List.length_replicate, Nat.zero_mul]; omega
  · rw [List.length_replicate]; exact hbl
  · rfl

/-- The value `0` is in range for every `M`, `P`. -/
theorem zero_in_range (M P : Nat) :
    splitBefore 0 < 2 ^ M ∧ splitAfter 0 (variableMultiplier P) < 2 ^ P := by
  have h1 : splitBefore 0 = 0 := by simp [splitBefore]
  have h2 : splitAfter 0 (variableMultiplier P) = 0 := by
    unfold splitAfter
    have : ⌊(|(0 : ℚ)| - ((⌊|(0 : ℚ)|⌋₊ : Nat) : ℚ)) * ((variableMultiplier P : Nat) : ℚ)
        + 1 / 2⌋₊ = 0 := by
      rw [Nat.floor_eq_zero]
      norm_num
    rw [this]
  rw [h1, h2]
  exact ⟨Nat.pos_pow_of_pos _ (by decide), Nat.pos_pow_of_pos _ (by decide)⟩

/-- C17, amended: when every element other than `x_i` is in range, every record `j` that
lies behind record `i`, or that ends at or before the start of the byte holding the sign
bit of record `i`, holds exactly the bits of its own record word (sign, `m_j`, `f_j`),
whatever `x_i` is. -/
theorem out_of_range_value_is_local (v : List ℚ) (M P i : Nat) (hM : M ≤ 24) (hP : P ≤ 24)
    (hi : i < v.length)
    (hothers : ∀ j, j < v.length → j ≠ i →
      splitBefore (v.getD j 0) < 2 ^ M ∧ splitAfter (v.getD j 0) (variableMultiplier P) < 2 ^ P)
    (hfit : v.length * (1 + M + P) ≤ 8 * newCount v.length M P)
    (j : Nat) (hj : j < v.length)
    (hji : i < j ∨ (j + 1) * (1 + M + P) ≤ 8 * (i * (1 + M + P) / 8))
    (r : Nat) (hr : r < 1 + M + P) :
    streamBit (getVariableBitCompressedData v M P) (j * (1 + M + P) + r)
      = (recordWord M P (v.getD j 0)).testBit (M + P - r) := by
  have hjk : (j + 1) * (1 + M + P) = j * (1 + M + P) + (1 + M + P) := by
    rw [Nat.add_mul, Nat.one_mul]
  have hjn : (j + 1) * (1 + M + P) ≤ v.length * (1 + M + P) :=
    Nat.mul_le_mul_right _ (by omega)
  have hne : j ≠ i := by
    rcases hji with h | h
    · omega
    · intro hje
      subst hje
      omega
  have hl' : (v.set i 0).length = v.length := List.length_set _ _ _
  have hget : ∀ n, n ≠ i → (v.set i 0).getD n 0 = v.getD n 0 := by
    intro n hn
    rw [List.getD_eq_getElem?_getD, List.getD_eq_getElem?_getD,
      List.getElem?_set_ne (fun h => hn h.symm)]
  have hrange : ∀ x ∈ v.set i 0,
      splitBefore x < 2 ^ M ∧ splitAfter x (variableMultiplier P) < 2 ^ P := by
    intro x hx
    obtain ⟨n, hn, rfl⟩ := List.mem_iff_getElem.1 hx
    rw [hl'] at hn
    by_cases hni : n = i
    · subst hni
      rw [List.getElem_set_self]
      exact zero_in_range M P
    · have := hothers n hn hni
      rw [← hget n hni, List.getD_eq_getElem?_getD, List.getElem?_eq_getElem (by omega)] at this
      exact this
  have hb : j * (1 + M + P) + r < 8 * (i * (1 + M + P) / 8)
      ∨ (i + 1) * (1 + M + P) ≤ j * (1 + M + P) + r := by
    rcases hji with h | h
    · right
      have := Nat.mul_le_mul_right (1 + M + P) (show i + 1 ≤ j by omega)
      omega
    · left
      omega
  rw [encode_local v (v.set i 0) M P i _ hM hP hl'.symm (fun n hn => (hget n hn).symm) hfit
    (by omega) hb]
  have hpk := (encode_packed (v.set i 0) M P hM hP hrange (by rw [hl']; exact hfit)).1.2
    (j * (1 + M + P) + r) (by
      rw [encode_length, hl']
      omega)
  rw [hpk, hl']
  have e1 : (j * (1 + M + P) + r) / (1 + M + P) = j := by
    rw [Nat.add_comm, Nat.add_mul_div_right _ _ (by omega), Nat.div_eq_of_lt hr, Nat.zero_add]
  have e2 : (j * (1 + M + P) + r) % (1 + M + P) = r := by
    rw [Nat.add_comm, Nat.add_mul_mod_self_right, Nat.mod_eq_of_lt hr]
  simp only [e1, e2, show j * (1 + M + P) + r < v.length * (1 + M + P) by omega,
    decide_True, Bool.true_and, hget j hne]

/-- The locality theorem at `[0, 16, 5]`, `M = 3`, `P = 1`, where `16` is out of range:
the last bit of record `2`. -/
theorem out_of_range_value_is_local_witness :
    (2 ^ 3 ≤ splitBefore 16 ∧ (1 : Nat) < ([0, 16, 5] : List ℚ).length ∧
      (∀ j, j < ([0, 16, 5] : List ℚ).length → j ≠ 1 →
        splitBefore (([0, 16, 5] : List ℚ).getD j 0) < 2 ^ 3 ∧
        splitAfter (([0, 16, 5] : List ℚ).getD j 0) (variableMultiplier 1) < 2 ^ 1) ∧
      ([0, 16, 5] : List ℚ).length * (1 + 3 + 1)
        ≤ 8 * newCount ([0, 16, 5] : List ℚ).length 3 1) ∧
    streamBit (getVariableBitCompressedData [0, 16, 5] 3 1) (2 * (1 + 3 + 1) + 4)
      = (recordWord 3 1 (([0, 16, 5] : List ℚ).getD 2 0)).testBit (3 + 1 - 4) :=
  ⟨by decide!, out_of_range_value_is_local [0, 16, 5] 3 1 1 (by decide) (by decide) (by decide)
    (by decide!) (by decide!) 2 (by decide) (Or.inl (by decide)) 4 (by decide)⟩

/-- C17, counterexample: in `[0, 16]` with `M = 3`, `P = 1` only the magnitude of `16` is
out of range (`16 ≥ 2^3`); the encoder returns the bytes `[0, 8]`, where the array
`[0, 0]` gives `[0, 0]`: stream bit `4`, the precision bit of record `0`, is set, and
record `0` decodes to `0.01`. -/
theorem out_of_range_value_corrupts_previous_record :
    2 ^ 3 ≤ splitBefore 16 ∧ splitAfter 16 (variableMultiplier 1) < 2 ^ 1 ∧
    splitBefore 0 < 2 ^ 3 ∧ splitAfter 0 (variableMultiplier 1) < 2 ^ 1 ∧
    getVariableBitCompressedData [0, 16] 3 1 = [0, 8] ∧
    getVariableBitCompressedData [0, 0] 3 1 = [0, 0] ∧
    streamBit (getVariableBitCompressedData [0, 16] 3 1) 4 = true ∧
    streamBit (getVariableBitCompressedData [0, 0] 3 1) 4 = false ∧
    (recordWord 3 1 0).testBit (3 + 1 - 4) = false ∧
    (getVariableBitDecompressedData (getVariableBitCompressedData [0, 16] 3 1) 2 3 1)[0]?
      = some (1 / 100) := by
  decide!

/-! ## The claims on `M = 7`, `P = 16` and on rejected input -/

/-- C13: for `M = 7`, `P = 16`, in-range `a, b, c, d` and in-range `z`, the single
overwrite of index `2` in the 12-byte buffer encoded from `[a, b, c, d]` leaves the
buffer equal to the one encoded from `[a, b, z, d]`, and bulk decode of it returns the
quantized forms of `a, b, z, d`. -/
theorem insert_equals_reencode_aligned (a b c d z : ℚ)
    (hrange : ∀ x ∈ [a, b, c, d, z],
      |x| < 128 ∧ splitAfter x (variableMultiplier 16) < 65536) :
    insertSingleVariableBitValue (getVariableBitCompressedData [a, b, c, d] 7 16) 12 2 z 7 16
      = getVariableBitCompressedData [a, b, z, d] 7 16 ∧
    getVariableBitDecompressedData
      (insertSingleVariableBitValue (getVariableBitCompressedData [a, b, c, d] 7 16) 12 2 z 7 16)
      12 7 16 = [quantize 16 a, quantize 16 b, quantize 16 z, quantize 16 d] := by
  have h1 : insertSingleVariableBitValue (getVariableBitCompressedData [a, b, c, d] 7 16)
      12 2 z 7 16 = getVariableBitCompressedData [a, b, z, d] 7 16 := by
    rw [encode4_aligned a b c d, encode4_aligned a b z d]
    exact insert_slot2_aligned _ _ _ _ _ _ _ _ _ _ _ _ z
  refine ⟨h1, ?_⟩
  rw [h1]
  have h := bulk_round_trip_aligned [a, b, z, d]
    (show [a, b, z, d].length * 24 ≤ 16777216 by simp) (fun x hx => hrange x (by
    simp only [List.mem_cons, List.mem_singleton, List.not_mem_nil, or_false] at hx ⊢
    tauto))
  have hl := h.1
  have h2 := h.2.1
  rw [hl] at h2
  exact h2

/-- The overwrite theorem at `[1.5, -2.25, 127.65535, -0.00001]` and `z = -100.5`. -/
theorem insert_equals_reencode_aligned_witness :
    (∀ x ∈ [(3 / 2 : ℚ), -9 / 4, 127 + 65535 / 100000, -1 / 100000, -201 / 2],
      |x| < 128 ∧ splitAfter x (variableMultiplier 16) < 65536) ∧
    insertSingleVariableBitValue
      (getVariableBitCompressedData [3 / 2, -9 / 4, 127 + 65535 / 100000, -1 / 100000] 7 16)
      12 2 (-201 / 2) 7 16
      = getVariableBitCompressedData [3 / 2, -9 / 4, -201 / 2, -1 / 100000] 7 16 ∧
    getVariableBitDecompressedData
      (insertSingleVariableBitValue
        (getVariableBitCompressedData [3 / 2, -9 / 4, 127 + 65535 / 100000, -1 / 100000] 7 16)
        12 2 (-201 / 2) 7 16)
      12 7 16 = [quantize 16 (3 / 2), quantize 16 (-9 / 4), quantize 16 (-201 / 2),
        quantize 16 (-1 / 100000)] :=
  ⟨by decide!, insert_equals_reencode_aligned (3 / 2) (-9 / 4) (127 + 65535 / 100000)
    (-1 / 100000) (-201 / 2) (by decide!)⟩

/-- C14, at the failing input: for an array of `11184811` values (all `0.0`, in range)
with `M = 7`, `P = 16` the records take `268435464` bits, which the conversion to `float`
of line 546 rounds to `2^28`; the buffer has `33554432` bytes, one fewer than three per
element, and the records do not fit it. -/
theorem bulk_encode_aligned_short_at_11184811 :
    (getVariableBitCompressedData (List.replicate 11184811 0) 7 16).length = 33554432 ∧
    3 * (List.replicate 11184811 (0 : ℚ)).length = 33554433 ∧
    ¬ (List.replicate 11184811 (0 : ℚ)).length * (1 + 7 + 16)
      ≤ 8 * (getVariableBitCompressedData (List.replicate 11184811 0) 7 16).length := by
  rw [encode_length, List.length_replicate]
  decide

/-- The claim's two witnesses of C14 hold: `[0.0]` encodes to three zero bytes and decodes
to `[0.0]`; `[-1.5]` encodes to `0x81, 0xC3, 0x50` (byte 2 down to byte 0) and decodes to
`-1.5`. -/
theorem bulk_round_trip_aligned_examples :
    getVariableBitCompressedData [0] 7 16 = [0, 0, 0] ∧
    getVariableBitDecompressedData [0, 0, 0] 3 7 16 = [0] ∧
    getVariableBitCompressedData [-3 / 2] 7 16 = [0x50, 0xC3, 0x81] ∧
    getVariableBitDecompressedData [0x50, 0xC3, 0x81] 3 7 16 = [-3 / 2] := by
  decide!

/-- The packing loop stores only values below `256`. -/
theorem packLoop_lt (src : List Nat) (cl : Bool) :
    ∀ (fuel : Nat) (s : PackState), (∀ c, s.data.getD c 0 < 256) →
      ∀ c, (packLoop src cl fuel s).data.getD c 0 < 256 := by
  have hset : ∀ (l : List Nat) (i v : Nat), (∀ c, l.getD c 0 < 256) →
      ∀ c, (l.set i (v % 256)).getD c 0 < 256 := by
    intro l i v h c
    rw [getD_set]
    split_ifs
    · exact Nat.mod_lt _ (by decide)
    · exact h c
  intro fuel
  induction fuel with
  | zero => intro s h; exact h
  | succ fuel ih =>
    intro s h
    rw [packLoop]
    simp only
    by_cases ht : s.target = 0
    · rw [if_pos ht]
      exact h
    · rw [if_neg ht]
      by_cases hge : s.space ≥ s.target
      · rw [if_pos hge]
        by_cases hu : s.uci > 0
        · rw [if_pos hu]
          exact ih _ (hset _ _ _ h)
        · rw [if_neg hu]
          exact hset _ _ _ h
      · rw [if_neg hge]
        exact ih _ (hset _ _ _ h)

/-- The body of the bulk encoder loop stores only values below `256`. -/
theorem packRecord_lt (M P : Nat) (neg : Bool) (value : floatSplitValue) (data : List Nat)
    (ci space : Nat) (h : ∀ c, data.getD c 0 < 256) :
    ∀ c, (packRecord M P neg value data ci space).1.getD c 0 < 256 := by
  unfold packRecord packField
  simp only
  apply packLoop_lt
  apply packLoop_lt
  intro c
  simp only
  cases neg with
  | false => exact h c
  | true =>
    simp only [if_true]
    rw [getD_set]
    split_ifs
    · exact Nat.mod_lt _ (by decide)
    · exact h c

/-- The bulk encoder loop stores only values below `256`. -/
theorem encodeLoop_lt (M P mult : Nat) :
    ∀ (xs : List ℚ) (data : List Nat) (ci space : Nat), (∀ c, data.getD c 0 < 256) →
      ∀ c, (encodeLoop M P mult xs data ci space).1.getD c 0 < 256 := by
  intro xs
  induction xs with
  | nil => intro data ci space h; exact h
  | cons x xs ih =>
    intro data ci space h
    rw [encodeLoop]
    exact ih _ _ _ (packRecord_lt M P _ _ data ci space h)

/-- C16, amended: the bulk encoder makes no range check and has no failure result. For
every `M`, `P` and every array whose records fit the returned buffer (so that every access
of the loop is inside it), whatever the scaled fractions are, it returns a buffer of
`newCount` bytes, each below `256`. -/
theorem encode_never_rejects (v : List ℚ) (M P : Nat)
    (_hfit : v.length * (1 + M + P) ≤ 8 * newCount v.length M P) :
    (getVariableBitCompressedData v M P).length = newCount v.length M P ∧
    ∀ c, (getVariableBitCompressedData v M P).getD c 0 < 256 := by
  refine ⟨encode_length v M P, ?_⟩
  unfold getVariableBitCompressedData
  apply encodeLoop_lt
  intro c
  rw [List.getD_eq_getElem?_getD]
  by_cases h : c < (List.replicate (newCount v.length M P) 0).length
  · rw [List.getElem?_eq_getElem h, List.getElem_replicate]
    exact Nat.zero_lt_succ _
  · rw [List.getElem?_eq_none (by omega)]
    exact Nat.zero_lt_succ _

/-- The no-rejection theorem at `[3.25, 3.25, 3.25]`, `M = 3`, `P = 4`: the
scaled fraction `25` is not below `2^4`, the three records fit the three bytes, and the
encoder returns `[57, 57, 57]`. -/
theorem encode_never_rejects_witness :
    (2 ^ 4 ≤ splitAfter (13 / 4) (variableMultiplier 4) ∧
      ([13 / 4, 13 / 4, 13 / 4] : List ℚ).length * (1 + 3 + 4)
        ≤ 8 * newCount ([13 / 4, 13 / 4, 13 / 4] : List ℚ).length 3 4) ∧
    ((getVariableBitCompressedData [13 / 4, 13 / 4, 13 / 4] 3 4).length
        = newCount ([13 / 4, 13 / 4, 13 / 4] : List ℚ).length 3 4 ∧
      ∀ c, (getVariableBitCompressedData [13 / 4, 13 / 4, 13 / 4] 3 4).getD c 0 < 256) ∧
    getVariableBitCompressedData [13 / 4, 13 / 4, 13 / 4] 3 4 = [57, 57, 57] :=
  ⟨by decide!, encode_never_rejects [13 / 4, 13 / 4, 13 / 4] 3 4 (by decide!), by decide!⟩

/-! ## Scale factors and decimal digits -/

/-- For `k ≤ 24` the value of `numberOfDigits` lies between the right powers of ten. -/
theorem numberOfDigits_bounds :
    ∀ k < 25, 1 ≤ numberOfDigits k ∧ 10 ^ (numberOfDigits k - 1) ≤ 2 ^ k ∧
      2 ^ k < 10 ^ numberOfDigits k := by
  decide

/-- C22: for every `k` in `0..24`, `numberOfDigits k` is `floor(log10(2^k)) + 1`, which is
the number of decimal digits of `2^k`; `numberOfDigits 0 = 1`, `numberOfDigits 7 = 3`,
`numberOfDigits 16 = 5`. -/
theorem numberOfDigits_eq_log (k : Nat) (hk : k ≤ 24) :
    numberOfDigits k = Nat.log 10 (2 ^ k) + 1 ∧
    numberOfDigits k = (Nat.digits 10 (2 ^ k)).length ∧
    numberOfDigits 0 = 1 ∧ numberOfDigits 7 = 3 ∧ numberOfDigits 16 = 5 := by
  obtain ⟨h1, h2, h3⟩ := numberOfDigits_bounds k (by omega)
  have hlog : Nat.log 10 (2 ^ k) = numberOfDigits k - 1 :=
    Nat.log_eq_of_pow_le_of_lt_pow h2 (by rw [Nat.sub_add_cancel h1]; exact h3)
  refine ⟨by omega, ?_, by decide, by decide, by decide⟩
  rw [Nat.digits_len 10 (2 ^ k) (by decide) (by positivity)]
  omega

/-- The digits theorem at `k = 10`: `2^10 = 1024` has four decimal digits. -/
theorem numberOfDigits_eq_log_witness :
    (10 : Nat) ≤ 24 ∧
    (numberOfDigits 10 = Nat.log 10 (2 ^ 10) + 1 ∧
    numberOfDigits 10 = (Nat.digits 10 (2 ^ 10)).length ∧
    numberOfDigits 0 = 1 ∧ numberOfDigits 7 = 3 ∧ numberOfDigits 16 = 5) ∧
    numberOfDigits 10 = 4 :=
  ⟨by decide, numberOfDigits_eq_log 10 (by decide), by decide⟩

/-- For `P ≤ 24` the multiplier of the variable-bit encoders is `10^numberOfDigits(P)`,
exceeds `2^P`, and scales the fraction `1023/1024` (a `float`) to at least `2^P`. -/
theorem variable_fraction_overflow :
    ∀ P < 25, 2 ^ P ≤ splitAfter (1023 / 1024) (variableMultiplier P) ∧
      2 ^ P < variableMultiplier P ∧ variableMultiplier P = 10 ^ numberOfDigits P := by
  decide!

/-- C28: for every `P` in `0..24` the multiplier of the variable-bit encoders is
`10^numberOfDigits(P)` and exceeds `2^P`; hence for every `M` there is a value `x` with
`|x| < 2^M` and fractional part in `[0, 1)` (namely `x = 1023/1024`) whose scaled fraction
is at least `2^P` and does not fit the `P` precision bits. -/
theorem variable_multiplier_exceeds_field (M P : Nat) (hP : P ≤ 24) :
    variableMultiplier P = 10 ^ numberOfDigits P ∧ 2 ^ P < variableMultiplier P ∧
    ∃ x : ℚ, |x| < 2 ^ M ∧ 0 ≤ |x| - (⌊|x|⌋₊ : ℚ) ∧ |x| - (⌊|x|⌋₊ : ℚ) < 1 ∧
      2 ^ P ≤ splitAfter x (variableMultiplier P) := by
  obtain ⟨h2, h3, h4⟩ := variable_fraction_overflow P (by omega)
  refine ⟨h4, h3, 1023 / 1024, ?_, ?_, ?_, h2⟩
  · have h1 : (1 : ℚ) ≤ 2 ^ M := one_le_pow₀ (by norm_num)
    have h0 : |(1023 / 1024 : ℚ)| < 1 := by
      rw [abs_of_nonneg (by norm_num)]
      norm_num
    linarith
  · have := Nat.floor_le (abs_nonneg (1023 / 1024 : ℚ))
    linarith
  · have := Nat.lt_floor_add_one (|(1023 / 1024 : ℚ)|)
    linarith

/-- The multiplier theorem at `M = 16`, `P = 7`: the multiplier is `1000 > 128`, and `0.5`
scales to `500`. -/
theorem variable_multiplier_exceeds_field_witness :
    (7 : Nat) ≤ 24 ∧
    (variableMultiplier 7 = 10 ^ numberOfDigits 7 ∧ 2 ^ 7 < variableMultiplier 7 ∧
    ∃ x : ℚ, |x| < 2 ^ 16 ∧ 0 ≤ |x| - (⌊|x|⌋₊ : ℚ) ∧ |x| - (⌊|x|⌋₊ : ℚ) < 1 ∧
      2 ^ 7 ≤ splitAfter x (variableMultiplier 7)) ∧
    variableMultiplier 7 = 1000 ∧ splitAfter (1 / 2) (variableMultiplier 7) = 500 :=
  ⟨by decide, variable_multiplier_exceeds_field 16 7 (by decide), by decide, by decide!⟩

/-- The scaled fraction never exceeds the multiplier. -/
theorem splitAfter_le (x : ℚ) (multiplier : Nat) : splitAfter x multiplier ≤ multiplier := by
  unfold splitAfter
  apply Nat.le_trans (Nat.mod_le _ _)
  have ha : (0 : ℚ) ≤ |x| := abs_nonneg x
  have h1 := Nat.floor_le ha
  have h2 := Nat.lt_floor_add_one (|x|)
  have hm : (0 : ℚ) ≤ (multiplier : ℚ) := Nat.cast_nonneg _
  have h3 : (|x| - (⌊|x|⌋₊ : ℚ)) * (multiplier : ℚ) ≤ 1 * (multiplier : ℚ) :=
    mul_le_mul_of_nonneg_right (by linarith) hm
  have h4 : (|x| - (⌊|x|⌋₊ : ℚ)) * (multiplier : ℚ) + 1 / 2 < ((multiplier + 1 : Nat) : ℚ) := by
    push_cast
    linarith
  have h5 : (0 : ℚ) ≤ (|x| - (⌊|x|⌋₊ : ℚ)) * (multiplier : ℚ) + 1 / 2 := by
    have : (0 : ℚ) ≤ (|x| - (⌊|x|⌋₊ : ℚ)) * (multiplier : ℚ) := mul_nonneg (by linarith) hm
    linarith
  have := (Nat.floor_lt h5).2 h4
  omega

/-- For `4 ≤ P ≤ 23` the multiplier of the 24-bit encoders is `10^(numberOfDigits(P)-1)`
and lies below `2^P`. -/
theorem multiplier24_lt :
    ∀ P < 24, 4 ≤ P → multiplier24 P = 10 ^ (numberOfDigits P - 1) ∧ multiplier24 P < 2 ^ P := by
  decide

/-- C29: for every `P` with `4 ≤ P ≤ 23` the multiplier of `get24BitCompressedData` and
`insertSingle24BitValue` is `10^(numberOfDigits(P) - 1) < 2^P`, and for every value the
scaled fraction is at most the multiplier, hence at most `2^P - 1`: it fits the `P`
precision bits. -/
theorem fixed24_fraction_fits (P : Nat) (h4 : 4 ≤ P) (h23 : P ≤ 23) (x : ℚ) :
    multiplier24 P = 10 ^ (numberOfDigits P - 1) ∧ multiplier24 P < 2 ^ P ∧
    splitAfter x (multiplier24 P) ≤ multiplier24 P ∧
    splitAfter x (multiplier24 P) ≤ 2 ^ P - 1 := by
  obtain ⟨h1, h2⟩ := multiplier24_lt P (by omega) h4
  have h3 := splitAfter_le x (multiplier24 P)
  exact ⟨h1, h2, h3, by omega⟩

/-- The fraction theorem at `P = 7`, `x = 0.999`: the multiplier is `100` and the scaled
fraction is `100 ≤ 127`. -/
theorem fixed24_fraction_fits_witness :
    ((4 : Nat) ≤ 7 ∧ (7 : Nat) ≤ 23) ∧
    (multiplier24 7 = 10 ^ (numberOfDigits 7 - 1) ∧ multiplier24 7 < 2 ^ 7 ∧
    splitAfter (999 / 1000) (multiplier24 7) ≤ multiplier24 7 ∧
    splitAfter (999 / 1000) (multiplier24 7) ≤ 2 ^ 7 - 1) ∧
    multiplier24 7 = 100 ∧ splitAfter (999 / 1000) (multiplier24 7) = 100 :=
  ⟨by decide, fixed24_fraction_fits 7 (by decide) (by decide) (999 / 1000), by decide,
    by decide!⟩

/-! ## The fixed 24-bit variant: single overwrite and bulk encode -/

/-- On the last source byte (`uci = 0`) the magnitude loop of `insertSingle24BitValue`
stores what the loop of the bulk encoder stores. -/
theorem insert24Loop_eq_last (src : List Nat) :
    ∀ (fuel : Nat) (d : List Nat) (ci space t : Nat),
      (insert24Loop src fuel ⟨d, ci, space, 0, t⟩).data
        = (packLoop src false fuel ⟨d, ci, space, 0, t⟩).data := by
  intro fuel
  induction fuel with
  | zero => intro d ci space t; rfl
  | succ fuel ih =>
    intro d ci space t
    rw [insert24Loop, packLoop]
    simp only [Bool.false_eq_true, if_false]
    by_cases ht : t = 0
    · rw [if_pos ht, if_pos ht]
    · rw [if_neg ht, if_neg ht]
      by_cases hge : space ≥ t
      · rw [if_pos hge, if_pos hge, if_neg (show ¬ decr32 0 = 0 by decide),
          if_neg (show ¬ (0 : Nat) > 0 by decide)]
      · rw [if_neg hge, if_neg hge]
        exact ih _ _ _ _

/-- With one more source byte to go (`uci = 1`) the two loops store the same as well. -/
theorem insert24Loop_eq_second (src : List Nat) :
    ∀ (fuel : Nat) (d : List Nat) (ci space t : Nat),
      (insert24Loop src fuel ⟨d, ci, space, 1, t⟩).data
        = (packLoop src false fuel ⟨d, ci, space, 1, t⟩).data := by
  intro fuel
  induction fuel with
  | zero => intro d ci space t; rfl
  | succ fuel ih =>
    intro d ci space t
    rw [insert24Loop, packLoop]
    simp only [Bool.false_eq_true, if_false]
    by_cases ht : t = 0
    · rw [if_pos ht, if_pos ht]
    · rw [if_neg ht, if_neg ht]
      by_cases hge : space ≥ t
      · rw [if_pos hge, if_pos hge, if_pos (show decr32 1 = 0 by decide),
          if_pos (show (1 : Nat) > 0 by decide)]
        exact insert24Loop_eq_last src fuel _ _ _ _
      · rw [if_neg hge, if_neg hge]
        exact ih _ _ _ _

/-- For `M ≤ 16` the element `insertSingle24BitValue` leaves is the element the bulk
encoder makes of the same value. -/
theorem inserted24_eq_compress24 (x : ℚ) (M P : Nat) (hM : M ≤ 16) :
    inserted24 x M P = compress24 M P (decide (x < 0)) (splitFloat x (multiplier24 P)) := by
  unfold inserted24 compress24
  simp only [decide_eq_true_eq]
  have hloop : ∀ d : List Nat,
      (insert24Loop (splitFloat x (multiplier24 P)).beforeDecimal
        (packFuel (fieldStart M).1 (fieldStart M).2)
        ⟨d, 2, 7, (fieldStart M).1, (fieldStart M).2⟩).data
      = (packLoop (splitFloat x (multiplier24 P)).beforeDecimal false
        (packFuel (fieldStart M).1 (fieldStart M).2)
        ⟨d, 2, 7, (fieldStart M).1, (fieldStart M).2⟩).data := by
    intro d
    unfold fieldStart
    by_cases h9 : M ≥ 9
    · simp only [show ¬ M ≥ 17 by omega, h9, if_true, if_false]
      exact insert24Loop_eq_second _ _ _ _ _ _
    · simp only [show ¬ M ≥ 17 by omega, h9, if_false]
      exact insert24Loop_eq_last _ _ _ _ _ _
  rw [hloop]

/-! ## Run-length decoder: the entries after the call -/

/-- The decoder loop leaves every entry it visits with its value and the count zero. -/
theorem rleDecodeLoop_snd (es : List runlengthEntry) (out : List ℚ) :
    (rleDecodeLoop es out).2 = es.map (fun e => ⟨e.value, 0⟩) := by
  induction es generalizing out with
  | nil => rfl
  | cons e rest ih => simp only [rleDecodeLoop, List.map_cons, ih]

/-- Entries whose counts are zero expand to the empty array. -/
theorem expandRuns_zero (es : List runlengthEntry) :
    expandRuns (es.map (fun e => (⟨e.value, 0⟩ : runlengthEntry))) = [] := by
  induction es with
  | nil => rfl
  | cons e rest ih => simp only [List.map_cons, expandRuns, List.replicate_zero, List.nil_append, ih]

/-- C27: a call of `getRunlengthDecompressedData` on `count` entries (inside the array,
their counts adding up to an `unsigned int`) returns the expansion and leaves each of
the `count` entries with its value and `valueCount = 0`, the entries behind them as they
were; a second call on the entries so left returns the empty array (`*newCount = 0`) and
leaves them the same. -/
theorem runlength_decode_consumes_input (cv : List runlengthEntry) (count : Nat)
    (hc : count ≤ cv.length)
    (_hsum : ((cv.take count).map runlengthEntry.valueCount).sum < 4294967296) :
    getRunlengthDecompressedData cv count
      = some (expandRuns (cv.take count),
          (cv.take count).map (fun e => ⟨e.value, 0⟩) ++ cv.drop count) ∧
    getRunlengthDecompressedData
        ((cv.take count).map (fun e => ⟨e.value, 0⟩) ++ cv.drop count) count
      = some ([], (cv.take count).map (fun e => ⟨e.value, 0⟩) ++ cv.drop count) := by
  have hl : ((cv.take count).map (fun e => (⟨e.value, 0⟩ : runlengthEntry))).length = count := by
    rw [List.length_map, List.length_take]
    omega
  constructor
  · unfold getRunlengthDecompressedData
    rw [if_pos hc]
    simp only [rleDecodeLoop_fst, rleDecodeLoop_snd, List.nil_append]
  · unfold getRunlengthDecompressedData
    rw [if_pos (by rw [List.length_append, hl]; omega)]
    rw [List.take_left' hl, List.drop_left' hl]
    simp only [rleDecodeLoop_fst, rleDecodeLoop_snd, List.nil_append, expandRuns_zero,
      List.map_map]
    rfl

/-- The consumption theorem at the entries `(1,2), (2,3), (1,1)`. -/
theorem runlength_decode_consumes_input_witness :
    ((3 : Nat) ≤ ([⟨1, 2⟩, ⟨2, 3⟩, ⟨1, 1⟩] : List runlengthEntry).length ∧
      ((([⟨1, 2⟩, ⟨2, 3⟩, ⟨1, 1⟩] : List runlengthEntry).take 3).map
        runlengthEntry.valueCount).sum < 4294967296) ∧
    (getRunlengthDecompressedData [⟨1, 2⟩, ⟨2, 3⟩, ⟨1, 1⟩] 3
      = some (expandRuns (([⟨1, 2⟩, ⟨2, 3⟩, ⟨1, 1⟩] : List runlengthEntry).take 3),
          (([⟨1, 2⟩, ⟨2, 3⟩, ⟨1, 1⟩] : List runlengthEntry).take 3).map
            (fun e => ⟨e.value, 0⟩) ++ ([⟨1, 2⟩, ⟨2, 3⟩, ⟨1, 1⟩] : List runlengthEntry).drop 3) ∧
    getRunlengthDecompressedData
        ((([⟨1, 2⟩, ⟨2, 3⟩, ⟨1, 1⟩] : List runlengthEntry).take 3).map
            (fun e => ⟨e.value, 0⟩) ++ ([⟨1, 2⟩, ⟨2, 3⟩, ⟨1, 1⟩] : List runlengthEntry).drop 3) 3
      = some ([], (([⟨1, 2⟩, ⟨2, 3⟩, ⟨1, 1⟩] : List runlengthEntry).take 3).map
            (fun e => ⟨e.value, 0⟩) ++ ([⟨1, 2⟩, ⟨2, 3⟩, ⟨1, 1⟩] : List runlengthEntry).drop 3)) ∧
    getRunlengthDecompressedData [⟨1, 2⟩, ⟨2, 3⟩, ⟨1, 1⟩] 3
      = some ([1, 1, 2, 2, 2, 1], [⟨1, 0⟩, ⟨2, 0⟩, ⟨1, 0⟩]) ∧
    getRunlengthDecompressedData [⟨1, 0⟩, ⟨2, 0⟩, ⟨1, 0⟩] 3
      = some ([], [⟨1, 0⟩, ⟨2, 0⟩, ⟨1, 0⟩]) :=
  ⟨⟨by decide, by decide⟩,
    runlength_decode_consumes_input [⟨1, 2⟩, ⟨2, 3⟩, ⟨1, 1⟩] 3 (by decide) (by decide),
    by decide!, by decide!⟩

/-! ## The fixed 24-bit variant at the inputs where it fails -/

/-- C21, at the failing input: `M = 8`, `P = 15` and the element `{0x01, 0x00, 0x00}`,
whose word is `w = 1`. The field rule gives sign `+`, magnitude `0`, precision `1`, i.e.
`1/10000`; the decoder returns `0`, because its precision loop (lines 362-371) reads
`data[1]` twice and never `data[0]`. The same happens with the element
`{0x34, 0x12, 0x81}`. -/
theorem fixed24_decode_ignores_low_byte :
    get24BitDecompressedData [[1, 0, 0]] 8 15 = [0] ∧
    (((1 / 2 ^ 15 % 2 ^ 8 : Nat) : ℚ) + ((1 % 2 ^ 15 : Nat) : ℚ) / (multiplier24 15 : ℚ)
      = 1 / 10000) ∧
    decompress24 8 15 [0x34, 0x12, 0x81] = ⟨-1, 2, 0x12⟩ ∧
    (0x811234 / 2 ^ 15 % 2 ^ 8 = 2 ∧ 0x811234 % 2 ^ 15 = 0x1234) := by
  decide!

/-- The 24-bit decoder on the element `{0x96, 0xC3, 0xA5}` (word `0xA5C396`) for every
split `M + P = 23`: it extracts the fields of the word exactly when `M ≤ 7` or `M ≥ 15`. -/
theorem fixed24_decode_sample :
    ∀ M < 24, (decompress24 M (23 - M) [0x96, 0xC3, 0xA5]
      = ⟨-1, 0xA5C396 / 2 ^ (23 - M) % 2 ^ M, 0xA5C396 % 2 ^ (23 - M)⟩ ↔ (M ≤ 7 ∨ 15 ≤ M)) := by
  decide!

/-- C26, at the failing input: `M = 17`, `P = 6`, `x = 1.0`. The bulk encoder stores
`{0x40, 0, 0}` (magnitude bit `0` in bit `6` of `data[0]`); the single overwrite leaves
`{0, 0, 0}`, because its loop (lines 503-523) decrements `uci` from `2` to `1` and then
stops on `uci != 0`, so `beforeDecimal[1]` and `beforeDecimal[0]` are never written. -/
theorem insert24_drops_low_magnitude_bytes :
    get24BitCompressedData [1] 17 6 = [[64, 0, 0]] ∧
    insertSingle24BitValue [[0, 0, 0]] 1 0 17 6 = [[0, 0, 0]] ∧
    (insertSingle24BitValue [[0, 0, 0]] 1 0 17 6).getD 0 []
      ≠ (get24BitCompressedData [1] 17 6).getD 0 [] := by
  decide!

/-! ## Bulk decode: the element count -/

/-- The bound of the decoder loop recovers the element count when a record is at least
eight bits wide and the records take at most `2^24` bits. -/
theorem decode_count_recovered (v : List ℚ) (M P : Nat) (hk : 8 ≤ 1 + M + P)
    (hbits : v.length * (1 + M + P) ≤ 16777216) :
    (getVariableBitCompressedData v M P).length = ceilDiv (v.length * (1 + M + P)) 8 ∧
    uncompLimit (getVariableBitCompressedData v M P).length M P = v.length ∧
    (getVariableBitDecompressedData (getVariableBitCompressedData v M P)
      (getVariableBitCompressedData v M P).length M P).length = v.length := by
  have hlen : (getVariableBitCompressedData v M P).length
      = ceilDiv (v.length * (1 + M + P)) 8 := by
    rw [encode_length]
    rcases Nat.eq_zero_or_pos v.length with h0 | h0
    · rw [h0]
      unfold newCount ceilDiv
      rw [Nat.zero_mul, Nat.zero_mul, Nat.zero_mod]
      decide
    · exact newCount_exact hbits h0
  have hlim : uncompLimit (getVariableBitCompressedData v M P).length M P = v.length := by
    rw [hlen]
    unfold uncompLimit ceilDiv
    rcases Nat.eq_zero_or_pos v.length with h0 | h0
    · rw [h0]
      simp
    · have hk2 : 1 + M + P ≤ 16777216 := by
        calc 1 + M + P = 1 * (1 + M + P) := (Nat.one_mul _).symm
          _ ≤ v.length * (1 + M + P) := Nat.mul_le_mul_right _ h0
          _ ≤ 16777216 := hbits
      rw [Nat.mod_eq_of_lt (show 1 + M + P < 4294967296 by omega),
        Nat.mod_eq_of_lt (by omega)]
      have e : (v.length + 1) * (1 + M + P) = v.length * (1 + M + P) + (1 + M + P) := by
        rw [Nat.add_mul, Nat.one_mul]
      apply Nat.div_eq_of_lt_le
      · omega
      · show _ < (v.length + 1) * (1 + M + P)
        rw [e]
        omega
  refine ⟨hlen, hlim, ?_⟩
  unfold getVariableBitDecompressedData
  rw [decodeLoop_length, hlim]

/-- C25, at the failing input: `n = 1973793` values with `M = P = 8` (records of `17`
bits). The byte count goes through a `float` (line 546) and comes out as `4194310`, one
short of `ceil(n * 17 / 8) = 4194311`; from it the decoder computes the loop bound
`1973792`, so the decoded array has one element fewer than the input. -/
theorem decode_count_short_at_1973793 :
    (getVariableBitCompressedData (List.replicate 1973793 0) 8 8).length = 4194310 ∧
    ceilDiv (1973793 * (1 + 8 + 8)) 8 = 4194311 ∧
    8 * ceilDiv (1973793 * (1 + 8 + 8)) 8 / (1 + 8 + 8) = 1973793 ∧
    uncompLimit (getVariableBitCompressedData (List.replicate 1973793 0) 8 8).length 8 8
      = 1973792 ∧
    (getVariableBitDecompressedData (getVariableBitCompressedData (List.replicate 1973793 0) 8 8)
      (getVariableBitCompressedData (List.replicate 1973793 0) 8 8).length 8 8).length
      = 1973792 := by
  unfold getVariableBitDecompressedData
  rw [decodeLoop_length, encode_length, List.length_replicate]
  decide

/-! ## Bulk decode of bulk encode with at most nine precision bits -/

/-- Record-level round trip when the records fit the buffer: for `M ≤ 24`, `P ≤ 9` and
every array of in-range values whose records fit the
buffer (of fewer than `2^29` bytes, so that `8 * count` is an `unsigned int`), the record
the bulk decoder reads for index `i` has the sign, `beforeDp` and `afterDp` equal to
`(s_i, m_i, f_i)`, and the value stored at position `i` is made of that record. -/
theorem bulk_record_round_trip (v : List ℚ) (M P : Nat) (hM : M ≤ 24) (hP : P ≤ 9)
    (hrange : ∀ x ∈ v, splitBefore x < 2 ^ M ∧ splitAfter x (variableMultiplier P) < 2 ^ P)
    (hfit : v.length * (1 + M + P) ≤ 8 * newCount v.length M P)
    (hsmall : newCount v.length M P < 536870912)
    (i : Nat) (hi : i < v.length) :
    (readRecord (getVariableBitCompressedData v M P) M P
      ((getVariableBitCompressedData v M P).length - 1 - (i * (1 + M + P)) / 8)
      (8 - (i * (1 + M + P)) % 8)).1 =
      ⟨if v.getD i 0 < 0 then -1 else 1, splitBefore (v.getD i 0),
        splitAfter (v.getD i 0) (variableMultiplier P)⟩ ∧
    (getVariableBitDecompressedData (getVariableBitCompressedData v M P)
      (getVariableBitCompressedData v M P).length M P)[i]? =
      some ((readRecord (getVariableBitCompressedData v M P) M P
        ((getVariableBitCompressedData v M P).length - 1 - (i * (1 + M + P)) / 8)
        (8 - (i * (1 + M + P)) % 8)).1.toValue (variableDivider P)) := by
  have hr := readRecord_encode v M P hM (by omega) hrange hfit i hi (by omega)
  refine ⟨hr, ?_⟩
  rw [decode_encode_getElem v M P hM (by omega) hrange hfit hsmall i hi (by omega), hr]
  unfold Decoded.toValue
  simp only
  by_cases hneg : v.getD i 0 < 0
  · simp only [hneg, if_true]
    norm_num
  · simp only [hneg, if_false]
    norm_num

/-- The record theorem at `[-1.5, 2.25, 0.5, 0.25]`, `M = 4`, `P = 9`, index `3`, whose
precision field starts in the last bit of a byte and fills the byte after it. -/
theorem bulk_record_round_trip_witness :
    ((4 : Nat) ≤ 24 ∧ (9 : Nat) ≤ 9 ∧
      (∀ x ∈ ([-3 / 2, 9 / 4, 1 / 2, 1 / 4] : List ℚ),
        splitBefore x < 2 ^ 4 ∧ splitAfter x (variableMultiplier 9) < 2 ^ 9) ∧
      ([-3 / 2, 9 / 4, 1 / 2, 1 / 4] : List ℚ).length * (1 + 4 + 9)
        ≤ 8 * newCount ([-3 / 2, 9 / 4, 1 / 2, 1 / 4] : List ℚ).length 4 9 ∧
      newCount ([-3 / 2, 9 / 4, 1 / 2, 1 / 4] : List ℚ).length 4 9 < 536870912 ∧
      (3 : Nat) < ([-3 / 2, 9 / 4, 1 / 2, 1 / 4] : List ℚ).length) ∧
    ((readRecord (getVariableBitCompressedData [-3 / 2, 9 / 4, 1 / 2, 1 / 4] 4 9) 4 9
      ((getVariableBitCompressedData [-3 / 2, 9 / 4, 1 / 2, 1 / 4] 4 9).length - 1
        - (3 * (1 + 4 + 9)) / 8)
      (8 - (3 * (1 + 4 + 9)) % 8)).1 =
      ⟨if ([-3 / 2, 9 / 4, 1 / 2, 1 / 4] : List ℚ).getD 3 0 < 0 then -1 else 1,
        splitBefore (([-3 / 2, 9 / 4, 1 / 2, 1 / 4] : List ℚ).getD 3 0),
        splitAfter (([-3 / 2, 9 / 4, 1 / 2, 1 / 4] : List ℚ).getD 3 0) (variableMultiplier 9)⟩ ∧
    (getVariableBitDecompressedData (getVariableBitCompressedData [-3 / 2, 9 / 4, 1 / 2, 1 / 4] 4 9)
      (getVariableBitCompressedData [-3 / 2, 9 / 4, 1 / 2, 1 / 4] 4 9).length 4 9)[3]? =
      some ((readRecord (getVariableBitCompressedData [-3 / 2, 9 / 4, 1 / 2, 1 / 4] 4 9) 4 9
        ((getVariableBitCompressedData [-3 / 2, 9 / 4, 1 / 2, 1 / 4] 4 9).length - 1
          - (3 * (1 + 4 + 9)) / 8)
        (8 - (3 * (1 + 4 + 9)) % 8)).1.toValue (variableDivider 9))) :=
  ⟨by decide!, bulk_record_round_trip [-3 / 2, 9 / 4, 1 / 2, 1 / 4] 4 9 (by decide) (by decide)
    (by decide!) (by decide!) (by decide!) 3 (by decide)⟩

/-! ## Single overwrite: what it leaves alone -/

/-- The mask `~(1 << cc)` of the clearing loop keeps every other bit of a byte. -/
theorem clear_mask_testBit (cc j : Nat) (hc : cc < 8) (hj : j < 8) (hne : j ≠ cc) :
    (255 - 2 ^ cc).testBit j = true := by
  interval_cases cc <;> interval_cases j <;> first | rfl | exact absurd rfl hne

/-- The mask `(2^8 - 1) - (2^space - 1)` of the precision loop of the single overwrite
keeps the bits of a byte from `space` up. -/
theorem keep_mask_testBit (space j : Nat) (hs : space ≤ 8) (hj : j < 8) (hle : space ≤ j) :
    (255 - (2 ^ space - 1)).testBit j = true := by
  interval_cases space <;> interval_cases j <;> rfl

/-- The clearing loop, started at the cursor behind `pos` stream bits, keeps the length
of the buffer and changes no stream bit outside the `n` bits from `pos` on. -/
theorem clearLoop_frame :
    ∀ (n : Nat) (data : List Nat) (ind cc pos : Nat),
      CursorAt data.length pos ind (cc + 1) → data.length ≤ 4294967296 →
      pos + n ≤ 8 * data.length →
      (clearLoop n data ind cc).length = data.length ∧
      ∀ b, b < 8 * data.length → (b < pos ∨ pos + n ≤ b) →
        streamBit (clearLoop n data ind cc) b = streamBit data b := by
  intro n
  induction n with
  | zero => intro data ind cc pos _ _ _; exact ⟨rfl, fun _ _ _ => rfl⟩
  | succ n ih =>
    intro data ind cc pos hc hN hfit
    have hcc : cc + 1 = 8 - pos % 8 := hc.1
    have hind : ind = data.length - 1 - pos / 8 := hc.2 (by omega)
    have hw : ∀ b, b < 8 * data.length → (b < pos ∨ pos + 1 ≤ b) →
        streamBit (data.set ind (data.getD ind 0 &&& (255 - 2 ^ cc))) b = streamBit data b := by
      intro b hbl hb
      rw [streamBit_set]
      split_ifs with h
      · rw [Nat.testBit_and, clear_mask_testBit cc (7 - b % 8) (by omega) (by omega) (by omega),
          Bool.and_true]
        unfold streamBit
        rw [← h.1]
      · rfl
    have hc2 := cursorAt_advance hN hc (show 1 ≤ cc + 1 by omega) (by omega)
    simp only [Nat.add_sub_cancel] at hc2
    rw [clearLoop]
    by_cases h0 : cc = 0
    · rw [if_pos h0]
      rw [if_pos h0, if_pos h0] at hc2
      obtain ⟨hl, hf⟩ := ih (data.set ind (data.getD ind 0 &&& (255 - 2 ^ cc))) (decr32 ind) 7
        (pos + 1) (by simpa using hc2) (by simpa using hN)
        (by simp only [List.length_set]; omega)
      simp only [List.length_set] at hl hf
      refine ⟨hl, fun b hbl hb => ?_⟩
      rw [hf b hbl (by omega), hw b hbl (by omega)]
    · rw [if_neg h0]
      rw [if_neg h0, if_neg h0] at hc2
      obtain ⟨hl, hf⟩ := ih (data.set ind (data.getD ind 0 &&& (255 - 2 ^ cc))) ind (cc - 1)
        (pos + 1) (by
          rw [Nat.sub_add_cancel (by omega)]
          simpa using hc2) (by simpa using hN)
        (by simp only [List.length_set]; omega)
      simp only [List.length_set] at hl hf
      refine ⟨hl, fun b hbl hb => ?_⟩
      rw [hf b hbl (by omega), hw b hbl (by omega)]

/-- A store of the packing loops (with or without the mask of the single overwrite)
leaves a stream bit as it is when the bit lies in another byte, or the value OR-ed in
has a zero at its place and the mask keeps it. -/
theorem streamBit_write_frame (buf : List Nat) (cl : Bool) (ci space x b : Nat)
    (hs : space ≤ 8)
    (h : ci = buf.length - 1 - b / 8 → x.testBit (7 - b % 8) = false ∧ space ≤ 7 - b % 8) :
    streamBit (buf.set ci (((if cl then (255 - (2 ^ space - 1)) &&& buf.getD ci 0
      else buf.getD ci 0) ||| x) % 256)) b = streamBit buf b := by
  rw [streamBit_set]
  split_ifs with hc hcl
  · rw [testBit_byte, Nat.testBit_or, (h hc.1).1, Bool.or_false, Nat.testBit_and,
      keep_mask_testBit space (7 - b % 8) hs (by omega) (h hc.1).2, Bool.true_and,
      decide_eq_true (show 7 - b % 8 < 8 by omega), Bool.true_and]
    unfold streamBit
    rw [← hc.1]
  · rw [testBit_byte, Nat.testBit_or, (h hc.1).1, Bool.or_false,
      decide_eq_true (show 7 - b % 8 < 8 by omega), Bool.true_and]
    unfold streamBit
    rw [← hc.1]
  · rfl

/-- Frame of the packing loops for source bytes that fit their field: started behind
`pos` stream bits with `8 * uci + target` bits to go, the loop moves the cursor behind
them and changes no stream bit before `pos` and none behind the byte in which the field
ends. -/
theorem packLoop_frame_up (src : List Nat) (cl : Bool) (hsrc : ∀ i, src.getD i 0 < 256) :
    ∀ (fuel : Nat) (s : PackState) (pos : Nat),
      CursorAt s.data.length pos s.ci s.space → s.data.length ≤ 4294967296 →
      s.target ≤ 8 → (s.target = 0 → s.uci = 0) →
      (src.getD s.uci 0 < 2 ^ s.target ∨ s.space = 8) →
      pos + (8 * s.uci + s.target) ≤ 8 * s.data.length →
      8 * s.uci + s.target < fuel →
      CursorAt s.data.length (pos + (8 * s.uci + s.target))
        (packLoop src cl fuel s).ci (packLoop src cl fuel s).space ∧
      (packLoop src cl fuel s).data.length = s.data.length ∧
      ∀ b, b < 8 * s.data.length →
        (b < pos ∨ 8 * ((pos + (8 * s.uci + s.target) + 7) / 8) ≤ b) →
        streamBit (packLoop src cl fuel s).data b = streamBit s.data b := by
  intro fuel
  induction fuel with
  | zero => intro s pos _ _ _ _ _ _ hf; omega
  | succ fuel ih =>
    intro s pos hc hN ht8 ht0 hhi hfit hfuel
    obtain ⟨data, ci, space, uci, target⟩ := s
    simp only at hc hN ht8 ht0 hhi hfit hfuel ⊢
    rw [packLoop]
    simp only
    by_cases htz : target = 0
    · have hu := ht0 htz
      subst htz; subst hu
      simp only [if_true]
      exact ⟨by simpa using hc, trivial, fun _ _ _ => trivial⟩
    · rw [if_neg htz]
      have hsp : space = 8 - pos % 8 := hc.1
      have hci : ci = data.length - 1 - pos / 8 := hc.2 (by omega)
      by_cases hge : space ≥ target
      · rw [if_pos hge]
        have hw : ∀ b, b < 8 * data.length →
            (b < pos ∨ 8 * ((pos + (8 * uci + target) + 7) / 8) ≤ b) →
            streamBit (data.set ci (((if cl = true then 255 - (2 ^ space - 1) &&& data.getD ci 0
              else data.getD ci 0) ||| src.getD uci 0 <<< (space - target)) % 256)) b
              = streamBit data b := by
          intro b hbl hb
          apply streamBit_write_frame _ _ _ _ _ _ (by omega)
          intro hcb
          have hlt : b < pos := by omega
          refine ⟨?_, by omega⟩
          rw [Nat.testBit_shiftLeft]
          rcases hhi with h | h
          · have : (src.getD uci 0).testBit (7 - b % 8 - (space - target)) = false := by
              apply Nat.testBit_lt_two_pow
              calc src.getD uci 0 < 2 ^ target := h
                _ ≤ 2 ^ (7 - b % 8 - (space - target)) :=
                  Nat.pow_le_pow_right (by decide) (by omega)
            rw [this, Bool.and_false]
          · omega
        have hc2 := cursorAt_advance hN hc hge (by omega)
        by_cases hu : uci > 0
        · rw [if_pos hu]
          have := ih ⟨data.set ci (((if cl = true then 255 - (2 ^ space - 1) &&& data.getD ci 0
              else data.getD ci 0) ||| src.getD uci 0 <<< (space - target)) % 256),
              (if space - target = 0 then decr32 ci else ci),
              (if space - target = 0 then 8 else space - target), uci - 1, 8⟩ (pos + target)
            (by simpa using hc2) (by simpa using hN) (by simp) (by simp)
            (Or.inl (by simpa using hsrc (uci - 1)))
            (by simp only [List.length_set]; omega) (by simp only; omega)
          simp only [List.length_set] at this
          have e : pos + target + (8 * (uci - 1) + 8) = pos + (8 * uci + target) := by omega
          rw [e] at this
          refine ⟨this.1, this.2.1, ?_⟩
          intro b hbl hb
          rw [this.2.2 b hbl (by omega), hw b hbl hb]
        · rw [if_neg hu]
          have hu0 : uci = 0 := by omega
          subst hu0
          simp only [Nat.mul_zero, Nat.zero_add] at *
          exact ⟨by simpa using hc2, by simp, fun b hbl hb => hw b hbl hb⟩
      · rw [if_neg hge]
        have hw : ∀ b, b < 8 * data.length →
            (b < pos ∨ 8 * ((pos + (8 * uci + target) + 7) / 8) ≤ b) →
            streamBit (data.set ci (((if cl = true then 255 - (2 ^ space - 1) &&& data.getD ci 0
              else data.getD ci 0) ||| src.getD uci 0 >>> (target - space)) % 256)) b
              = streamBit data b := by
          intro b hbl hb
          apply streamBit_write_frame _ _ _ _ _ _ (by omega)
          intro hcb
          have hlt : b < pos := by omega
          refine ⟨?_, by omega⟩
          rw [Nat.testBit_shiftRight]
          rcases hhi with h | h
          · apply Nat.testBit_lt_two_pow
            calc src.getD uci 0 < 2 ^ target := h
              _ ≤ 2 ^ (target - space + (7 - b % 8)) :=
                Nat.pow_le_pow_right (by decide) (by omega)
          · omega
        have hc2 := cursorAt_advance hN hc (Nat.le_refl space) (by omega)
        simp only [Nat.sub_self, if_true] at hc2
        have := ih ⟨data.set ci (((if cl = true then 255 - (2 ^ space - 1) &&& data.getD ci 0
            else data.getD ci 0) ||| src.getD uci 0 >>> (target - space)) % 256),
            decr32 ci, 8, uci, target - space⟩ (pos + space)
          (by simpa using hc2) (by simpa using hN) (by simp only; omega)
          (by simp only; omega) (Or.inr rfl)
          (by simp only [List.length_set]; omega) (by simp only; omega)
        simp only [List.length_set] at this
        have e : pos + space + (8 * uci + (target - space)) = pos + (8 * uci + target) := by omega
        rw [e] at this
        refine ⟨this.1, this.2.1, ?_⟩
        intro b hbl hb
        rw [this.2.2 b hbl (by omega), hw b hbl hb]

/-- Frame of one field of `nbits ≤ 24` bits holding `V < 2^nbits`, written by the loop of
the bulk encoder or by the masking loop of the single overwrite. -/
theorem packField_frame_up (V nbits : Nat) (hb : nbits ≤ 24) (hV : V < 2 ^ nbits) (cl : Bool)
    (data : List Nat) (ci space pos : Nat)
    (hc : CursorAt data.length pos ci space) (hN : data.length ≤ 4294967296)
    (hfit : pos + nbits ≤ 8 * data.length) :
    CursorAt data.length (pos + nbits) (packField (bytes3 V) cl nbits data ci space).ci
      (packField (bytes3 V) cl nbits data ci space).space ∧
    (packField (bytes3 V) cl nbits data ci space).data.length = data.length ∧
    ∀ b, b < 8 * data.length → (b < pos ∨ 8 * ((pos + nbits + 7) / 8) ≤ b) →
      streamBit (packField (bytes3 V) cl nbits data ci space).data b = streamBit data b := by
  obtain ⟨h1, h2, h3, h4⟩ := fieldStart_sum nbits
  have h4 := h4 hb
  unfold packField packFuel
  generalize (fieldStart nbits).1 = uci at *
  generalize (fieldStart nbits).2 = target at *
  have hhi : (bytes3 V).getD uci 0 < 2 ^ target := by
    apply Nat.lt_pow_two_of_testBit
    intro i hi
    by_cases h8 : i < 8
    · rw [bytes3_testBit V uci i h3 h8]
      apply Nat.testBit_lt_two_pow
      calc V < 2 ^ nbits := hV
        _ ≤ 2 ^ (8 * uci + i) := Nat.pow_le_pow_right (by decide) (by omega)
    · exact testBit_of_lt_256 (bytes3_lt V uci) (by omega)
  have := packLoop_frame_up (bytes3 V) cl (bytes3_lt V) (8 * uci + target + 2)
    ⟨data, ci, space, uci, target⟩ pos hc hN h4 h2 (Or.inl hhi)
    (by simp only; omega) (by simp only; omega)
  simp only at this
  rw [show pos + (8 * uci + target) = pos + nbits by omega] at this
  exact this

/-- The clearing loop stores only values below `256` into a buffer of bytes. -/
theorem clearLoop_lt :
    ∀ (n : Nat) (data : List Nat) (ind cc : Nat), (∀ c, data.getD c 0 < 256) →
      ∀ c, (clearLoop n data ind cc).getD c 0 < 256 := by
  intro n
  induction n with
  | zero => intro data ind cc h; exact h
  | succ n ih =>
    intro data ind cc h
    have hs : ∀ c, (data.set ind (data.getD ind 0 &&& (255 - 2 ^ cc))).getD c 0 < 256 := by
      intro c
      rw [getD_set]
      split_ifs
      · exact Nat.lt_of_le_of_lt Nat.and_le_left (h ind)
      · exact h c
    rw [clearLoop]
    split_ifs
    · exact ih _ _ _ hs
    · exact ih _ _ _ hs

/-- The single overwrite leaves a buffer of bytes a buffer of bytes. -/
theorem insert_lt (buf : List Nat) (byteCount i : Nat) (x : ℚ) (M P : Nat)
    (h : ∀ c, buf.getD c 0 < 256) :
    ∀ c, (insertSingleVariableBitValue buf byteCount i x M P).getD c 0 < 256 := by
  unfold insertSingleVariableBitValue packField
  simp only
  apply packLoop_lt
  apply packLoop_lt
  intro c
  simp only
  split_ifs
  · rw [getD_set]
    split_ifs
    · exact Nat.mod_lt _ (by decide)
    · exact clearLoop_lt _ _ _ _ h c
  · exact clearLoop_lt _ _ _ _ h c

/-- Frame of the single overwrite of record `i` with an in-range value: the length of the
buffer stays, and no stream bit before the sign bit of record `i` and none behind the
byte in which record `i` ends is changed. -/
theorem insert_frame (buf : List Nat) (i M P : Nat) (x : ℚ) (hM : M ≤ 24) (hP : P ≤ 24)
    (hlen : buf.length < 4294967296) (hoff : i * (1 + M + P) < 4294967296)
    (hfit : (i + 1) * (1 + M + P) ≤ 8 * buf.length)
    (hm : splitBefore x < 2 ^ M) (hf : splitAfter x (variableMultiplier P) < 2 ^ P) :
    (insertSingleVariableBitValue buf buf.length i x M P).length = buf.length ∧
    ∀ b, b < 8 * buf.length →
      (b < i * (1 + M + P) ∨ 8 * (((i + 1) * (1 + M + P) + 7) / 8) ≤ b) →
      streamBit (insertSingleVariableBitValue buf buf.length i x M P) b = streamBit buf b := by
  have hik : (i + 1) * (1 + M + P) = i * (1 + M + P) + (1 + M + P) := by
    rw [Nat.add_mul, Nat.one_mul]
  rw [hik] at hfit ⊢
  have hoff' : bitOffset i M P = i * (1 + M + P) := by
    unfold bitOffset
    rw [Nat.mod_eq_of_lt (show 1 + M + P < 4294967296 by omega), Nat.mod_eq_of_lt hoff]
  have hsb : startByte buf.length i M P = buf.length - 1 - i * (1 + M + P) / 8 := by
    unfold startByte
    rw [hoff']
    omega
  have hsi : startIndex i M P = 7 - i * (1 + M + P) % 8 := by
    unfold startIndex
    rw [hoff']
  unfold insertSingleVariableBitValue
  simp only
  rw [hsb, hsi]
  generalize hpos : i * (1 + M + P) = pos at *
  have hN : buf.length ≤ 4294967296 := by omega
  have hc0 : CursorAt buf.length pos (buf.length - 1 - pos / 8) (7 - pos % 8 + 1) :=
    ⟨by omega, fun _ => rfl⟩
  obtain ⟨hl0, hf0⟩ := clearLoop_frame (1 + M + P) buf (buf.length - 1 - pos / 8)
    (7 - pos % 8) pos hc0 hN (by omega)
  generalize clearLoop (1 + M + P) buf (buf.length - 1 - pos / 8) (7 - pos % 8) = d0
    at hl0 hf0 ⊢
  have hf1 : ∀ b, b < 8 * buf.length → (b < pos ∨ pos + 1 ≤ b) →
      streamBit (if x < 0 then
        d0.set (buf.length - 1 - pos / 8)
          ((d0.getD (buf.length - 1 - pos / 8) 0 ||| 1 <<< (7 - pos % 8)) % 256) else d0) b
        = streamBit d0 b := by
    intro b hbl hb
    split_ifs
    · apply streamBit_or_frame
      intro hcb
      rw [Nat.one_shiftLeft, Nat.testBit_two_pow]
      exact decide_eq_false (by omega)
    · rfl
  have hl1 : (if x < 0 then
        d0.set (buf.length - 1 - pos / 8)
          ((d0.getD (buf.length - 1 - pos / 8) 0 ||| 1 <<< (7 - pos % 8)) % 256) else d0).length
        = buf.length := by
    split_ifs
    · rw [List.length_set, hl0]
    · exact hl0
  have hc1 := cursorAt_advance hN hc0 (show 1 ≤ 7 - pos % 8 + 1 by omega) (by omega)
  simp only [Nat.add_sub_cancel] at hc1
  generalize (if x < 0 then
        d0.set (buf.length - 1 - pos / 8)
          ((d0.getD (buf.length - 1 - pos / 8) 0 ||| 1 <<< (7 - pos % 8)) % 256) else d0) = d1
    at hf1 hl1 ⊢
  generalize (if 7 - pos % 8 = 0 then decr32 (buf.length - 1 - pos / 8)
    else buf.length - 1 - pos / 8) = ci1 at hc1 ⊢
  generalize (if 7 - pos % 8 = 0 then 8 else 7 - pos % 8) = space1 at hc1 ⊢
  unfold splitFloat
  simp only
  obtain ⟨hc2, hl2, hf2⟩ := packField_frame_up (splitBefore x) M hM hm false d1 ci1 space1
    (pos + 1) (by rw [hl1]; exact hc1) (by omega) (by omega)
  generalize packField (bytes3 (splitBefore x)) false M d1 ci1 space1 = s2 at hc2 hl2 hf2 ⊢
  obtain ⟨_, hl3, hf3⟩ := packField_frame_up (splitAfter x (variableMultiplier P)) P hP hf true
    s2.data s2.ci s2.space (pos + 1 + M) (by rw [hl2]; exact hc2) (by omega) (by omega)
  refine ⟨by omega, ?_⟩
  intro b hbl hb
  rw [hf3 b (by omega) (by omega), hf2 b (by omega) (by omega), hf1 b hbl (by omega),
    hf0 b hbl (by omega)]

/-- C24: for `M, P ≤ 24`, every buffer of bytes, every record `i` that lies inside the
buffer and every in-range value, `insertSingleVariableBitValue` changes no stream bit
before the sign bit of record `i` (no bit of a record `j < i`) and no byte whose index is
below that of the byte holding the last bit of record `i`. -/
theorem insert_leaves_earlier_records_and_lower_bytes (buf : List Nat) (i M P : Nat) (x : ℚ)
    (hM : M ≤ 24) (hP : P ≤ 24) (hbytes : ∀ c, buf.getD c 0 < 256)
    (hlen : buf.length < 4294967296) (hoff : i * (1 + M + P) < 4294967296)
    (hfit : (i + 1) * (1 + M + P) ≤ 8 * buf.length)
    (hm : splitBefore x < 2 ^ M) (hf : splitAfter x (variableMultiplier P) < 2 ^ P) :
    (∀ b, b < i * (1 + M + P) →
      streamBit (insertSingleVariableBitValue buf buf.length i x M P) b = streamBit buf b) ∧
    (∀ c, c < buf.length - 1 - ((i + 1) * (1 + M + P) - 1) / 8 →
      (insertSingleVariableBitValue buf buf.length i x M P).getD c 0 = buf.getD c 0) := by
  obtain ⟨hl, hfr⟩ := insert_frame buf i M P x hM hP hlen hoff hfit hm hf
  have hik : (i + 1) * (1 + M + P) = i * (1 + M + P) + (1 + M + P) := by
    rw [Nat.add_mul, Nat.one_mul]
  constructor
  · intro b hb
    exact hfr b (by omega) (Or.inl hb)
  · intro c hc
    apply Nat.eq_of_testBit_eq
    intro j
    by_cases hj : j < 8
    · have h := hfr (8 * (buf.length - 1 - c) + (7 - j)) (by omega) (Or.inr (by omega))
      unfold streamBit at h
      rw [hl] at h
      have e1 : buf.length - 1 - (8 * (buf.length - 1 - c) + (7 - j)) / 8 = c := by omega
      have e2 : 7 - (8 * (buf.length - 1 - c) + (7 - j)) % 8 = j := by omega
      rw [e1, e2] at h
      exact h
    · rw [testBit_of_lt_256 (insert_lt buf buf.length i x M P hbytes c) (by omega),
        testBit_of_lt_256 (hbytes c) (by omega)]

/-- The frame theorem at the buffer `AB CD EF` (bytes `0, 1, 2`), `M = 3`, `P = 1`, record
`1`, value `2.1`: the overwrite gives `AB 40 E9`; the five bits of record `0` (the top of
byte `2`) and byte `0` stay. -/
theorem insert_leaves_earlier_records_and_lower_bytes_witness :
    ((3 : Nat) ≤ 24 ∧ (1 : Nat) ≤ 24 ∧ (∀ c, ([0xAB, 0xCD, 0xEF] : List Nat).getD c 0 < 256) ∧
      ([0xAB, 0xCD, 0xEF] : List Nat).length < 4294967296 ∧
      1 * (1 + 3 + 1) < 4294967296 ∧
      (1 + 1) * (1 + 3 + 1) ≤ 8 * ([0xAB, 0xCD, 0xEF] : List Nat).length ∧
      splitBefore (21 / 10) < 2 ^ 3 ∧ splitAfter (21 / 10) (variableMultiplier 1) < 2 ^ 1) ∧
    ((∀ b, b < 1 * (1 + 3 + 1) →
      streamBit (insertSingleVariableBitValue [0xAB, 0xCD, 0xEF]
        ([0xAB, 0xCD, 0xEF] : List Nat).length 1 (21 / 10) 3 1) b
        = streamBit [0xAB, 0xCD, 0xEF] b) ∧
    (∀ c, c < ([0xAB, 0xCD, 0xEF] : List Nat).length - 1 - ((1 + 1) * (1 + 3 + 1) - 1) / 8 →
      (insertSingleVariableBitValue [0xAB, 0xCD, 0xEF]
        ([0xAB, 0xCD, 0xEF] : List Nat).length 1 (21 / 10) 3 1).getD c 0
        = ([0xAB, 0xCD, 0xEF] : List Nat).getD c 0)) ∧
    insertSingleVariableBitValue [0xAB, 0xCD, 0xEF] 3 1 (21 / 10) 3 1 = [0xAB, 0x40, 0xE9] :=
  have hb : ∀ c, ([0xAB, 0xCD, 0xEF] : List Nat).getD c 0 < 256 := by
    intro c
    rcases c with _ | _ | _ | c <;> first | decide | exact Nat.zero_lt_succ _
  ⟨⟨by decide, by decide, hb, by decide, by decide, by decide, by decide!, by decide!⟩,
    insert_leaves_earlier_records_and_lower_bytes [0xAB, 0xCD, 0xEF] 1 3 1 (21 / 10)
      (by decide) (by decide) hb (by decide) (by decide) (by decide) (by decide!) (by decide!),
    by decide!⟩

/-! ## Bulk encode and decode at an input whose records do not fit the buffer -/

/-- C7, at the failing input: `n = 1973793` values `0.001` (in range: `m = 0`, `f = 1`)
with `M = P = 8`, records of `k = 17` bits. The returned buffer has `N = 4194310` bytes
(the byte count of line 546 goes through a `float`), i.e. `33554480` bits. Stream bit
`b = 33554480` is below `n * k`; it is bit `k - 1 - (b mod k) = 0` of the word of element
`floor(b / k) = n - 1`, which is set; but `floor(b / 8) = N`, so the byte
`N - 1 - floor(b / 8)` that should hold it is not a byte of the buffer. -/
theorem bulk_encode_layout_short_at_1973793 :
    (splitBefore (1 / 1000) < 2 ^ 8 ∧ splitAfter (1 / 1000) (variableMultiplier 8) < 2 ^ 8) ∧
    (getVariableBitCompressedData (List.replicate 1973793 (1 / 1000)) 8 8).length = 4194310 ∧
    33554480 < (List.replicate 1973793 (1 / 1000 : ℚ)).length * (1 + 8 + 8) ∧
    33554480 / (1 + 8 + 8) = 1973792 ∧
    (recordWord 8 8 (1 / 1000)).testBit (1 + 8 + 8 - 1 - 33554480 % (1 + 8 + 8)) = true ∧
    33554480 / 8 = 4194310 ∧
    ¬ 33554480 / 8 ≤ (getVariableBitCompressedData (List.replicate 1973793 (1 / 1000)) 8 8).length
      - 1 := by
  rw [encode_length, List.length_replicate]
  decide!

/-- C8, at the failing input: the arrays `v = [0, ..., 0, 0]` and `w = [0, ..., 0, 0.001]`
of `n = 1973793` in-range values, `M = P = 8`. Their last elements have the triples
`(+, 0, 0)` and `(+, 0, 1)`, whose words differ in bit `0` only, which is stream bit
`n * 17 - 1 = 33554480`. Both returned buffers have `4194310` bytes, i.e. stream bits
`0 .. 33554479`: the one bit in which the two inputs differ has no place in them. -/
theorem bulk_encode_injective_short_at_1973793 :
    (List.replicate 1973792 (0 : ℚ) ++ [0]).length = 1973793 ∧
    (List.replicate 1973792 (0 : ℚ) ++ [1 / 1000]).length = 1973793 ∧
    (splitBefore 0 < 2 ^ 8 ∧ splitAfter 0 (variableMultiplier 8) < 2 ^ 8) ∧
    (splitBefore (1 / 1000) < 2 ^ 8 ∧ splitAfter (1 / 1000) (variableMultiplier 8) < 2 ^ 8) ∧
    recordTriple 8 0 ≠ recordTriple 8 (1 / 1000) ∧
    (recordWord 8 8 0 = 0 ∧ recordWord 8 8 (1 / 1000) = 1) ∧
    (getVariableBitCompressedData (List.replicate 1973792 0 ++ [0]) 8 8).length = 4194310 ∧
    (getVariableBitCompressedData (List.replicate 1973792 0 ++ [1 / 1000]) 8 8).length
      = 4194310 ∧
    1973793 * (1 + 8 + 8) - 1 = 33554480 ∧ ¬ 33554480 < 8 * 4194310 := by
  have h0 : ∀ x : ℚ, (List.replicate 1973792 (0 : ℚ) ++ [x]).length = 1973793 := by
    intro x
    rw [List.length_append, List.length_replicate, List.length_singleton]
  have h1 : ∀ x : ℚ,
      (getVariableBitCompressedData (List.replicate 1973792 0 ++ [x]) 8 8).length = 4194310 := by
    intro x
    rw [encode_length, h0]
    decide
  exact ⟨h0 0, h0 (1 / 1000), by decide!, by decide!, by decide!, by decide!, h1 0,
    h1 (1 / 1000), by decide, by decide⟩

/-- C23, at the failing input: `n = 1973793` values `0.001` (in range) with `M = 8`,
`P = 8 ≤ 9`. The buffer written by the encoder has `4194310` bytes, from which the decoder
computes the loop bound `1973792` (line 664); for the index `i = 1973792 < n` it extracts
nothing at all. -/
theorem bulk_record_round_trip_short_at_1973793 :
    (splitBefore (1 / 1000) < 2 ^ 8 ∧ splitAfter (1 / 1000) (variableMultiplier 8) < 2 ^ 8) ∧
    1973792 < (List.replicate 1973793 (1 / 1000 : ℚ)).length ∧
    (getVariableBitCompressedData (List.replicate 1973793 (1 / 1000)) 8 8).length = 4194310 ∧
    ¬ (List.replicate 1973793 (1 / 1000 : ℚ)).length * (1 + 8 + 8)
      ≤ 8 * (getVariableBitCompressedData (List.replicate 1973793 (1 / 1000)) 8 8).length ∧
    uncompLimit (getVariableBitCompressedData (List.replicate 1973793 (1 / 1000)) 8 8).length
      8 8 = 1973792 ∧
    (getVariableBitDecompressedData
      (getVariableBitCompressedData (List.replicate 1973793 (1 / 1000)) 8 8)
      (getVariableBitCompressedData (List.replicate 1973793 (1 / 1000)) 8 8).length 8 8)[1973792]?
      = none := by
  have hl : (getVariableBitDecompressedData
      (getVariableBitCompressedData (List.replicate 1973793 (1 / 1000)) 8 8)
      (getVariableBitCompressedData (List.replicate 1973793 (1 / 1000)) 8 8).length 8 8).length
      = 1973792 := by
    unfold getVariableBitDecompressedData
    rw [decodeLoop_length, encode_length, List.length_replicate]
    decide
  refine ⟨by decide!, ?_, ?_, ?_, ?_, List.getElem?_eq_none (by rw [hl])⟩
  · rw [List.length_replicate]
    decide
  · rw [encode_length, List.length_replicate]
    decide
  · rw [encode_length, List.length_replicate]
    decide
  · rw [encode_length, List.length_replicate]
    decide

end Compressor
